import Mathlib

/-!
# Huffman code construction (`huffman.c`)

A shallow embedding of `huffman.c` and a verification of its queue, tree
builder and code derivation.

Modelling conventions.

* A `Tree*` is a value of `Tree`: `Tree.null` is the NULL pointer and
  `Tree.node c occurance left right` a pointer to a `struct Tree`.  A `char`
  is represented by the byte value `0..255` it was converted from (the
  conversion `int -> char` is injective on that range, and every comparison
  in the program is between two converted values).
* `int` quantities are `Int`s in the range `-2^31 .. 2^31 - 1`.  The results
  of `int` arithmetic on weights, products and totals are reduced to that
  range by `wrapInt`: C leaves signed overflow undefined, and the
  two's-complement result is what the compiled program stores.  The
  increments of `populateHashTable` are taken exactly (a slot of the table
  overflows only when one byte value occurs `2^31` times).
* The linked list of `QNode`s hanging off `q->first` is a `List Tree` (each
  `QNode` contributes the tree it points to).  `q->last` is written once and
  never read, so it is not represented.  `q->size` is kept as a field of its
  own, exactly as the program maintains it.
* `throwError` ends the process: functions that can reach it return
  `Except Err`.  Dereferencing NULL and indexing outside an array are
  reported as `Err.nullDeref` and `Err.outOfBounds`.
* Loops without an evident bound (`while (q->size >= 2)`, `while (line)`) take
  a number of iterations as fuel and return `none` when it runs out; the
  theorems show that the fuel the callers supply is enough.
* The input file is the list of its bytes.  Whether plain `char` is signed is
  left to the implementation by C; `populateHashTable` indexes the table with
  a `char`, so it takes the signedness as the parameter `charSigned`.
* Printing is not represented: `printChar` and `printHuffman` are their
  returned and accumulated numbers.
-/

namespace Huffman

def MAXSTR : Nat := 5000

def NUMCHARS : Nat := 256

/-- The largest value of an `int`: `2^31 - 1`. -/
def INT_MAX : Int := 2147483647

/-- The `int` that holds an arithmetic result `x`: the value congruent to `x`
modulo `2^32` in the range `-2^31 .. 2^31 - 1`. -/
def wrapInt (x : Int) : Int := (x + 2147483648) % 4294967296 - 2147483648

/-- A `Tree*`: NULL, or a pointer to a `struct Tree` with fields `c`,
`occurance`, `left`, `right`. -/
inductive Tree where
  | null : Tree
  | node (c : Nat) (occurance : Int) (left right : Tree) : Tree
  deriving DecidableEq, Repr

/-- The ways in which a run can stop without a result. -/
inductive Err where
  | queueUnderflow : Err
  | nullDeref : Err
  | outOfBounds : Err
  deriving DecidableEq, Repr

/-- The `Queue` struct: the `size` field and the list reached from `first`. -/
structure Queue where
  size : Nat
  first : List Tree
  deriving DecidableEq, Repr

deriving instance DecidableEq for Except

/-- The queue returned by `allocateSpace(1, sizeof(Queue))`: all fields zero. -/
def emptyQueue : Queue := Queue.mk 0 []

/-- The `while` loop of `queueAdd` followed by the two pointer updates: the
argument list is what hangs off `current->next`, `w` is
`node->tree->occurance`, and the result is the new `current->next` chain. -/
def queueAddLoop (w : Int) (node : Tree) : List Tree → Except Err (List Tree)
  | [] => .ok [node]
  | Tree.null :: _ => .error Err.nullDeref
  | Tree.node c o l r :: rest =>
    if o < w then
      match queueAddLoop w node rest with
      | .ok rest1 => .ok (Tree.node c o l r :: rest1)
      | .error e => .error e
    else .ok (node :: Tree.node c o l r :: rest)

/-- `queueAdd(q, node)`, where `node` is a fresh `QNode` holding the tree
`node` (its `next` is NULL). -/
def queueAdd (q : Queue) (node : Tree) : Except Err Queue :=
  if q.size = 0 then .ok (Queue.mk (q.size + 1) [node])
  else
    match q.first, node with
    | [], _ => .error Err.nullDeref
    | Tree.null :: _, _ => .error Err.nullDeref
    | Tree.node _ _ _ _ :: _, Tree.null => .error Err.nullDeref
    | Tree.node fc fo fl fr :: rest, Tree.node c w l r =>
      if fo > w then .ok (Queue.mk (q.size + 1) (Tree.node c w l r :: Tree.node fc fo fl fr :: rest))
      else
        match queueAddLoop w (Tree.node c w l r) rest with
        | .ok rest1 => .ok (Queue.mk (q.size + 1) (Tree.node fc fo fl fr :: rest1))
        | .error e => .error e

/-- `queueRemove(&tree1, &tree2, q)`: the trees of the two removed nodes and
the queue left behind. -/
def queueRemove (q : Queue) : Except Err (Tree × Tree × Queue) :=
  if q.size < 2 then .error Err.queueUnderflow
  else
    match q.first with
    | n1 :: n2 :: rest => .ok (n1, n2, Queue.mk (q.size - 2) rest)
    | _ => .error Err.nullDeref

/-- The leaf built in the body of the loop of `makeQueue`. -/
def mkLeaf (i : Nat) (occ : Int) : Tree := Tree.node i occ Tree.null Tree.null

/-- The `for` loop of `makeQueue` over the remaining indices. -/
def makeQueueLoop (hashTable : Nat → Int) : List Nat → Queue → Except Err Queue
  | [], q => .ok q
  | i :: is, q =>
    if hashTable i > 0 then
      match queueAdd q (mkLeaf i (hashTable i)) with
      | .ok q1 => makeQueueLoop hashTable is q1
      | .error e => .error e
    else makeQueueLoop hashTable is q

/-- `makeQueue(q, hashTable)`. -/
def makeQueue (q : Queue) (hashTable : Nat → Int) : Except Err Queue :=
  makeQueueLoop hashTable (List.range NUMCHARS) q

/-- `combineTrees(q)`.  The weight of the new tree is the `int` sum
`tree1->occurance + tree2->occurance`. -/
def combineTrees (q : Queue) : Except Err Queue :=
  match queueRemove q with
  | .error e => .error e
  | .ok (tree1, tree2, q1) =>
    match tree1, tree2 with
    | Tree.node c1 o1 l1 r1, Tree.node c2 o2 l2 r2 =>
      queueAdd q1
        (Tree.node 0 (wrapInt (o1 + o2)) (Tree.node c1 o1 l1 r1) (Tree.node c2 o2 l2 r2))
    | _, _ => .error Err.nullDeref

/-- The loop `while (q->size >= 2) combineTrees(q);` of `main`, run for at
most `fuel` iterations.  The result is `none` when the fuel runs out while
the loop condition still holds; otherwise it is the number of iterations
performed and the queue on exit (or the error that ended the run). -/
def mergeLoop : Nat → Queue → Option (Except Err (Nat × Queue))
  | fuel, q =>
    if q.size ≥ 2 then
      match fuel with
      | 0 => none
      | fuel1 + 1 =>
        match combineTrees q with
        | .error e => some (.error e)
        | .ok q1 =>
          match mergeLoop fuel1 q1 with
          | none => none
          | some (.error e) => some (.error e)
          | some (.ok (k, q2)) => some (.ok (k + 1, q2))
    else some (.ok (0, q))

/-- `charInTree(c, tree)`. -/
def charInTree (c : Nat) : Tree → Bool
  | Tree.null => false
  | Tree.node tc _ l r =>
    if tc = c then true else (charInTree c l || charInTree c r)

/-- An assignment `huffmanString[index] = v` into a buffer. -/
def bufWrite (huffmanString : List Nat) (index v : Nat) : Except Err (List Nat) :=
  if index < huffmanString.length then .ok (huffmanString.set index v)
  else .error Err.outOfBounds

/-- `makeHuffmanString(index, c, tree, huffmanString)`: the returned flag and
the buffer afterwards.  `'0'` is 48 and `'1'` is 49. -/
def makeHuffmanString (index c : Nat) : Tree → List Nat → Except Err (Bool × List Nat)
  | Tree.null, huffmanString => .ok (false, huffmanString)
  | Tree.node tc _ l r, huffmanString =>
    if tc = c then
      match bufWrite huffmanString index 0 with
      | .ok s => .ok (true, s)
      | .error e => .error e
    else
      match makeHuffmanString (index + 1) c l huffmanString with
      | .error e => .error e
      | .ok (true, s1) =>
        (match bufWrite s1 index 48 with
        | .ok s => .ok (true, s)
        | .error e => .error e)
      | .ok (false, s1) =>
        match makeHuffmanString (index + 1) c r s1 with
        | .error e => .error e
        | .ok (true, s2) =>
          (match bufWrite s2 index 49 with
          | .ok s => .ok (true, s)
          | .error e => .error e)
        | .ok (false, s2) => .ok (false, s2)

/-- `getOccurances(c, tree)`. -/
def getOccurances (c : Nat) : Tree → Int
  | Tree.null => -1
  | Tree.node tc o l r =>
    if tc = c then o
    else
      if getOccurances c l ≠ -1 then getOccurances c l
      else
        if getOccurances c r ≠ -1 then getOccurances c r
        else -1

/-- The C string held in a buffer: the bytes before the first NUL. -/
def cString (buf : List Nat) : List Nat := buf.takeWhile (fun b => b ≠ 0)

/-- `strlen`. -/
def strlen (buf : List Nat) : Nat := (cString buf).length

/-- The buffer `allocateSpace(MAXSTR, sizeof(char))` of `printChar`. -/
def freshBuffer : List Nat := List.replicate MAXSTR 0

/-- The string `printChar` prints for `c`: `makeHuffmanString(0, c, tree, huffmanString)`
on a zeroed buffer of `MAXSTR` bytes, read back as a C string. -/
def huffmanCode (c : Nat) (tree : Tree) : Except Err (List Nat) :=
  match makeHuffmanString 0 c tree freshBuffer with
  | .ok (_, s) => .ok (cString s)
  | .error e => .error e

/-- `printChar(c, tree)`: the returned number of bytes, the `int` product
`occurances * huffmanDigits` (the printed line is not represented). -/
def printChar (c : Nat) (tree : Tree) : Except Err Int :=
  if c = 0 then .ok 0
  else
    if charInTree c tree then
      match huffmanCode c tree with
      | .ok s => .ok (wrapInt (getOccurances c tree * (s.length : Int)))
      | .error e => .error e
    else .ok 0

/-- The loop of `printHuffman` over the remaining values of `c`; `totalBytes`
is an `int`. -/
def printHuffmanLoop (tree : Tree) : List Nat → Int → Except Err Int
  | [], totalBytes => .ok totalBytes
  | c :: cs, totalBytes =>
    match printChar c tree with
    | .ok bytes => printHuffmanLoop tree cs (wrapInt (totalBytes + bytes))
    | .error e => .error e

/-- `printHuffman(tree)`: the total it prints. -/
def printHuffman (tree : Tree) : Except Err Int :=
  printHuffmanLoop tree (List.range NUMCHARS) 0

/-- The part of `main` after `populateHashTable`: seed the queue, merge, and
read the tree off the first queue node.  The loop is given `q->size`
iterations of fuel; `none` would mean that this was not enough. -/
def buildTree (hashTable : Nat → Int) : Option (Except Err Tree) :=
  match makeQueue emptyQueue hashTable with
  | .error e => some (.error e)
  | .ok q =>
    match mergeLoop q.size q with
    | none => none
    | some (.error e) => some (.error e)
    | some (.ok (_, q1)) =>
      match q1.first with
      | [] => some (.error Err.nullDeref)
      | t :: _ => some (.ok t)

/-! ## The program: reading the file and `main` -/

/-- The bytes one call `fgets(line, k + 1, fp)` stores (at most `k`, ending
after the first newline, which is byte 10) and the rest of the file. -/
def readLine : Nat → List Nat → List Nat × List Nat
  | 0, input => ([], input)
  | _ + 1, [] => ([], [])
  | k + 1, b :: bs =>
    if b = 10 then ([b], bs)
    else (b :: (readLine k bs).1, (readLine k bs).2)

/-- `fgets(line, n, fp)` on the unread part of the file: `none` is the NULL
returned at end of file, otherwise the contents of `line` up to its
terminating NUL, and the part of the file still unread. -/
def fgets (n : Nat) (input : List Nat) : Option (List Nat × List Nat) :=
  match input with
  | [] => none
  | _ :: _ => some (readLine (n - 1) input)

/-- The value of `line[i]` as an `int` for the stored byte `b`: where plain
`char` is signed, bytes from 128 on are negative. -/
def charValue (charSigned : Bool) (b : Nat) : Int :=
  if charSigned = true ∧ 128 ≤ b then (b : Int) - 256 else (b : Int)

/-- The loop `for (i = 0; i < length; i++) (hashTable[line[i]])++;` over the
bytes of the line that are left.  The table has `NUMCHARS` slots. -/
def countLoop (charSigned : Bool) : List Nat → (Nat → Int) → Except Err (Nat → Int)
  | [], hashTable => .ok hashTable
  | b :: bs, hashTable =>
    if 0 ≤ charValue charSigned b ∧ charValue charSigned b < (NUMCHARS : Int) then
      countLoop charSigned bs
        (fun j => if j = (charValue charSigned b).toNat then hashTable j + 1 else hashTable j)
    else .error Err.outOfBounds

/-- The loop `while (line)` of `populateHashTable`, for at most `fuel` lines;
`none` when the fuel runs out before the end of the file. -/
def populateLoop (charSigned : Bool) : Nat → List Nat → (Nat → Int) →
    Option (Except Err (Nat → Int))
  | fuel, input, hashTable =>
    match fgets MAXSTR input with
    | none => some (.ok hashTable)
    | some (line, rest) =>
      match fuel with
      | 0 => none
      | fuel1 + 1 =>
        match countLoop charSigned (cString (line ++ [0])) hashTable with
        | .error e => some (.error e)
        | .ok hashTable1 => populateLoop charSigned fuel1 rest hashTable1

/-- `populateHashTable(hashTable, fileName)` for a file that opens and has the
bytes `file`.  Every call of `fgets` but the last consumes at least one byte,
so `file.length` lines of fuel are enough. -/
def populateHashTable (charSigned : Bool) (hashTable : Nat → Int) (file : List Nat) :
    Option (Except Err (Nat → Int)) :=
  populateLoop charSigned file.length file hashTable

/-- The table `allocateSpace(NUMCHARS, sizeof(int))`: all zero. -/
def zeroTable : Nat → Int := fun _ => 0

/-- The tree `main` passes to `printHuffman` for a file with the bytes `file`. -/
def mainTree (charSigned : Bool) (file : List Nat) : Option (Except Err Tree) :=
  match populateHashTable charSigned zeroTable file with
  | none => none
  | some (.error e) => some (.error e)
  | some (.ok hashTable) => buildTree hashTable

/-! ## Notions used to state the properties -/

/-- The weight of a queue entry: `tree->occurance`.  It is only ever applied
to non-NULL trees; NULL is given 0. -/
def weight : Tree → Int
  | Tree.null => 0
  | Tree.node _ o _ _ => o

/-- The representation invariant of a queue: `size` counts the nodes of the
list and every node holds a tree. -/
def Queue.wf (q : Queue) : Prop :=
  q.size = q.first.length ∧ ∀ t ∈ q.first, t ≠ Tree.null

instance (q : Queue) : Decidable q.wf := by
  unfold Queue.wf; infer_instance

/-- The entries are in ascending order of weight. -/
def Queue.sorted (q : Queue) : Prop :=
  q.first.Pairwise (fun a b => weight a ≤ weight b)

instance (q : Queue) : Decidable q.sorted := by
  unfold Queue.sorted; infer_instance

/-- The byte values with a positive count, in ascending order. -/
def positiveIndices (hashTable : Nat → Int) : List Nat :=
  (List.range NUMCHARS).filter (fun i => decide (hashTable i > 0))

/-- The sum of the positive counts of a table: the number of bytes counted. -/
def positiveSum (hashTable : Nat → Int) : Int := ((positiveIndices hashTable).map hashTable).sum

/-- The number of byte values with a positive count. -/
def positiveCount (hashTable : Nat → Int) : Nat := (positiveIndices hashTable).length

/-- The leaves of a tree, left to right, each with its symbol and count.  A
leaf is a node both of whose children are NULL. -/
def leaves : Tree → List (Nat × Int)
  | Tree.null => []
  | Tree.node c o l r =>
    if l = Tree.null ∧ r = Tree.null then [(c, o)] else leaves l ++ leaves r

/-- A leaf: a node without children. -/
def isLeaf : Tree → Bool
  | Tree.node _ _ Tree.null Tree.null => true
  | _ => false

/-- The symbol stored in a node. -/
def symbol : Tree → Nat
  | Tree.null => 0
  | Tree.node c _ _ _ => c

/-- The shape of the trees the build produces: a leaf, or a node with `c = 0`
(as `allocateSpace` zeroes it) and two trees of that shape below it. -/
def shaped : Tree → Prop
  | Tree.null => False
  | Tree.node c _ l r => (l = Tree.null ∧ r = Tree.null) ∨ (c = 0 ∧ shaped l ∧ shaped r)

/-- Every node has a positive weight and every node with children has the sum
of their weights. -/
def weighted : Tree → Prop
  | Tree.null => True
  | Tree.node _ o l r =>
    0 < o ∧ ((l = Tree.null ∧ r = Tree.null) ∨ (o = weight l + weight r ∧ weighted l ∧ weighted r))

/-- The bytes a file may hold for `populateHashTable` to count all of them:
no NUL, and below 128 where plain `char` is signed. -/
def countable (charSigned : Bool) (file : List Nat) : Prop :=
  ∀ b ∈ file, 0 < b ∧ b < NUMCHARS ∧ (charSigned = true → b < 128)

instance (charSigned : Bool) (file : List Nat) : Decidable (countable charSigned file) := by
  unfold countable; infer_instance

/-- The table `populateHashTable` computes for a file it can count. -/
def countTable (file : List Nat) : Nat → Int := fun j => (file.count j : Int)

/-! ## The specification side: claimed insertion position, priority queue, encoder and decoder -/

/-- The insertion the specification describes: the new entry goes behind every
entry whose weight is less than or equal to its own. -/
def insertAfterLe (node : Tree) (l : List Tree) : List Tree :=
  l.takeWhile (fun t => decide (weight t ≤ weight node)) ++
    node :: l.dropWhile (fun t => decide (weight t ≤ weight node))

/-- An entry of the specification's priority queue: a tree with the sequence
number it was inserted under.  Its key is `(weight tree, seq)`. -/
structure PQEntry where
  seq : Nat
  tree : Tree
  deriving DecidableEq, Repr

/-- The specification's min-priority queue: the entries it holds, in no
particular order, and the next sequence number to hand out. -/
structure PQ where
  entries : List PQEntry
  next : Nat
  deriving DecidableEq, Repr

/-- The order of the keys `(weight, insertion sequence number)`. -/
def keyLe (a b : PQEntry) : Prop :=
  weight a.tree < weight b.tree ∨ (weight a.tree = weight b.tree ∧ a.seq ≤ b.seq)

instance (a b : PQEntry) : Decidable (keyLe a b) := by
  unfold keyLe; infer_instance

/-- The strict order of the keys. -/
def keyLt (a b : PQEntry) : Prop :=
  weight a.tree < weight b.tree ∨ (weight a.tree = weight b.tree ∧ a.seq < b.seq)

/-- Insertion into the priority queue under a fresh sequence number. -/
def pqInsert (pq : PQ) (t : Tree) : PQ :=
  PQ.mk (PQEntry.mk pq.next t :: pq.entries) (pq.next + 1)

/-- Removal of the entry with the least key. -/
def pqExtractMin : List PQEntry → Option (PQEntry × List PQEntry)
  | [] => none
  | e :: es =>
    match pqExtractMin es with
    | none => some (e, [])
    | some (m, rest) => if keyLe e m then some (e, es) else some (m, e :: rest)

/-- Seeding of the priority queue, as `makeQueue` does it: one leaf per
positive count, in the order of the indices. -/
def pqSeed (hashTable : Nat → Int) : List Nat → PQ → PQ
  | [], pq => pq
  | i :: is, pq =>
    if hashTable i > 0 then pqSeed hashTable is (pqInsert pq (mkLeaf i (hashTable i)))
    else pqSeed hashTable is pq

/-- One merge, as `combineTrees` does it: the two least entries are removed,
the first becomes the left child and the second the right child of a new node
with the sum of their weights (an `int` sum, as there), which is inserted. -/
def pqCombine (pq : PQ) : Option PQ :=
  match pqExtractMin pq.entries with
  | none => none
  | some (e1, es1) =>
    match pqExtractMin es1 with
    | none => none
    | some (e2, es2) =>
      some (pqInsert (PQ.mk es2 pq.next)
        (Tree.node 0 (wrapInt (weight e1.tree + weight e2.tree)) e1.tree e2.tree))

/-- The merge loop over the priority queue: while at least 2 entries are left,
merge; at most `fuel` times. -/
def pqMergeLoop : Nat → PQ → Option PQ
  | fuel, pq =>
    if pq.entries.length ≥ 2 then
      match fuel with
      | 0 => none
      | fuel1 + 1 =>
        match pqCombine pq with
        | none => none
        | some pq1 => pqMergeLoop fuel1 pq1
    else some pq

/-- The tree built over the priority queue keyed by (weight, insertion sequence
number): seeding, merge loop, and the one entry left. -/
def pqBuildTree (hashTable : Nat → Int) : Option Tree :=
  match pqMergeLoop NUMCHARS (pqSeed hashTable (List.range NUMCHARS) (PQ.mk [] 0)) with
  | some (PQ.mk [e] _) => some e.tree
  | _ => none

/-- The priority queue after `k` merges. -/
def pqCombineSteps : Nat → PQ → Option PQ
  | 0, pq => some pq
  | k + 1, pq =>
    match pqCombine pq with
    | none => none
    | some pq1 => pqCombineSteps k pq1

/-- The child a digit leads to: `'0'` (48) is left, `'1'` (49) is right. -/
def branch (d : Nat) : Tree → Tree
  | Tree.null => Tree.null
  | Tree.node _ _ l r => if d = 48 then l else if d = 49 then r else Tree.null

/-- The list `queueAdd` leaves behind `q->first` when it adds `node` to a queue
whose entries are `l` (see `queueAdd_eq_insert`). -/
def queueInsert (node : Tree) : List Tree → List Tree
  | [] => [node]
  | f :: rest =>
    if weight f > weight node then node :: f :: rest
    else f :: (rest.takeWhile (fun t => decide (weight t < weight node)) ++
      node :: rest.dropWhile (fun t => decide (weight t < weight node)))

/-- The list `makeQueue` builds from `l` over the indices `is`. -/
def seedList (hashTable : Nat → Int) : List Nat → List Tree → List Tree
  | [], l => l
  | i :: is, l =>
    if hashTable i > 0 then seedList hashTable is (queueInsert (mkLeaf i (hashTable i)) l)
    else seedList hashTable is l

/-- The list `combineTrees` leaves behind. -/
def mergeStep : List Tree → List Tree
  | e1 :: e2 :: rest => queueInsert (Tree.node 0 (wrapInt (weight e1 + weight e2)) e1 e2) rest
  | l => l

/-- The list `k` runs of `combineTrees` leave behind. -/
def mergeSteps : Nat → List Tree → List Tree
  | 0, l => l
  | k + 1, l => mergeSteps k (mergeStep l)

/-- The leaves of all trees of a queue. -/
def forestLeaves (l : List Tree) : List (Nat × Int) := l.flatMap leaves

/-- The path `makeHuffmanString` finds for `c`, from the root down, as digits
(`'0'` = 48 for a left branch, `'1'` = 49 for a right branch); `none` when the
search fails. -/
def findCode (c : Nat) : Tree → Option (List Nat)
  | Tree.null => none
  | Tree.node tc _ l r =>
    if tc = c then some []
    else
      match findCode c l with
      | some p => some (48 :: p)
      | none =>
        match findCode c r with
        | some p => some (49 :: p)
        | none => none

/-- The buffer `buf` with the bytes `s` stored from position `index` on. -/
def writeString (buf : List Nat) (index : Nat) (s : List Nat) : List Nat :=
  buf.take index ++ s ++ buf.drop (index + s.length)

/-- All nodes of a tree (the tree itself first), as the subtrees they root. -/
def subtrees : Tree → List Tree
  | Tree.null => []
  | Tree.node c o l r => Tree.node c o l r :: (subtrees l ++ subtrees r)

/-- The children of a node that are not NULL. -/
def kids : Tree → List Tree
  | Tree.null => []
  | Tree.node _ _ l r => [l, r].filter (fun t => decide (t ≠ Tree.null))

/-- All nodes of all trees of a queue. -/
def forestNodes (l : List Tree) : List Tree := l.flatMap subtrees

/-- Some child of `p` is lighter than some child of `q`. -/
def childLt (p q : Tree) : Prop :=
  ∃ u ∈ kids p, ∃ v ∈ kids q, weight u < weight v

/-- What the merge loop maintains besides sortedness: the trees have the shape
and weights of Huffman trees, no node below a root is heavier than any root,
and a node with a lighter child than another node is itself lighter. -/
def ForestInv (F : List Tree) : Prop :=
  (∀ t ∈ F, shaped t ∧ weighted t) ∧
  (∀ p ∈ forestNodes F, ∀ u ∈ kids p, ∀ t ∈ F, weight u ≤ weight t) ∧
  (∀ p ∈ forestNodes F, ∀ q ∈ forestNodes F, childLt p q → weight p < weight q ∨ p = q)

/-- The subtree reached from `t` by a digit string. -/
def subtreeAt : Tree → List Nat → Tree
  | t, [] => t
  | t, d :: ds => subtreeAt (branch d t) ds

/-- No entry behind the first one has the weight of the entry to be added. -/
def tieFreeInsert (node : Tree) (l : List Tree) : Bool :=
  l.tail.all (fun t => decide (weight t ≠ weight node))

/-- No `queueAdd` of `makeQueue` meets a tie behind the first entry. -/
def tieFreeSeed (hashTable : Nat → Int) : List Nat → List Tree → Bool
  | [], _ => true
  | i :: is, l =>
    if hashTable i > 0 then
      tieFreeInsert (mkLeaf i (hashTable i)) l &&
        tieFreeSeed hashTable is (queueInsert (mkLeaf i (hashTable i)) l)
    else tieFreeSeed hashTable is l

/-- No `queueAdd` of the first `k` runs of `combineTrees` meets a tie behind the
first entry. -/
def tieFreeMerge : Nat → List Tree → Bool
  | 0, _ => true
  | k + 1, e1 :: e2 :: rest =>
    tieFreeInsert (Tree.node 0 (wrapInt (weight e1 + weight e2)) e1 e2) rest &&
      tieFreeMerge k (mergeStep (e1 :: e2 :: rest))
  | _ + 1, _ => true

/-- No `queueAdd` of the whole build meets a tie behind the first entry. -/
def tieFree (hashTable : Nat → Int) : Bool :=
  tieFreeSeed hashTable (List.range NUMCHARS) [] &&
    tieFreeMerge (positiveCount hashTable - 1) (seedList hashTable (List.range NUMCHARS) [])

/-- The queue `l` and the priority queue `pq` hold the same trees, and `l` lists
them in the order of their keys. -/
def Simulates (l : List Tree) (pq : PQ) : Prop :=
  ∃ es : List PQEntry, es.Perm pq.entries ∧ es.Pairwise keyLt ∧
    es.map PQEntry.tree = l ∧ ∀ e ∈ es, e.seq < pq.next

/-! ## Concrete inputs -/

/-- A frequency table given by its non-zero entries. -/
def tableOf (l : List (Nat × Int)) : Nat → Int :=
  fun i => match l.lookup i with
    | some v => v
    | none => 0

/-- A two-entry queue with a tie: `a` and `b`, both of weight 1. -/
def queueAB : Queue := Queue.mk 2 [mkLeaf 97 1, mkLeaf 98 1]

/-- A sorted queue whose first two weights add up to `INT_MAX + 1`. -/
def queueMax : Queue :=
  Queue.mk 3 [mkLeaf 97 1, mkLeaf 98 2147483647, mkLeaf 99 2147483647]

/-- The table `a:3, b:1, c:2`. -/
def tableABC : Nat → Int := tableOf [(97, 3), (98, 1), (99, 2)]

/-- The tree built from the table `a:3, b:1, c:2`. -/
def treeABC : Tree :=
  Tree.node 0 6 (mkLeaf 97 3) (Tree.node 0 3 (mkLeaf 98 1) (mkLeaf 99 2))

/-- The tree built from the table `0:1, a:1`. -/
def treeZeroA : Tree := Tree.node 0 2 (mkLeaf 0 1) (mkLeaf 97 1)

/-- The tree built from the table `0:1, a:2`. -/
def treeZeroA2 : Tree := Tree.node 0 3 (mkLeaf 0 1) (mkLeaf 97 2)

/-- A table of five counts, each an `int`, that add up to more than `INT_MAX`:
`a` and `b` occur `2^30` times, `c` once more, `d` and `e` `2^29 + 1` times. -/
def tableWrap : Nat → Int :=
  tableOf [(97, 1073741824), (98, 1073741824), (99, 1073741825), (100, 536870913),
    (101, 536870913)]

/-- The tree built from `tableWrap`: the `int` sum of `a` and `b` is
`-2147483648`, so that node is merged again before `d` and `e` are reached. -/
def treeWrap : Tree :=
  Tree.node 0 3
    (Tree.node 0 (-1073741823)
      (Tree.node 0 (-2147483648) (mkLeaf 97 1073741824) (mkLeaf 98 1073741824))
      (mkLeaf 99 1073741825))
    (Tree.node 0 1073741826 (mkLeaf 100 536870913) (mkLeaf 101 536870913))

/-- The table `a:2^30, b:2^30`: two counts whose sum is `INT_MAX + 1`. -/
def tableTwoBig : Nat → Int := tableOf [(97, 1073741824), (98, 1073741824)]

/-- The table `a:1, b:INT_MAX, c:INT_MAX`. -/
def tableMax : Nat → Int := tableOf [(97, 1), (98, 2147483647), (99, 2147483647)]

/-- The table `a:1, b:1, c:1`. -/
def tableTie : Nat → Int := tableOf [(97, 1), (98, 1), (99, 1)]

/-! ## Sums, heights and weighted path lengths -/

/-- The sum of the occurrence counts stored in the leaves of a tree. -/
def leafSum (t : Tree) : Int := ((leaves t).map Prod.snd).sum

/-- The sum of the weights of the entries of a queue. -/
def weightSum (l : List Tree) : Int := (l.map weight).sum

/-- The sum of all counts of a frequency table. -/
def tableSum (hashTable : Nat → Int) : Int := ((List.range NUMCHARS).map hashTable).sum

/-- `k` calls of `combineTrees(q)` in a row. -/
def combineSteps : Nat → Queue → Except Err Queue
  | 0, q => .ok q
  | k + 1, q =>
    match combineTrees q with
    | .ok q1 => combineSteps k q1
    | .error e => .error e

/-- The number of levels of a tree. -/
def height : Tree → Nat
  | Tree.null => 0
  | Tree.node _ _ l r => 1 + max (height l) (height r)

/-- The length of the code derived for `c`: `strlen(huffmanString)` in
`printChar`. -/
def codeLength (c : Nat) (tree : Tree) : Nat :=
  match huffmanCode c tree with
  | .ok s => s.length
  | .error _ => 0

/-- A binary tree with two children per internal node: every node is a leaf or
has two such trees below it. -/
def full : Tree → Prop
  | Tree.null => False
  | Tree.node _ _ l r => (l = Tree.null ∧ r = Tree.null) ∨ (full l ∧ full r)

/-- The sum over the leaves of `count * depth`, the root of the tree being at
depth `d`. -/
def wplFrom (d : Nat) : Tree → Int
  | Tree.null => 0
  | Tree.node _ o l r =>
    if l = Tree.null ∧ r = Tree.null then o * (d : Int)
    else wplFrom (d + 1) l + wplFrom (d + 1) r

/-- The weighted path length of a tree: the sum over its leaves of
`count * depth`. -/
def wpl (t : Tree) : Int := wplFrom 0 t

/-- The sum of the weighted path lengths of the trees of a queue. -/
def totalCost (F : List Tree) : Int := (F.map wpl).sum

/-- The sum of `weight * depth` over a list of weights and a list of depths. -/
def dot (w : List Int) (ds : List Nat) : Int :=
  (List.zipWith (fun (x : Int) (d : Nat) => x * (d : Int)) w ds).sum

/-- The lists of leaf depths, left to right, of the binary trees with two
children per internal node whose root is at depth `d`. -/
inductive FullDepths : Nat → List Nat → Prop where
  | leaf (d : Nat) : FullDepths d [d]
  | node (d : Nat) (l r : List Nat) :
      FullDepths (d + 1) l → FullDepths (d + 1) r → FullDepths d (l ++ r)

/-- The table of four counts of `2^30`. -/
def tableFourBig : Nat → Int :=
  tableOf [(97, 1073741824), (98, 1073741824), (99, 1073741824), (100, 1073741824)]

/-- The tree built from `tableFourBig`. -/
def treeFourBig : Tree :=
  Tree.node 0 0
    (Tree.node 0 (-1073741824)
      (Tree.node 0 (-2147483648) (mkLeaf 97 1073741824) (mkLeaf 100 1073741824))
      (mkLeaf 99 1073741824))
    (mkLeaf 98 1073741824)

/-- The tree with the four leaves of `tableFourBig` at depth 2. -/
def treeFourFlat : Tree :=
  Tree.node 0 0
    (Tree.node 0 0 (mkLeaf 97 1073741824) (mkLeaf 98 1073741824))
    (Tree.node 0 0 (mkLeaf 99 1073741824) (mkLeaf 100 1073741824))

/-- Another tree for `tableABC`: `'b'` and `'c'` below the root's left child
and `'a'` as its right child. -/
def treeBCA : Tree :=
  Tree.node 0 6 (Tree.node 0 3 (mkLeaf 98 1) (mkLeaf 99 2)) (mkLeaf 97 3)

/-! ## The report as the specification describes it -/

/-- The occurrence count of the leaf that carries `c`: of the first such leaf
from the left (0 when no leaf carries `c`). -/
def leafCount (c : Nat) (t : Tree) : Int := ((leaves t).lookup c).getD 0

/-- The total the report is expected to be: the sum, over the byte values
1..255 found in the tree, of the count of the value's leaf times the length
of its derived code. -/
def reportTotal (t : Tree) : Int :=
  (((List.range NUMCHARS).filter (fun c => decide (c ≠ 0) && charInTree c t)).map
    (fun c => leafCount c t * (codeLength c t : Int))).sum

/-- The length of the path `findCode` finds for `c` (0 when it finds none). -/
def pathLength (c : Nat) (t : Tree) : Nat := ((findCode c t).getD []).length

/-- The sum `reportTotal` with the code lengths read off the paths. -/
def pathTotal (t : Tree) : Int :=
  (((List.range NUMCHARS).filter (fun c => decide (c ≠ 0) && charInTree c t)).map
    (fun c => leafCount c t * (pathLength c t : Int))).sum

/-- The sum of `getOccurances(c, tree)` times the path length over the byte
values 1..255 found in the tree. -/
def occurancesTotal (t : Tree) : Int :=
  (((List.range NUMCHARS).filter (fun c => decide (c ≠ 0) && charInTree c t)).map
    (fun c => getOccurances c t * (pathLength c t : Int))).sum

/-- The tree built from `tableTwoBig`. -/
def treeTwoBig : Tree :=
  Tree.node 0 (-2147483648) (mkLeaf 97 1073741824) (mkLeaf 98 1073741824)

/-- The input of `2^30` bytes `a` followed by `2^30` bytes `b`. -/
def fileTwoBig : List Nat := List.replicate 1073741824 97 ++ List.replicate 1073741824 98

/-- A tree in which the value `a` is carried by a node with children as well as
by a leaf below it. -/
def treeInner : Tree :=
  Tree.node 0 4 (Tree.node 97 3 (mkLeaf 97 2) (mkLeaf 98 1)) (mkLeaf 99 1)

/-- A tree with two leaves for `a`, the first of them with the count -1. -/
def treeTwin : Tree := Tree.node 0 6 (mkLeaf 97 (-1)) (mkLeaf 97 7)

/-! ## The queue -/

theorem wrapInt_eq (x : Int) (hlo : -2147483648 ≤ x) (hhi : x ≤ INT_MAX) : wrapInt x = x := by
  unfold wrapInt
  unfold INT_MAX at hhi
  omega

theorem wrapInt_range (x : Int) : -2147483648 ≤ wrapInt x ∧ wrapInt x ≤ INT_MAX := by
  unfold wrapInt INT_MAX
  omega

theorem queueAddLoop_eq (w : Int) (node : Tree) (rest : List Tree)
    (h : ∀ t ∈ rest, t ≠ Tree.null) :
    queueAddLoop w node rest =
      .ok (rest.takeWhile (fun t => decide (weight t < w)) ++
        node :: rest.dropWhile (fun t => decide (weight t < w))) := by
  induction rest with
  | nil => rfl
  | cons t ts ih =>
    cases t with
    | null => exact absurd rfl (h _ (List.mem_cons_self _ _))
    | node c o l r =>
      have ih1 := ih (fun t ht => h t (List.mem_cons_of_mem _ ht))
      by_cases hlt : o < w
      · simp [queueAddLoop, hlt, ih1, weight]
      · simp [queueAddLoop, hlt, weight]

theorem queueAdd_eq (q : Queue) (c : Nat) (w : Int) (l r : Tree) (f : Tree) (rest : List Tree)
    (hwf : q.wf) (hq : q.first = f :: rest) :
    queueAdd q (Tree.node c w l r) =
      .ok (Queue.mk (q.size + 1)
        (if weight f > w then Tree.node c w l r :: f :: rest
         else f :: (rest.takeWhile (fun t => decide (weight t < w)) ++
            Tree.node c w l r :: rest.dropWhile (fun t => decide (weight t < w))))) := by
  obtain ⟨hsz, hnn⟩ := hwf
  have hsz0 : q.size ≠ 0 := by rw [hsz, hq]; simp
  rw [hq] at hnn
  cases f with
  | null => exact absurd rfl (hnn _ (List.mem_cons_self _ _))
  | node fc fo fl fr =>
    have hl := queueAddLoop_eq w (Tree.node c w l r) rest
      (fun t ht => hnn t (List.mem_cons_of_mem _ ht))
    unfold queueAdd
    rw [if_neg hsz0, hq]
    by_cases hgt : fo > w
    · simp [hgt, weight]
    · simp [hgt, hl, weight]

theorem queueAdd_nil (q : Queue) (node : Tree) (hwf : q.wf) (hq : q.first = []) :
    queueAdd q node = .ok (Queue.mk (q.size + 1) [node]) := by
  have : q.size = 0 := by rw [hwf.1, hq]; rfl
  simp [queueAdd, this]

theorem dropWhile_lt_ge (w : Int) (l : List Tree)
    (hs : l.Pairwise (fun a b => weight a ≤ weight b)) :
    ∀ t ∈ l.dropWhile (fun t => decide (weight t < w)), w ≤ weight t := by
  induction l with
  | nil => simp
  | cons a as ih =>
    rw [List.pairwise_cons] at hs
    by_cases ha : weight a < w
    · simpa [List.dropWhile_cons, ha] using ih hs.2
    · intro t ht
      simp only [List.dropWhile_cons, ha, decide_False] at ht
      have hwa : w ≤ weight a := not_lt.mp ha
      rcases List.mem_cons.mp ht with h | h
      · rw [h]; exact hwa
      · exact le_trans hwa (hs.1 t h)

theorem takeWhile_lt_lt (w : Int) (l : List Tree) :
    ∀ t ∈ l.takeWhile (fun t => decide (weight t < w)), weight t < w := by
  intro t ht
  simpa using List.mem_takeWhile_imp ht

/-- C1 (as stated, refuted): adding `c` of weight 1 to the sorted queue
`a:1, b:1` puts `c` between `a` and `b`, ahead of the equal-weight incumbent
`b`, whereas the specification's rule would put it last. -/
theorem queueAdd_tie_counterexample :
    queueAB.wf ∧ queueAB.sorted ∧
    queueAdd queueAB (mkLeaf 99 1) =
      .ok (Queue.mk 3 [mkLeaf 97 1, mkLeaf 99 1, mkLeaf 98 1]) ∧
    insertAfterLe (mkLeaf 99 1) queueAB.first =
      [mkLeaf 97 1, mkLeaf 98 1, mkLeaf 99 1] ∧
    queueAdd queueAB (mkLeaf 99 1) ≠
      .ok (Queue.mk (queueAB.size + 1) (insertAfterLe (mkLeaf 99 1) queueAB.first)) := by
  decide

/-- C1 (amended): on a sorted queue `queueAdd` splits the entries into `pre`
and `post` and puts the new entry between them.  `pre` is empty exactly when
the queue is empty or its first entry is strictly heavier than the new one;
otherwise `pre` is the first entry (weight less than or equal to the new one)
followed by the entries of strictly smaller weight, and every entry of `post`
has weight greater than or equal to the new one: the new entry goes in front
of equal-weight incumbents, except an equal-weight first entry. -/
theorem queueAdd_position (q : Queue) (node : Tree)
    (hwf : q.wf) (hs : q.sorted) (hn : node ≠ Tree.null) :
    ∃ pre post, q.first = pre ++ post ∧
      queueAdd q node = .ok (Queue.mk (q.size + 1) (pre ++ node :: post)) ∧
      (pre = [] ↔ ∀ f ∈ q.first.head?, weight node < weight f) ∧
      (∀ t ∈ pre, weight t ≤ weight node) ∧
      (∀ t ∈ pre.tail, weight t < weight node) ∧
      (∀ t ∈ post, weight node ≤ weight t) := by
  cases node with
  | null => exact absurd rfl hn
  | node c w l r =>
    cases hq : q.first with
    | nil =>
      exact ⟨[], [], rfl, by simpa using queueAdd_nil q _ hwf hq, by simp, by simp, by simp,
        by simp⟩
    | cons f rest =>
      have hs1 : (f :: rest).Pairwise (fun a b => weight a ≤ weight b) := by
        have := hs; unfold Queue.sorted at this; rwa [hq] at this
      rw [List.pairwise_cons] at hs1
      have hadd := queueAdd_eq q c w l r f rest hwf hq
      by_cases hgt : weight f > w
      · rw [if_pos hgt] at hadd
        refine ⟨[], f :: rest, rfl, by simpa using hadd, ?_, by simp, by simp, ?_⟩
        · simpa [weight] using hgt
        · intro t ht
          rcases List.mem_cons.mp ht with h | h
          · rw [h]; exact le_of_lt hgt
          · exact le_trans (le_of_lt hgt) (hs1.1 t h)
      · rw [if_neg hgt] at hadd
        refine ⟨f :: rest.takeWhile (fun t => decide (weight t < w)),
          rest.dropWhile (fun t => decide (weight t < w)), ?_, by simpa using hadd, ?_, ?_, ?_, ?_⟩
        · simp [List.takeWhile_append_dropWhile]
        · simpa [weight] using not_lt.mp hgt
        · intro t ht
          rcases List.mem_cons.mp ht with h | h
          · rw [h]; exact not_lt.mp hgt
          · exact le_of_lt (takeWhile_lt_lt w rest t h)
        · exact takeWhile_lt_lt w rest
        · exact dropWhile_lt_ge w rest hs1.2

/-- Witness for `queueAdd_position`: the queue `a:1, b:1` and the new entry `c:1`. -/
theorem queueAdd_position_witness :
    (queueAB.wf ∧ queueAB.sorted ∧ mkLeaf 99 1 ≠ Tree.null) ∧
    ∃ pre post, queueAB.first = pre ++ post ∧
      queueAdd queueAB (mkLeaf 99 1) =
        .ok (Queue.mk (queueAB.size + 1) (pre ++ mkLeaf 99 1 :: post)) ∧
      (pre = [] ↔ ∀ f ∈ queueAB.first.head?, weight (mkLeaf 99 1) < weight f) ∧
      (∀ t ∈ pre, weight t ≤ weight (mkLeaf 99 1)) ∧
      (∀ t ∈ pre.tail, weight t < weight (mkLeaf 99 1)) ∧
      (∀ t ∈ post, weight (mkLeaf 99 1) ≤ weight t) :=
  ⟨by decide, queueAdd_position queueAB (mkLeaf 99 1) (by decide) (by decide) (by decide)⟩

theorem queueAdd_eq_insert (q : Queue) (node : Tree) (hwf : q.wf) (hn : node ≠ Tree.null) :
    queueAdd q node = .ok (Queue.mk (q.size + 1) (queueInsert node q.first)) := by
  cases node with
  | null => exact absurd rfl hn
  | node c w l r =>
    cases hq : q.first with
    | nil => simpa [queueInsert] using queueAdd_nil q _ hwf hq
    | cons f rest => simpa [queueInsert, weight] using queueAdd_eq q c w l r f rest hwf hq

theorem queueInsert_perm (node : Tree) (l : List Tree) :
    (queueInsert node l).Perm (node :: l) := by
  cases l with
  | nil => simp [queueInsert]
  | cons f rest =>
    by_cases hgt : weight f > weight node
    · rw [queueInsert, if_pos hgt]
    · rw [queueInsert, if_neg hgt]
      refine (List.Perm.cons f ?_).trans (List.Perm.swap node f rest)
      refine List.perm_middle.trans ?_
      rw [List.takeWhile_append_dropWhile]

theorem queueInsert_length (node : Tree) (l : List Tree) :
    (queueInsert node l).length = l.length + 1 := by
  simpa using (queueInsert_perm node l).length_eq

theorem queueInsert_sorted (node : Tree) (l : List Tree)
    (hs : l.Pairwise (fun a b => weight a ≤ weight b)) :
    (queueInsert node l).Pairwise (fun a b => weight a ≤ weight b) := by
  cases l with
  | nil => simp [queueInsert]
  | cons f rest =>
    have hs1 := List.pairwise_cons.mp hs
    by_cases hgt : weight f > weight node
    · rw [queueInsert, if_pos hgt]
      refine List.pairwise_cons.mpr ⟨?_, hs⟩
      intro t ht
      rcases List.mem_cons.mp ht with h | h
      · rw [h]; exact le_of_lt hgt
      · exact le_trans (le_of_lt hgt) (hs1.1 t h)
    · rw [queueInsert, if_neg hgt]
      have hle : weight f ≤ weight node := not_lt.mp hgt
      refine List.pairwise_cons.mpr ⟨?_, ?_⟩
      · intro t ht
        rcases List.mem_append.mp ht with h | h
        · exact hs1.1 t ((List.takeWhile_sublist _).subset h)
        · rcases List.mem_cons.mp h with h | h
          · rw [h]; exact hle
          · exact hs1.1 t ((List.dropWhile_sublist _).subset h)
      · refine List.pairwise_append.mpr ⟨hs1.2.sublist (List.takeWhile_sublist _), ?_, ?_⟩
        · refine List.pairwise_cons.mpr ⟨dropWhile_lt_ge _ rest hs1.2,
            hs1.2.sublist (List.dropWhile_sublist _)⟩
        · intro a ha b hb
          have ha1 := takeWhile_lt_lt _ rest a ha
          rcases List.mem_cons.mp hb with h | h
          · rw [h]; exact le_of_lt ha1
          · exact le_trans (le_of_lt ha1) (dropWhile_lt_ge _ rest hs1.2 b h)

theorem queueAdd_wf (q : Queue) (node : Tree) (hwf : q.wf) (hn : node ≠ Tree.null) :
    (Queue.mk (q.size + 1) (queueInsert node q.first)).wf := by
  refine ⟨?_, ?_⟩
  · simp [queueInsert_length, hwf.1]
  · intro t ht
    rcases List.mem_cons.mp ((queueInsert_perm node q.first).subset ht) with h | h
    · rw [h]; exact hn
    · exact hwf.2 t h

theorem Queue.wf_eq (q : Queue) (hwf : q.wf) : q = Queue.mk q.first.length q.first := by
  cases q with
  | mk size first => simp only [Queue.mk.injEq, and_true]; exact hwf.1

theorem queueInsert_nonnull (node : Tree) (l : List Tree) (hn : node ≠ Tree.null)
    (hl : ∀ t ∈ l, t ≠ Tree.null) : ∀ t ∈ queueInsert node l, t ≠ Tree.null := by
  intro t ht
  rcases List.mem_cons.mp ((queueInsert_perm node l).subset ht) with h | h
  · rw [h]; exact hn
  · exact hl t h

theorem queueAdd_list (l : List Tree) (node : Tree) (hl : ∀ t ∈ l, t ≠ Tree.null)
    (hn : node ≠ Tree.null) :
    queueAdd (Queue.mk l.length l) node =
      .ok (Queue.mk (queueInsert node l).length (queueInsert node l)) := by
  rw [queueAdd_eq_insert _ node ⟨rfl, hl⟩ hn, queueInsert_length]

theorem mkLeaf_ne_null (i : Nat) (o : Int) : mkLeaf i o ≠ Tree.null := by
  simp [mkLeaf]

theorem seedList_nonnull (hashTable : Nat → Int) (is : List Nat) :
    ∀ l : List Tree, (∀ t ∈ l, t ≠ Tree.null) →
      ∀ t ∈ seedList hashTable is l, t ≠ Tree.null := by
  induction is with
  | nil => intro l hl; simpa [seedList] using hl
  | cons i is ih =>
    intro l hl
    by_cases hpos : hashTable i > 0
    · rw [seedList, if_pos hpos]
      exact ih _ (queueInsert_nonnull _ l (mkLeaf_ne_null _ _) hl)
    · rw [seedList, if_neg hpos]; exact ih l hl

theorem seedList_sorted (hashTable : Nat → Int) (is : List Nat) :
    ∀ l : List Tree, l.Pairwise (fun a b => weight a ≤ weight b) →
      (seedList hashTable is l).Pairwise (fun a b => weight a ≤ weight b) := by
  induction is with
  | nil => intro l hl; simpa [seedList] using hl
  | cons i is ih =>
    intro l hl
    by_cases hpos : hashTable i > 0
    · rw [seedList, if_pos hpos]
      exact ih _ (queueInsert_sorted _ l hl)
    · rw [seedList, if_neg hpos]; exact ih l hl

theorem makeQueueLoop_list (hashTable : Nat → Int) (is : List Nat) :
    ∀ l : List Tree, (∀ t ∈ l, t ≠ Tree.null) →
      makeQueueLoop hashTable is (Queue.mk l.length l) =
        .ok (Queue.mk (seedList hashTable is l).length (seedList hashTable is l)) := by
  induction is with
  | nil => intro l _; rfl
  | cons i is ih =>
    intro l hl
    by_cases hpos : hashTable i > 0
    · rw [makeQueueLoop, if_pos hpos, queueAdd_list l _ hl (mkLeaf_ne_null _ _), seedList,
        if_pos hpos]
      exact ih _ (queueInsert_nonnull _ l (mkLeaf_ne_null _ _) hl)
    · rw [makeQueueLoop, if_neg hpos, seedList, if_neg hpos]; exact ih l hl

theorem makeQueue_list (hashTable : Nat → Int) :
    makeQueue emptyQueue hashTable =
      .ok (Queue.mk (seedList hashTable (List.range NUMCHARS) []).length
        (seedList hashTable (List.range NUMCHARS) [])) :=
  makeQueueLoop_list hashTable (List.range NUMCHARS) [] (by simp)

theorem combineTrees_list (e1 e2 : Tree) (rest : List Tree)
    (hl : ∀ t ∈ e1 :: e2 :: rest, t ≠ Tree.null) :
    combineTrees (Queue.mk (e1 :: e2 :: rest).length (e1 :: e2 :: rest)) =
      .ok (Queue.mk (mergeStep (e1 :: e2 :: rest)).length (mergeStep (e1 :: e2 :: rest))) := by
  have h1 : e1 ≠ Tree.null := hl e1 (by simp)
  have h2 : e2 ≠ Tree.null := hl e2 (by simp)
  have hr : ∀ t ∈ rest, t ≠ Tree.null := fun t ht => hl t (by simp [ht])
  cases e1 with
  | null => exact absurd rfl h1
  | node c1 o1 l1 r1 =>
    cases e2 with
    | null => exact absurd rfl h2
    | node c2 o2 l2 r2 =>
      have := queueAdd_list rest (Tree.node 0 (wrapInt (o1 + o2)) (Tree.node c1 o1 l1 r1)
        (Tree.node c2 o2 l2 r2)) hr (by simp)
      simpa [combineTrees, queueRemove, mergeStep, weight] using this

/-- C3: `queueAdd` keeps a sorted queue sorted, its entries afterwards are the
old entries plus the new one, and `size` grows by 1; hence the queue is sorted
after `makeQueue` and after every `combineTrees`. -/
theorem queue_sorted_invariant :
    (∀ (q : Queue) (node : Tree), q.wf → q.sorted → node ≠ Tree.null →
      ∃ q1, queueAdd q node = .ok q1 ∧ q1.sorted ∧ q1.first.Perm (node :: q.first) ∧
        q1.size = q.size + 1 ∧ q1.wf) ∧
    (∀ hashTable : Nat → Int,
      ∃ q1, makeQueue emptyQueue hashTable = .ok q1 ∧ q1.sorted ∧ q1.wf) ∧
    (∀ q : Queue, q.wf → q.sorted → 2 ≤ q.size →
      ∃ q1, combineTrees q = .ok q1 ∧ q1.sorted ∧ q1.wf) := by
  refine ⟨?_, ?_, ?_⟩
  · intro q node hwf hs hn
    exact ⟨_, queueAdd_eq_insert q node hwf hn, queueInsert_sorted node q.first hs,
      queueInsert_perm node q.first, rfl, queueAdd_wf q node hwf hn⟩
  · intro hashTable
    refine ⟨_, makeQueue_list hashTable, ?_, rfl, ?_⟩
    · exact seedList_sorted hashTable _ [] List.Pairwise.nil
    · exact seedList_nonnull hashTable _ [] (by simp)
  · intro q hwf hs h2
    rw [Queue.wf_eq q hwf] at h2 ⊢
    have hs1 : q.first.Pairwise (fun a b => weight a ≤ weight b) := hs
    have hnn := hwf.2
    match hq : q.first, h2, hs1, hnn with
    | e1 :: e2 :: rest, _, hs1, hnn =>
      refine ⟨_, combineTrees_list e1 e2 rest hnn, ?_, rfl, ?_⟩
      · exact queueInsert_sorted _ rest (List.pairwise_cons.mp (List.pairwise_cons.mp hs1).2).2
      · exact queueInsert_nonnull _ rest (by simp) (fun t ht => hnn t (by simp [ht]))
    | [_], h2, _, _ => simp at h2
    | [], h2, _, _ => simp at h2

/-- Witness for `queue_sorted_invariant`: the queue `a:1, b:1`. -/
theorem queue_sorted_invariant_witness :
    (queueAB.wf ∧ queueAB.sorted ∧ mkLeaf 99 1 ≠ Tree.null ∧ 2 ≤ queueAB.size) ∧
    (∃ q1, queueAdd queueAB (mkLeaf 99 1) = .ok q1 ∧ q1.sorted ∧
      q1.first.Perm (mkLeaf 99 1 :: queueAB.first) ∧ q1.size = queueAB.size + 1 ∧ q1.wf) ∧
    (∃ q1, combineTrees queueAB = .ok q1 ∧ q1.sorted ∧ q1.wf) :=
  ⟨by decide,
    queue_sorted_invariant.1 queueAB (mkLeaf 99 1) (by decide) (by decide) (by decide),
    queue_sorted_invariant.2.2 queueAB (by decide) (by decide) (by decide)⟩

/-- C4: with at least 2 entries `queueRemove` returns the first and second
entry (the two lightest when the queue is sorted), leaves the rest in order and
takes 2 off `size`; with fewer than 2 it ends in the queue-underflow error. -/
theorem queueRemove_spec (q : Queue) (hwf : q.wf) :
    (2 ≤ q.size →
      ∃ e1 e2 rest q1, q.first = e1 :: e2 :: rest ∧ queueRemove q = .ok (e1, e2, q1) ∧
        q1.first = rest ∧ q1.size + 2 = q.size ∧ q1.wf ∧
        (q.sorted → weight e1 ≤ weight e2 ∧ ∀ t ∈ rest, weight e2 ≤ weight t)) ∧
    (q.size < 2 → queueRemove q = .error Err.queueUnderflow) := by
  refine ⟨?_, ?_⟩
  · intro h2
    have hlen : q.first.length = q.size := hwf.1.symm
    have hnn := hwf.2
    match hq : q.first, hlen, hnn with
    | e1 :: e2 :: rest, hlen, hnn =>
      refine ⟨e1, e2, rest, Queue.mk (q.size - 2) rest, rfl, ?_, rfl, ?_, ⟨?_, ?_⟩, ?_⟩
      · simp [queueRemove, hq, not_lt.mpr h2]
      · exact Nat.sub_add_cancel h2
      · simp at hlen; show q.size - 2 = rest.length; omega
      · exact fun t ht => hnn t (by simp [ht])
      · intro hs
        have hs1 : (e1 :: e2 :: rest).Pairwise (fun a b => weight a ≤ weight b) := by
          have := hs; unfold Queue.sorted at this; rwa [hq] at this
        have h1 := List.pairwise_cons.mp hs1
        exact ⟨h1.1 e2 (by simp), (List.pairwise_cons.mp h1.2).1⟩
    | [_], hlen, _ => simp at hlen; omega
    | [], hlen, _ => simp at hlen; omega
  · intro h
    simp [queueRemove, h]

/-- Witness for `queueRemove_spec`: the queue `a:1, b:1` and the empty queue. -/
theorem queueRemove_spec_witness :
    (queueAB.wf ∧ 2 ≤ queueAB.size ∧ emptyQueue.wf ∧ emptyQueue.size < 2) ∧
    (∃ e1 e2 rest q1, queueAB.first = e1 :: e2 :: rest ∧
        queueRemove queueAB = .ok (e1, e2, q1) ∧
        q1.first = rest ∧ q1.size + 2 = queueAB.size ∧ q1.wf ∧
        (queueAB.sorted → weight e1 ≤ weight e2 ∧ ∀ t ∈ rest, weight e2 ≤ weight t)) ∧
    queueRemove emptyQueue = .error Err.queueUnderflow :=
  ⟨by decide, (queueRemove_spec queueAB (by decide)).1 (by decide),
    (queueRemove_spec emptyQueue (by decide)).2 (by decide)⟩

set_option maxRecDepth 8000 in
/-- C5 as stated fails where the sum of the two weights leaves the range of
`int`: on the queue `a:1, b:INT_MAX, c:INT_MAX` the new node gets the weight
`-2147483648` and goes in front of `c`, while a node of weight
`1 + 2147483647` would go behind it. -/
theorem combineTrees_overflow_counterexample :
    queueMax.wf ∧ queueMax.sorted ∧
    queueMax.first = [mkLeaf 97 1, mkLeaf 98 2147483647, mkLeaf 99 2147483647] ∧
    combineTrees queueMax =
      .ok (Queue.mk 2 [Tree.node 0 (-2147483648) (mkLeaf 97 1) (mkLeaf 98 2147483647),
        mkLeaf 99 2147483647]) ∧
    queueAdd (Queue.mk (queueMax.size - 2) [mkLeaf 99 2147483647])
        (Tree.node 0 (weight (mkLeaf 97 1) + weight (mkLeaf 98 2147483647))
          (mkLeaf 97 1) (mkLeaf 98 2147483647)) =
      .ok (Queue.mk 2 [mkLeaf 99 2147483647,
        Tree.node 0 2147483648 (mkLeaf 97 1) (mkLeaf 98 2147483647)]) ∧
    combineTrees queueMax ≠
      queueAdd (Queue.mk (queueMax.size - 2) [mkLeaf 99 2147483647])
        (Tree.node 0 (weight (mkLeaf 97 1) + weight (mkLeaf 98 2147483647))
          (mkLeaf 97 1) (mkLeaf 98 2147483647)) := by
  decide

/-- C5, for weights whose sum is in the range of `int`: on a queue
`e1, e2, rest` `combineTrees` is `queueAdd` into `rest` of a new node with left
child `e1`, right child `e2` and weight `weight e1 + weight e2`; `size` goes
down by exactly 1. -/
theorem combineTrees_spec (q : Queue) (e1 e2 : Tree) (rest : List Tree)
    (hwf : q.wf) (hq : q.first = e1 :: e2 :: rest)
    (hlo : -2147483648 ≤ weight e1 + weight e2) (hhi : weight e1 + weight e2 ≤ INT_MAX) :
    combineTrees q =
      queueAdd (Queue.mk (q.size - 2) rest) (Tree.node 0 (weight e1 + weight e2) e1 e2) ∧
    ∃ q1, combineTrees q = .ok q1 ∧ q1.size + 1 = q.size ∧
      q1.first.Perm (Tree.node 0 (weight e1 + weight e2) e1 e2 :: rest) := by
  have hq0 := Queue.wf_eq q hwf
  have hnn : ∀ t ∈ e1 :: e2 :: rest, t ≠ Tree.null := by
    have := hwf.2; rwa [hq] at this
  have hsz : q.size = rest.length + 2 := by rw [hwf.1, hq]; rfl
  have hr : ∀ t ∈ rest, t ≠ Tree.null := fun t ht => hnn t (by simp [ht])
  have hc := combineTrees_list e1 e2 rest hnn
  rw [hq] at hq0
  rw [← hq0] at hc
  have hm : mergeStep (e1 :: e2 :: rest) =
      queueInsert (Tree.node 0 (weight e1 + weight e2) e1 e2) rest := by
    rw [mergeStep, wrapInt_eq _ hlo hhi]
  rw [hm] at hc
  refine ⟨?_, _, hc, ?_, ?_⟩
  · rw [hc, hsz, Nat.add_sub_cancel, queueAdd_list rest _ hr (by simp)]
  · simp [queueInsert_length, hsz]
  · exact queueInsert_perm _ rest

/-- Witness for `combineTrees_spec`: the queue `a:1, b:1`. -/
theorem combineTrees_spec_witness :
    (queueAB.wf ∧ queueAB.first = [mkLeaf 97 1, mkLeaf 98 1] ∧
      -2147483648 ≤ weight (mkLeaf 97 1) + weight (mkLeaf 98 1) ∧
      weight (mkLeaf 97 1) + weight (mkLeaf 98 1) ≤ INT_MAX) ∧
    combineTrees queueAB =
      queueAdd (Queue.mk (queueAB.size - 2) [])
        (Tree.node 0 (weight (mkLeaf 97 1) + weight (mkLeaf 98 1)) (mkLeaf 97 1) (mkLeaf 98 1)) ∧
    ∃ q1, combineTrees queueAB = .ok q1 ∧ q1.size + 1 = queueAB.size ∧
      q1.first.Perm
        [Tree.node 0 (weight (mkLeaf 97 1) + weight (mkLeaf 98 1)) (mkLeaf 97 1) (mkLeaf 98 1)] :=
  ⟨by decide, combineTrees_spec queueAB (mkLeaf 97 1) (mkLeaf 98 1) [] (by decide) rfl
    (by decide) (by decide)⟩

/-! ## The merge loop -/

theorem seedList_length (hashTable : Nat → Int) (is : List Nat) :
    ∀ l : List Tree, (seedList hashTable is l).length =
      l.length + (is.filter (fun i => decide (hashTable i > 0))).length := by
  induction is with
  | nil => intro l; simp [seedList]
  | cons i is ih =>
    intro l
    by_cases hpos : hashTable i > 0
    · rw [seedList, if_pos hpos, ih, queueInsert_length]
      simp [List.filter_cons, hpos]; omega
    · rw [seedList, if_neg hpos, ih]
      simp [List.filter_cons, hpos]

theorem mergeStep_length (l : List Tree) (h : 2 ≤ l.length) :
    (mergeStep l).length + 1 = l.length := by
  match l, h with
  | e1 :: e2 :: rest, _ => simp [mergeStep, queueInsert_length]

theorem mergeStep_nonnull (l : List Tree) (hl : ∀ t ∈ l, t ≠ Tree.null) :
    ∀ t ∈ mergeStep l, t ≠ Tree.null := by
  match l, hl with
  | e1 :: e2 :: rest, hl =>
    exact queueInsert_nonnull _ rest (by simp) (fun t ht => hl t (by simp [ht]))
  | [_], hl => simpa [mergeStep] using hl
  | [], _ => simp [mergeStep]

theorem mergeSteps_length (k : Nat) :
    ∀ l : List Tree, l.length = k + 1 → (mergeSteps k l).length = 1 := by
  induction k with
  | zero => intro l hl; simpa [mergeSteps] using hl
  | succ k ih =>
    intro l hl
    rw [mergeSteps]
    apply ih
    have := mergeStep_length l (by omega)
    omega

theorem mergeLoop_list (k : Nat) :
    ∀ (fuel : Nat) (l : List Tree), l.length = k + 1 → k ≤ fuel →
      (∀ t ∈ l, t ≠ Tree.null) →
      mergeLoop fuel (Queue.mk l.length l) =
        some (.ok (k, Queue.mk (mergeSteps k l).length (mergeSteps k l))) := by
  induction k with
  | zero =>
    intro fuel l hl _ _
    rw [mergeLoop.eq_def]
    simp [hl, mergeSteps]
  | succ k ih =>
    intro fuel l hl hfuel hnn
    match fuel, hfuel, l, hl, hnn with
    | fuel1 + 1, hfuel, e1 :: e2 :: rest, hl, hnn =>
      have hstep := mergeStep_length (e1 :: e2 :: rest) (by simp)
      have hrec := ih fuel1 (mergeStep (e1 :: e2 :: rest)) (by omega) (by omega)
        (mergeStep_nonnull _ hnn)
      rw [mergeLoop]
      have hge : (Queue.mk (e1 :: e2 :: rest).length (e1 :: e2 :: rest)).size ≥ 2 := by simp
      rw [if_pos hge]
      simp only [combineTrees_list e1 e2 rest hnn, hrec, mergeSteps]

theorem queueAdd_size (q q1 : Queue) (node : Tree) (h : queueAdd q node = .ok q1) :
    q1.size = q.size + 1 := by
  unfold queueAdd at h
  split at h
  · simp only [Except.ok.injEq] at h; rw [← h]
  · split at h
    · simp at h
    · simp at h
    · simp at h
    · split at h
      · simp only [Except.ok.injEq] at h; rw [← h]
      · split at h
        · simp only [Except.ok.injEq] at h; rw [← h]
        · simp at h

theorem combineTrees_size (q q1 : Queue) (h : combineTrees q = .ok q1) :
    q1.size + 1 = q.size := by
  unfold combineTrees at h
  split at h
  · simp at h
  · rename_i tree1 tree2 q0 hrem
    have hq0 : 2 ≤ q.size ∧ q0.size = q.size - 2 := by
      unfold queueRemove at hrem
      split at hrem
      · simp at hrem
      · split at hrem
        · simp only [Except.ok.injEq, Prod.mk.injEq] at hrem
          rw [← hrem.2.2]; exact ⟨by omega, rfl⟩
        · simp at hrem
    split at h
    · have := queueAdd_size _ _ _ h
      omega
    · simp at h

/-- The fuel `q->size` that `buildTree` supplies never runs out, whatever the
queue. -/
theorem mergeLoop_fuel (fuel : Nat) :
    ∀ q : Queue, q.size ≤ fuel + 1 → mergeLoop fuel q ≠ none := by
  induction fuel with
  | zero =>
    intro q hq
    rw [mergeLoop.eq_def]
    have : ¬ q.size ≥ 2 := by omega
    simp [this]
  | succ fuel ih =>
    intro q hq
    rw [mergeLoop]
    by_cases hge : q.size ≥ 2
    · rw [if_pos hge]
      cases hc : combineTrees q with
      | error e => simp
      | ok q1 =>
        have hsz := combineTrees_size q q1 hc
        have := ih q1 (by omega)
        simp only
        cases hm : mergeLoop fuel q1 with
        | none => exact absurd hm this
        | some r =>
          cases r with
          | error e => simp
          | ok kq => simp
    · rw [if_neg hge]; simp

theorem positiveCount_pos (hashTable : Nat → Int)
    (h : ∃ i, i < NUMCHARS ∧ hashTable i > 0) : 1 ≤ positiveCount hashTable := by
  obtain ⟨i, hi, hpos⟩ := h
  have hmem : i ∈ (List.range NUMCHARS).filter (fun i => decide (hashTable i > 0)) := by
    simp [List.mem_filter, hi, hpos]
  have hmem1 : i ∈ positiveIndices hashTable := hmem
  exact List.length_pos_of_mem hmem1

theorem seed_length (hashTable : Nat → Int) :
    (seedList hashTable (List.range NUMCHARS) []).length = positiveCount hashTable := by
  rw [seedList_length]; simp [positiveCount, positiveIndices]

theorem buildTree_eq (hashTable : Nat → Int) (hpos : 1 ≤ positiveCount hashTable) :
    ∃ t, mergeSteps (positiveCount hashTable - 1)
        (seedList hashTable (List.range NUMCHARS) []) = [t] ∧
      buildTree hashTable = some (.ok t) := by
  have hlen := seed_length hashTable
  have hnn := seedList_nonnull hashTable (List.range NUMCHARS) [] (by simp)
  have hone := mergeSteps_length (positiveCount hashTable - 1)
    (seedList hashTable (List.range NUMCHARS) []) (by omega)
  have hloop := mergeLoop_list (positiveCount hashTable - 1) (positiveCount hashTable)
    (seedList hashTable (List.range NUMCHARS) []) (by omega) (by omega) hnn
  obtain ⟨t, ht⟩ := List.length_eq_one.mp hone
  refine ⟨t, ht, ?_⟩
  rw [hlen] at hloop
  simp only [buildTree, makeQueue_list, hlen, hloop, ht]

/-- C6: with `n >= 1` positive counts the loop `while (q->size >= 2)
combineTrees(q)` ends after exactly `n - 1` merges (any fuel of at least
`n - 1` gives this result) with one entry left in the queue, and the run ends
in no error: the underflow branch of `queueRemove` is not reached. -/
theorem mergeLoop_terminates (hashTable : Nat → Int) (fuel : Nat)
    (hpos : 1 ≤ positiveCount hashTable) (hfuel : positiveCount hashTable - 1 ≤ fuel) :
    ∃ q0 t, makeQueue emptyQueue hashTable = .ok q0 ∧
      q0.size = positiveCount hashTable ∧
      mergeLoop fuel q0 = some (.ok (positiveCount hashTable - 1, Queue.mk 1 [t])) ∧
      buildTree hashTable = some (.ok t) := by
  have hlen := seed_length hashTable
  have hnn := seedList_nonnull hashTable (List.range NUMCHARS) [] (by simp)
  have hloop := mergeLoop_list (positiveCount hashTable - 1) fuel
    (seedList hashTable (List.range NUMCHARS) []) (by omega) hfuel hnn
  obtain ⟨t, ht, hb⟩ := buildTree_eq hashTable hpos
  refine ⟨_, t, makeQueue_list hashTable, hlen, ?_, hb⟩
  rw [hloop, ht]; rfl

set_option maxRecDepth 8000 in
/-- Witness for `mergeLoop_terminates`: the table `a:3, b:1, c:2` and fuel 2. -/
theorem mergeLoop_terminates_witness :
    (1 ≤ positiveCount (tableOf [(97, 3), (98, 1), (99, 2)]) ∧
      positiveCount (tableOf [(97, 3), (98, 1), (99, 2)]) - 1 ≤ 2) ∧
    ∃ q0 t, makeQueue emptyQueue (tableOf [(97, 3), (98, 1), (99, 2)]) = .ok q0 ∧
      q0.size = positiveCount (tableOf [(97, 3), (98, 1), (99, 2)]) ∧
      mergeLoop 2 q0 =
        some (.ok (positiveCount (tableOf [(97, 3), (98, 1), (99, 2)]) - 1, Queue.mk 1 [t])) ∧
      buildTree (tableOf [(97, 3), (98, 1), (99, 2)]) = some (.ok t) :=
  ⟨by decide, mergeLoop_terminates (tableOf [(97, 3), (98, 1), (99, 2)]) 2
    (by decide) (by decide)⟩

/-! ## The leaves of the built tree -/

theorem leaves_node (c : Nat) (o : Int) (l r : Tree) (h : ¬ (l = Tree.null ∧ r = Tree.null)) :
    leaves (Tree.node c o l r) = leaves l ++ leaves r := by
  rw [leaves, if_neg h]

theorem leaves_mkLeaf (i : Nat) (o : Int) : leaves (mkLeaf i o) = [(i, o)] := by
  simp [mkLeaf, leaves]

theorem forestLeaves_perm (l1 l2 : List Tree) (h : l1.Perm l2) :
    (forestLeaves l1).Perm (forestLeaves l2) :=
  List.Perm.flatMap_right leaves h

theorem seedList_leaves (hashTable : Nat → Int) (is : List Nat) :
    ∀ l : List Tree, (forestLeaves (seedList hashTable is l)).Perm
      (forestLeaves l ++
        (is.filter (fun i => decide (hashTable i > 0))).map (fun i => (i, hashTable i))) := by
  induction is with
  | nil => intro l; simp [seedList]
  | cons i is ih =>
    intro l
    by_cases hpos : hashTable i > 0
    · rw [seedList, if_pos hpos]
      refine (ih _).trans ?_
      have h1 := forestLeaves_perm _ _ (queueInsert_perm (mkLeaf i (hashTable i)) l)
      simp only [List.filter_cons, hpos, decide_True, if_true, List.map_cons]
      refine (List.Perm.append_right _ h1).trans ?_
      simp only [forestLeaves, List.flatMap_cons, leaves_mkLeaf]
      simpa using List.perm_middle.symm
    · rw [seedList, if_neg hpos]
      simpa [List.filter_cons, hpos] using ih l

theorem mergeStep_leaves (l : List Tree) (hl : ∀ t ∈ l, t ≠ Tree.null) :
    (forestLeaves (mergeStep l)).Perm (forestLeaves l) := by
  match l, hl with
  | e1 :: e2 :: rest, hl =>
    have h1 : e1 ≠ Tree.null := hl e1 (by simp)
    have h := forestLeaves_perm _ _
      (queueInsert_perm (Tree.node 0 (wrapInt (weight e1 + weight e2)) e1 e2) rest)
    refine h.trans ?_
    simp only [forestLeaves, List.flatMap_cons]
    rw [leaves_node _ _ _ _ (fun h => h1 h.1), List.append_assoc]
  | [_], _ => exact List.Perm.refl _
  | [], _ => exact List.Perm.refl _

theorem mergeSteps_nonnull (k : Nat) :
    ∀ l : List Tree, (∀ t ∈ l, t ≠ Tree.null) → ∀ t ∈ mergeSteps k l, t ≠ Tree.null := by
  induction k with
  | zero => intro l hl; simpa [mergeSteps] using hl
  | succ k ih => intro l hl; rw [mergeSteps]; exact ih _ (mergeStep_nonnull l hl)

theorem mergeSteps_leaves (k : Nat) :
    ∀ l : List Tree, (∀ t ∈ l, t ≠ Tree.null) →
      (forestLeaves (mergeSteps k l)).Perm (forestLeaves l) := by
  induction k with
  | zero => intro l _; exact List.Perm.refl _
  | succ k ih =>
    intro l hl
    rw [mergeSteps]
    exact (ih _ (mergeStep_nonnull l hl)).trans (mergeStep_leaves l hl)

theorem shaped_mkLeaf (i : Nat) (o : Int) : shaped (mkLeaf i o) := by
  simp [mkLeaf, shaped]

theorem shaped_ne_null (t : Tree) (h : shaped t) : t ≠ Tree.null := by
  intro h0; rw [h0] at h; exact h

theorem queueInsert_shaped (node : Tree) (l : List Tree) (hn : shaped node)
    (hl : ∀ t ∈ l, shaped t) : ∀ t ∈ queueInsert node l, shaped t := by
  intro t ht
  rcases List.mem_cons.mp ((queueInsert_perm node l).subset ht) with h | h
  · rw [h]; exact hn
  · exact hl t h

theorem seedList_shaped (hashTable : Nat → Int) (is : List Nat) :
    ∀ l : List Tree, (∀ t ∈ l, shaped t) → ∀ t ∈ seedList hashTable is l, shaped t := by
  induction is with
  | nil => intro l hl; simpa [seedList] using hl
  | cons i is ih =>
    intro l hl
    by_cases hpos : hashTable i > 0
    · rw [seedList, if_pos hpos]
      exact ih _ (queueInsert_shaped _ l (shaped_mkLeaf _ _) hl)
    · rw [seedList, if_neg hpos]; exact ih l hl

theorem mergeStep_shaped (l : List Tree) (hl : ∀ t ∈ l, shaped t) :
    ∀ t ∈ mergeStep l, shaped t := by
  match l, hl with
  | e1 :: e2 :: rest, hl =>
    refine queueInsert_shaped _ rest ?_ (fun t ht => hl t (by simp [ht]))
    exact Or.inr ⟨rfl, hl e1 (by simp), hl e2 (by simp)⟩
  | [_], hl => simpa [mergeStep] using hl
  | [], _ => simp [mergeStep]

theorem mergeSteps_shaped (k : Nat) :
    ∀ l : List Tree, (∀ t ∈ l, shaped t) → ∀ t ∈ mergeSteps k l, shaped t := by
  induction k with
  | zero => intro l hl; simpa [mergeSteps] using hl
  | succ k ih => intro l hl; rw [mergeSteps]; exact ih _ (mergeStep_shaped l hl)

theorem charInTree_iff (c : Nat) (hc : c ≠ 0) (t : Tree) (ht : shaped t) :
    charInTree c t = true ↔ c ∈ (leaves t).map Prod.fst := by
  induction t with
  | null => exact absurd ht (by simp [shaped])
  | node tc o l r ihl ihr =>
    by_cases hleaf : l = Tree.null ∧ r = Tree.null
    · obtain ⟨hl0, hr0⟩ := hleaf
      subst hl0; subst hr0
      simp [charInTree, leaves, eq_comm]
    · rcases ht with h | ⟨h0, hsl, hsr⟩
      · exact absurd h hleaf
      · have hne : ¬ tc = c := by rw [h0]; exact fun h => hc h.symm
        rw [leaves_node _ _ _ _ hleaf]
        simp only [charInTree, if_neg hne, Bool.or_eq_true, List.map_append, List.mem_append,
          ihl hsl, ihr hsr]

theorem buildTree_facts (hashTable : Nat → Int) (hpos : 1 ≤ positiveCount hashTable) :
    ∃ t, buildTree hashTable = some (.ok t) ∧ shaped t ∧
      mergeSteps (positiveCount hashTable - 1)
        (seedList hashTable (List.range NUMCHARS) []) = [t] ∧
      (leaves t).Perm ((positiveIndices hashTable).map (fun i => (i, hashTable i))) := by
  obtain ⟨t, ht, hb⟩ := buildTree_eq hashTable hpos
  have hnn := seedList_nonnull hashTable (List.range NUMCHARS) [] (by simp)
  have hsh := mergeSteps_shaped (positiveCount hashTable - 1) _
    (seedList_shaped hashTable (List.range NUMCHARS) [] (by simp))
  have hlv := (mergeSteps_leaves (positiveCount hashTable - 1) _ hnn).trans
    (seedList_leaves hashTable (List.range NUMCHARS) [])
  rw [ht] at hsh hlv
  refine ⟨t, hb, hsh t (by simp), ht, ?_⟩
  simpa [forestLeaves, positiveIndices] using hlv

/-- C7: the leaves of the built tree are exactly the byte values with a positive
count, each once and with its own count; so `charInTree` finds a non-zero byte
value exactly when its count is positive. -/
theorem built_tree_leaves (hashTable : Nat → Int)
    (h : ∃ i, i < NUMCHARS ∧ hashTable i > 0) :
    ∃ t, buildTree hashTable = some (.ok t) ∧
      (leaves t).Perm ((positiveIndices hashTable).map (fun i => (i, hashTable i))) ∧
      ∀ c, 0 < c → c < NUMCHARS → (charInTree c t = true ↔ hashTable c > 0) := by
  obtain ⟨t, hb, hsh, _, hlv⟩ := buildTree_facts hashTable (positiveCount_pos hashTable h)
  refine ⟨t, hb, hlv, ?_⟩
  intro c hc0 hc
  rw [charInTree_iff c (Nat.pos_iff_ne_zero.mp hc0) t hsh, (hlv.map Prod.fst).mem_iff]
  simp [positiveIndices, List.mem_filter, hc, Function.comp_def]

/-- Witness for `built_tree_leaves`: the table `a:3, b:1, c:2`. -/
theorem built_tree_leaves_witness :
    (∃ i, i < NUMCHARS ∧ tableOf [(97, 3), (98, 1), (99, 2)] i > 0) ∧
    ∃ t, buildTree (tableOf [(97, 3), (98, 1), (99, 2)]) = some (.ok t) ∧
      (leaves t).Perm ((positiveIndices (tableOf [(97, 3), (98, 1), (99, 2)])).map
        (fun i => (i, tableOf [(97, 3), (98, 1), (99, 2)] i))) ∧
      ∀ c, 0 < c → c < NUMCHARS →
        (charInTree c t = true ↔ tableOf [(97, 3), (98, 1), (99, 2)] c > 0) :=
  ⟨⟨97, by decide, by decide⟩,
    built_tree_leaves (tableOf [(97, 3), (98, 1), (99, 2)]) ⟨97, by decide, by decide⟩⟩

/-! ## Code derivation -/

theorem set_take_succ (v : Nat) (X : List Nat) :
    ∀ (buf : List Nat) (i : Nat), i < buf.length →
      (buf.take (i + 1) ++ X).set i v = buf.take i ++ v :: X := by
  intro buf
  induction buf with
  | nil => intro i h; simp at h
  | cons b bs ih =>
    intro i h
    cases i with
    | zero => simp
    | succ k =>
      have := ih k (by simpa using h)
      simp [List.take_succ_cons, this]

theorem writeString_length (buf : List Nat) (index : Nat) (s : List Nat)
    (h : index + s.length ≤ buf.length) : (writeString buf index s).length = buf.length := by
  simp [writeString]; omega

theorem writeString_set (buf : List Nat) (index v : Nat) (s : List Nat)
    (h : index < buf.length) :
    (writeString buf (index + 1) s).set index v = writeString buf index (v :: s) := by
  unfold writeString
  rw [List.append_assoc, set_take_succ v _ buf index h]
  simp [Nat.add_assoc, Nat.add_comm 1]

theorem makeHuffmanString_eq (c : Nat) (t : Tree) :
    ∀ (index : Nat) (buf : List Nat),
      (findCode c t = none → makeHuffmanString index c t buf = .ok (false, buf)) ∧
      (∀ p, findCode c t = some p → index + p.length < buf.length →
        makeHuffmanString index c t buf = .ok (true, writeString buf index (p ++ [0]))) := by
  induction t with
  | null =>
    intro index buf
    exact ⟨fun _ => rfl, fun p hp => by simp [findCode] at hp⟩
  | node tc o l r ihl ihr =>
    intro index buf
    by_cases htc : tc = c
    · refine ⟨fun h => by simp [findCode, htc] at h, ?_⟩
      intro p hp hlen
      simp only [findCode, if_pos htc, Option.some.injEq] at hp
      subst hp
      have hlt : index < buf.length := by simpa using hlen
      simp only [makeHuffmanString, if_pos htc, bufWrite, if_pos hlt]
      congr 2
      have := set_take_succ 0 (buf.drop (index + 1)) buf index hlt
      rw [List.take_append_drop] at this
      simp [writeString, this]
    · cases hl : findCode c l with
      | some pl =>
        refine ⟨fun h => by simp [findCode, htc, hl] at h, ?_⟩
        intro p hp hlen
        simp only [findCode, if_neg htc, hl, Option.some.injEq] at hp
        subst hp
        have hlen1 : index + 1 + pl.length < buf.length := by
          simp at hlen; omega
        have h1 := (ihl (index + 1) buf).2 pl hl hlen1
        have hlt : index < (writeString buf (index + 1) (pl ++ [0])).length := by
          rw [writeString_length _ _ _ (by simp; omega)]; omega
        simp only [makeHuffmanString, if_neg htc, h1, bufWrite, if_pos hlt]
        rw [writeString_set buf index 48 _ (by omega)]
        rfl
      | none =>
        have h1 := (ihl (index + 1) buf).1 hl
        cases hr : findCode c r with
        | some pr =>
          refine ⟨fun h => by simp [findCode, htc, hl, hr] at h, ?_⟩
          intro p hp hlen
          simp only [findCode, if_neg htc, hl, hr, Option.some.injEq] at hp
          subst hp
          have hlen1 : index + 1 + pr.length < buf.length := by
            simp at hlen; omega
          have h2 := (ihr (index + 1) buf).2 pr hr hlen1
          have hlt : index < (writeString buf (index + 1) (pr ++ [0])).length := by
            rw [writeString_length _ _ _ (by simp; omega)]; omega
          simp only [makeHuffmanString, if_neg htc, h1, h2, bufWrite, if_pos hlt]
          rw [writeString_set buf index 49 _ (by omega)]
          rfl
        | none =>
          have h2 := (ihr (index + 1) buf).1 hr
          refine ⟨fun _ => ?_, fun p hp => by simp [findCode, htc, hl, hr] at hp⟩
          simp only [makeHuffmanString, if_neg htc, h1, h2]

theorem findCode_digits (c : Nat) (t : Tree) :
    ∀ p, findCode c t = some p → ∀ d ∈ p, d = 48 ∨ d = 49 := by
  induction t with
  | null => intro p hp; simp [findCode] at hp
  | node tc o l r ihl ihr =>
    intro p hp
    by_cases htc : tc = c
    · simp only [findCode, if_pos htc, Option.some.injEq] at hp
      subst hp; simp
    · cases hl : findCode c l with
      | some pl =>
        simp only [findCode, if_neg htc, hl, Option.some.injEq] at hp
        subst hp
        intro d hd
        rcases List.mem_cons.mp hd with h | h
        · exact Or.inl h
        · exact ihl pl hl d h
      | none =>
        cases hr : findCode c r with
        | some pr =>
          simp only [findCode, if_neg htc, hl, hr, Option.some.injEq] at hp
          subst hp
          intro d hd
          rcases List.mem_cons.mp hd with h | h
          · exact Or.inr h
          · exact ihr pr hr d h
        | none => simp [findCode, htc, hl, hr] at hp

theorem cString_append_zero (p rest : List Nat) (hp : ∀ d ∈ p, d ≠ 0) :
    cString (p ++ 0 :: rest) = p := by
  induction p with
  | nil => simp [cString]
  | cons d ds ih =>
    have hd : d ≠ 0 := hp d (by simp)
    have := ih (fun x hx => hp x (by simp [hx]))
    simp only [cString] at this ⊢
    rw [List.cons_append, List.takeWhile_cons_of_pos (by simpa using hd), this]

theorem huffmanCode_some (c : Nat) (t : Tree) (p : List Nat) (hp : findCode c t = some p)
    (hlen : p.length < MAXSTR) : huffmanCode c t = .ok p := by
  have hbuf : freshBuffer.length = MAXSTR := by simp [freshBuffer]
  have h := (makeHuffmanString_eq c t 0 freshBuffer).2 p hp (by omega)
  simp only [huffmanCode, h]
  congr 1
  have hnz : ∀ d ∈ p, d ≠ 0 := by
    intro d hd
    rcases findCode_digits c t p hp d hd with h | h <;> omega
  simpa [writeString] using cString_append_zero p _ hnz

theorem huffmanCode_none (c : Nat) (t : Tree) (hp : findCode c t = none) :
    huffmanCode c t = .ok [] := by
  have h := (makeHuffmanString_eq c t 0 freshBuffer).1 hp
  simp only [huffmanCode, h]
  rfl

theorem leaves_length_pos (t : Tree) (ht : shaped t) : 0 < (leaves t).length := by
  induction t with
  | null => exact absurd ht (by simp [shaped])
  | node tc o l r ihl _ =>
    by_cases hleaf : l = Tree.null ∧ r = Tree.null
    · simp [leaves, hleaf]
    · rcases ht with h | ⟨_, hsl, _⟩
      · exact absurd h hleaf
      · rw [leaves_node _ _ _ _ hleaf, List.length_append]
        have := ihl hsl
        omega

theorem findCode_length_lt (c : Nat) (t : Tree) (ht : shaped t) :
    ∀ p, findCode c t = some p → p.length < (leaves t).length := by
  induction t with
  | null => exact absurd ht (by simp [shaped])
  | node tc o l r ihl ihr =>
    intro p hp
    by_cases htc : tc = c
    · simp only [findCode, if_pos htc, Option.some.injEq] at hp
      subst hp
      exact leaves_length_pos _ ht
    · by_cases hleaf : l = Tree.null ∧ r = Tree.null
      · obtain ⟨hl0, hr0⟩ := hleaf
        subst hl0; subst hr0
        simp [findCode, htc] at hp
      · rcases ht with h | ⟨_, hsl, hsr⟩
        · exact absurd h hleaf
        · rw [leaves_node _ _ _ _ hleaf, List.length_append]
          have hposl := leaves_length_pos l hsl
          have hposr := leaves_length_pos r hsr
          cases hl : findCode c l with
          | some pl =>
            simp only [findCode, if_neg htc, hl, Option.some.injEq] at hp
            subst hp
            have := ihl hsl pl hl
            simp; omega
          | none =>
            cases hr : findCode c r with
            | some pr =>
              simp only [findCode, if_neg htc, hl, hr, Option.some.injEq] at hp
              subst hp
              have := ihr hsr pr hr
              simp; omega
            | none => simp [findCode, htc, hl, hr] at hp

theorem findCode_isSome (c : Nat) (t : Tree) : (findCode c t).isSome = charInTree c t := by
  induction t with
  | null => rfl
  | node tc o l r ihl ihr =>
    by_cases htc : tc = c
    · simp [findCode, charInTree, htc]
    · cases hl : findCode c l with
      | some pl =>
        rw [hl] at ihl
        simp [findCode, charInTree, htc, hl, ← ihl]
      | none =>
        rw [hl] at ihl
        cases hr : findCode c r with
        | some pr =>
          rw [hr] at ihr
          simp [findCode, charInTree, htc, hl, hr, ← ihl, ← ihr]
        | none =>
          rw [hr] at ihr
          simp [findCode, charInTree, htc, hl, hr, ← ihl, ← ihr]

theorem findCode_prefix_free (a b : Nat) (ha : a ≠ 0) (hb : b ≠ 0) (hab : a ≠ b) (t : Tree)
    (ht : shaped t) :
    ∀ pa pb, findCode a t = some pa → findCode b t = some pb → ¬ pa <+: pb := by
  induction t with
  | null => exact absurd ht (by simp [shaped])
  | node tc o l r ihl ihr =>
    intro pa pb hpa hpb
    by_cases hleaf : l = Tree.null ∧ r = Tree.null
    · obtain ⟨hl0, hr0⟩ := hleaf
      subst hl0; subst hr0
      by_cases h1 : tc = a
      · by_cases h2 : tc = b
        · exact absurd (h1.symm.trans h2) hab
        · simp [findCode, h2] at hpb
      · simp [findCode, h1] at hpa
    · rcases ht with h | ⟨h0, hsl, hsr⟩
      · exact absurd h hleaf
      · have hna : ¬ tc = a := by rw [h0]; exact fun h => ha h.symm
        have hnb : ¬ tc = b := by rw [h0]; exact fun h => hb h.symm
        simp only [findCode, if_neg hna] at hpa
        simp only [findCode, if_neg hnb] at hpb
        cases hal : findCode a l with
        | some qa =>
          simp only [hal, Option.some.injEq] at hpa
          subst hpa
          cases hbl : findCode b l with
          | some qb =>
            simp only [hbl, Option.some.injEq] at hpb
            subst hpb
            intro hpre
            exact ihl hsl qa qb hal hbl (List.cons_prefix_cons.mp hpre).2
          | none =>
            cases hbr : findCode b r with
            | some qb =>
              simp only [hbl, hbr, Option.some.injEq] at hpb
              subst hpb
              intro hpre
              exact absurd (List.cons_prefix_cons.mp hpre).1 (by decide)
            | none => simp [hbl, hbr] at hpb
        | none =>
          cases har : findCode a r with
          | some qa =>
            simp only [hal, har, Option.some.injEq] at hpa
            subst hpa
            cases hbl : findCode b l with
            | some qb =>
              simp only [hbl, Option.some.injEq] at hpb
              subst hpb
              intro hpre
              exact absurd (List.cons_prefix_cons.mp hpre).1 (by decide)
            | none =>
              cases hbr : findCode b r with
              | some qb =>
                simp only [hbl, hbr, Option.some.injEq] at hpb
                subst hpb
                intro hpre
                exact ihr hsr qa qb har hbr (List.cons_prefix_cons.mp hpre).2
              | none => simp [hbl, hbr] at hpb
          | none => simp [hal, har] at hpa

theorem positiveCount_le (hashTable : Nat → Int) : positiveCount hashTable ≤ NUMCHARS := by
  unfold positiveCount positiveIndices
  exact (List.length_filter_le _ _).trans (by simp)

/-- What the code-derivation lemmas need to know about the built tree. -/
theorem buildTree_code (hashTable : Nat → Int) (h : ∃ i, i < NUMCHARS ∧ hashTable i > 0) :
    ∃ t, buildTree hashTable = some (.ok t) ∧ shaped t ∧
      (leaves t).Perm ((positiveIndices hashTable).map (fun i => (i, hashTable i))) ∧
      (∀ c p, findCode c t = some p → huffmanCode c t = .ok p) ∧
      (∀ c, 0 < c → c < NUMCHARS → hashTable c > 0 → ∃ p, findCode c t = some p) := by
  obtain ⟨t, hb, hsh, _, hlv⟩ := buildTree_facts hashTable (positiveCount_pos hashTable h)
  refine ⟨t, hb, hsh, hlv, ?_, ?_⟩
  · intro c p hp
    refine huffmanCode_some c t p hp ?_
    have h1 := findCode_length_lt c t hsh p hp
    have h2 : (leaves t).length = positiveCount hashTable := by
      rw [hlv.length_eq]; simp [positiveCount]
    have h3 := positiveCount_le hashTable
    simp only [MAXSTR, NUMCHARS] at *
    omega
  · intro c hc0 hc hpos
    have hin : charInTree c t = true := by
      rw [charInTree_iff c (Nat.pos_iff_ne_zero.mp hc0) t hsh, (hlv.map Prod.fst).mem_iff]
      simp [positiveIndices, List.mem_filter, hc, hpos, Function.comp_def]
    rw [← findCode_isSome] at hin
    exact Option.isSome_iff_exists.mp hin

set_option maxRecDepth 8000 in
theorem buildTree_tableABC : buildTree tableABC = some (.ok treeABC) := by
  decide

set_option maxRecDepth 8000 in
/-- C8 (as stated, refuted): with the table `0:1, a:1` the byte values 0 and 97
are both leaves of the built tree, the code derived for 0 is empty (the search
stops at the root, whose `c` is 0) and is a prefix of the code of 97. -/
theorem prefix_free_zero_counterexample :
    (∃ i, i < NUMCHARS ∧ tableOf [(0, 1), (97, 1)] i > 0) ∧
    buildTree (tableOf [(0, 1), (97, 1)]) = some (.ok treeZeroA) ∧
    leaves treeZeroA = [(0, 1), (97, 1)] ∧
    huffmanCode 0 treeZeroA = .ok [] ∧
    huffmanCode 97 treeZeroA = .ok [49] ∧
    ([] : List Nat) <+: [49] :=
  ⟨⟨97, by decide, by decide⟩, by decide, by decide,
    huffmanCode_some 0 treeZeroA [] (by decide) (by decide),
    huffmanCode_some 97 treeZeroA [49] (by decide) (by decide), List.nil_prefix⟩

/-- C8 (amended): for every two distinct non-zero byte values that are leaves of
the built tree, neither derived code is a prefix of the other. -/
theorem codes_prefix_free (hashTable : Nat → Int)
    (h : ∃ i, i < NUMCHARS ∧ hashTable i > 0) :
    ∃ t, buildTree hashTable = some (.ok t) ∧
      ∀ a b, a ≠ 0 → b ≠ 0 → a ≠ b →
        a ∈ (leaves t).map Prod.fst → b ∈ (leaves t).map Prod.fst →
        ∃ ca cb, huffmanCode a t = .ok ca ∧ huffmanCode b t = .ok cb ∧
          ¬ ca <+: cb ∧ ¬ cb <+: ca := by
  obtain ⟨t, hb, hsh, _, hcode, _⟩ := buildTree_code hashTable h
  refine ⟨t, hb, ?_⟩
  intro a b ha hb0 hab hla hlb
  have hia : (findCode a t).isSome = true := by
    rw [findCode_isSome, charInTree_iff a ha t hsh]; exact hla
  have hib : (findCode b t).isSome = true := by
    rw [findCode_isSome, charInTree_iff b hb0 t hsh]; exact hlb
  obtain ⟨pa, hpa⟩ := Option.isSome_iff_exists.mp hia
  obtain ⟨pb, hpb⟩ := Option.isSome_iff_exists.mp hib
  exact ⟨pa, pb, hcode a pa hpa, hcode b pb hpb,
    findCode_prefix_free a b ha hb0 hab t hsh pa pb hpa hpb,
    findCode_prefix_free b a hb0 ha (Ne.symm hab) t hsh pb pa hpb hpa⟩

/-- Witness for `codes_prefix_free`: the table `a:3, b:1, c:2` and the byte
values 97 and 98. -/
theorem codes_prefix_free_witness :
    (∃ i, i < NUMCHARS ∧ tableABC i > 0) ∧
    ∃ ca cb, huffmanCode 97 treeABC = .ok ca ∧ huffmanCode 98 treeABC = .ok cb ∧
      ¬ ca <+: cb ∧ ¬ cb <+: ca := by
  refine ⟨⟨97, by decide, by decide⟩, ?_⟩
  obtain ⟨t, hb, hall⟩ := codes_prefix_free tableABC ⟨97, by decide, by decide⟩
  have ht : t = treeABC := by
    rw [buildTree_tableABC] at hb
    injection hb with hb
    injection hb with hb
    exact hb.symm
  subst ht
  exact hall 97 98 (by decide) (by decide) (by decide) (by decide) (by decide)

/-! ## Round trip -/

theorem readLine_append (k : Nat) :
    ∀ input : List Nat, (readLine k input).1 ++ (readLine k input).2 = input := by
  induction k with
  | zero => intro input; simp [readLine]
  | succ k ih =>
    intro input
    cases input with
    | nil => simp [readLine]
    | cons b bs =>
      by_cases hb : b = 10
      · simp [readLine, hb]
      · simp [readLine, hb, ih bs]

theorem readLine_ne_nil (k : Nat) (b : Nat) (bs : List Nat) :
    (readLine (k + 1) (b :: bs)).1 ≠ [] := by
  by_cases hb : b = 10
  · simp [readLine, hb]
  · simp [readLine, hb]

theorem countLoop_eq (charSigned : Bool) :
    ∀ (line : List Nat) (hashTable : Nat → Int), countable charSigned line →
      countLoop charSigned line hashTable =
        .ok (fun j => hashTable j + (line.count j : Int)) := by
  intro line
  induction line with
  | nil => intro hashTable _; simp [countLoop]
  | cons b bs ih =>
    intro hashTable hv
    obtain ⟨_, hb256, hbs⟩ := hv b (by simp)
    have hval : charValue charSigned b = (b : Int) := by
      unfold charValue
      rw [if_neg]
      rintro ⟨h1, h2⟩
      have := hbs h1
      omega
    have hrange : 0 ≤ charValue charSigned b ∧ charValue charSigned b < (NUMCHARS : Int) := by
      rw [hval]; exact ⟨by omega, by exact_mod_cast hb256⟩
    rw [countLoop, if_pos hrange, ih _ (fun x hx => hv x (by simp [hx])), hval]
    congr 1
    funext j
    by_cases hj : j = b
    · subst hj; simp [List.count_cons]; ring
    · have hj1 : ¬ b = j := fun h => hj h.symm
      simp [List.count_cons, hj, hj1]

theorem cString_line (line : List Nat) (h : ∀ b ∈ line, 0 < b) :
    cString (line ++ [0]) = line :=
  cString_append_zero line [] (fun d hd => Nat.pos_iff_ne_zero.mp (h d hd))

theorem populateLoop_eq (charSigned : Bool) (fuel : Nat) :
    ∀ (input : List Nat) (hashTable : Nat → Int), input.length ≤ fuel →
      countable charSigned input →
      populateLoop charSigned fuel input hashTable =
        some (.ok (fun j => hashTable j + (input.count j : Int))) := by
  induction fuel with
  | zero =>
    intro input hashTable hlen _
    have : input = [] := List.length_eq_zero.mp (Nat.le_zero.mp hlen)
    subst this
    rw [populateLoop.eq_def]
    simp [fgets]
  | succ fuel ih =>
    intro input hashTable hlen hv
    cases input with
    | nil => rw [populateLoop.eq_def]; simp [fgets]
    | cons b bs =>
      have happ := readLine_append (MAXSTR - 1) (b :: bs)
      have hne : (readLine (MAXSTR - 1) (b :: bs)).1 ≠ [] :=
        readLine_ne_nil (MAXSTR - 2) b bs
      have hv1 : countable charSigned (readLine (MAXSTR - 1) (b :: bs)).1 := by
        intro x hx; exact hv x (by rw [← happ]; exact List.mem_append_left _ hx)
      have hv2 : countable charSigned (readLine (MAXSTR - 1) (b :: bs)).2 := by
        intro x hx; exact hv x (by rw [← happ]; exact List.mem_append_right _ hx)
      have hlen2 : (readLine (MAXSTR - 1) (b :: bs)).2.length ≤ fuel := by
        have h1 := congrArg List.length happ
        have h2 := List.length_pos.mpr hne
        rw [List.length_append] at h1
        simp only [List.length_cons] at h1 hlen
        omega
      rw [populateLoop]
      simp only [fgets]
      rw [cString_line _ (fun x hx => (hv1 x hx).1), countLoop_eq charSigned _ _ hv1]
      simp only []
      rw [ih _ _ hlen2 hv2]
      congr 2
      funext j
      have hc : (b :: bs).count j =
          (readLine (MAXSTR - 1) (b :: bs)).1.count j +
            (readLine (MAXSTR - 1) (b :: bs)).2.count j := by
        rw [← List.count_append, happ]
      rw [hc]; push_cast; ring

/-- The fuel `file.length` that `populateHashTable` supplies never runs out. -/
theorem populateLoop_fuel (charSigned : Bool) (fuel : Nat) :
    ∀ (input : List Nat) (hashTable : Nat → Int), input.length ≤ fuel →
      populateLoop charSigned fuel input hashTable ≠ none := by
  induction fuel with
  | zero =>
    intro input hashTable hlen
    have : input = [] := List.length_eq_zero.mp (Nat.le_zero.mp hlen)
    subst this
    rw [populateLoop.eq_def]
    simp [fgets]
  | succ fuel ih =>
    intro input hashTable hlen
    cases input with
    | nil => rw [populateLoop.eq_def]; simp [fgets]
    | cons b bs =>
      have happ := readLine_append (MAXSTR - 1) (b :: bs)
      have hne : (readLine (MAXSTR - 1) (b :: bs)).1 ≠ [] :=
        readLine_ne_nil (MAXSTR - 2) b bs
      have hlen2 : (readLine (MAXSTR - 1) (b :: bs)).2.length ≤ fuel := by
        have h1 := congrArg List.length happ
        have h2 := List.length_pos.mpr hne
        rw [List.length_append] at h1
        simp only [List.length_cons] at h1 hlen
        omega
      rw [populateLoop]
      simp only [fgets]
      cases hc : countLoop charSigned (cString ((readLine (MAXSTR - 1) (b :: bs)).1 ++ [0]))
          hashTable with
      | error e => simp
      | ok h1 => exact ih _ h1 hlen2

theorem populateHashTable_eq (charSigned : Bool) (file : List Nat)
    (hv : countable charSigned file) :
    populateHashTable charSigned zeroTable file = some (.ok (countTable file)) := by
  unfold populateHashTable
  rw [populateLoop_eq charSigned _ file zeroTable (le_refl _) hv]
  congr 2
  funext j
  simp [zeroTable, countTable]

theorem isLeaf_false_of_internal (c : Nat) (o : Int) (l r : Tree)
    (h : ¬ (l = Tree.null ∧ r = Tree.null)) : isLeaf (Tree.node c o l r) = false := by
  cases l with
  | node _ _ _ _ => simp [isLeaf]
  | null =>
    cases r with
    | node _ _ _ _ => simp [isLeaf]
    | null => exact absurd ⟨rfl, rfl⟩ h

theorem subtrees_shaped (t : Tree) (ht : shaped t) : ∀ s ∈ subtrees t, shaped s := by
  induction t with
  | null => intro s hs; simp [subtrees] at hs
  | node c o l r ihl ihr =>
    intro s hs
    simp only [subtrees, List.mem_cons, List.mem_append] at hs
    rcases hs with h | h | h
    · rw [h]; exact ht
    · rcases ht with ⟨hl0, _⟩ | ⟨_, hsl, _⟩
      · subst hl0; simp [subtrees] at h
      · exact ihl hsl s h
    · rcases ht with ⟨_, hr0⟩ | ⟨_, _, hsr⟩
      · subst hr0; simp [subtrees] at h
      · exact ihr hsr s h

theorem subtrees_weighted (t : Tree) (ht : weighted t) : ∀ s ∈ subtrees t, weighted s := by
  induction t with
  | null => intro s hs; simp [subtrees] at hs
  | node c o l r ihl ihr =>
    intro s hs
    simp only [subtrees, List.mem_cons, List.mem_append] at hs
    rcases hs with h | h | h
    · rw [h]; exact ht
    · rcases ht.2 with ⟨hl0, _⟩ | ⟨_, hwl, _⟩
      · subst hl0; simp [subtrees] at h
      · exact ihl hwl s h
    · rcases ht.2 with ⟨_, hr0⟩ | ⟨_, _, hwr⟩
      · subst hr0; simp [subtrees] at h
      · exact ihr hwr s h

theorem weight_pos (t : Tree) (hs : shaped t) (hw : weighted t) : 0 < weight t := by
  cases t with
  | null => exact absurd hs (by simp [shaped])
  | node c o l r => exact hw.1

/-- A node with a child: both children are there and the weights add up. -/
theorem kids_internal (p u : Tree) (hs : shaped p) (hw : weighted p) (hu : u ∈ kids p) :
    ∃ c l r, p = Tree.node c (weight l + weight r) l r ∧ shaped l ∧ shaped r ∧
      weighted l ∧ weighted r ∧ (u = l ∨ u = r) := by
  cases p with
  | null => simp [kids] at hu
  | node c o l r =>
    rcases hs with ⟨hl0, hr0⟩ | ⟨_, hsl, hsr⟩
    · subst hl0; subst hr0; simp [kids] at hu
    · rcases hw.2 with ⟨hl0, _⟩ | ⟨ho, hwl, hwr⟩
      · subst hl0; exact absurd hsl (by simp [shaped])
      · subst ho
        refine ⟨c, l, r, rfl, hsl, hsr, hwl, hwr, ?_⟩
        simp only [kids, List.mem_filter, List.mem_cons, List.mem_singleton,
          List.not_mem_nil, or_false] at hu
        exact hu.1

theorem kids_node (c : Nat) (o : Int) (l r : Tree) (hl : l ≠ Tree.null) (hr : r ≠ Tree.null) :
    kids (Tree.node c o l r) = [l, r] := by
  simp [kids, List.filter_cons, hl, hr]

theorem forestNodes_perm (F G : List Tree) (h : F.Perm G) :
    (forestNodes F).Perm (forestNodes G) :=
  List.Perm.flatMap_right subtrees h

theorem ForestInv_perm (F G : List Tree) (h : F.Perm G) (hF : ForestInv F) : ForestInv G := by
  obtain ⟨h1, h2, h3⟩ := hF
  have hn := forestNodes_perm F G h
  refine ⟨fun t ht => h1 t (h.mem_iff.mpr ht), ?_, ?_⟩
  · intro p hp u hu t ht
    exact h2 p (hn.mem_iff.mpr hp) u hu t (h.mem_iff.mpr ht)
  · intro p hp q hq hlt
    exact h3 p (hn.mem_iff.mpr hp) q (hn.mem_iff.mpr hq) hlt

theorem forestNodes_cons (t : Tree) (F : List Tree) :
    forestNodes (t :: F) = subtrees t ++ forestNodes F := by
  simp [forestNodes]

theorem mem_forestNodes (F : List Tree) (p : Tree) (hp : p ∈ forestNodes F) :
    ∃ t ∈ F, p ∈ subtrees t := by
  simpa [forestNodes, List.mem_flatMap] using hp

theorem ForestInv_merge (x y : Tree) (rest : List Tree)
    (hs : (x :: y :: rest).Pairwise (fun a b => weight a ≤ weight b))
    (hF : ForestInv (x :: y :: rest)) :
    ForestInv (Tree.node 0 (weight x + weight y) x y :: rest) := by
  obtain ⟨h1, h2, h3⟩ := hF
  obtain ⟨hsx, hwx⟩ := h1 x (by simp)
  obtain ⟨hsy, hwy⟩ := h1 y (by simp)
  have hx0 := weight_pos x hsx hwx
  have hy0 := weight_pos y hsy hwy
  have hxn := shaped_ne_null x hsx
  have hyn := shaped_ne_null y hsy
  have hs1 := List.pairwise_cons.mp hs
  have hs2 := List.pairwise_cons.mp hs1.2
  have hxy : weight x ≤ weight y := hs1.1 y (by simp)
  have hkz : kids (Tree.node 0 (weight x + weight y) x y) = [x, y] := kids_node _ _ _ _ hxn hyn
  have hwz : weight (Tree.node 0 (weight x + weight y) x y) = weight x + weight y := rfl
  -- the nodes of the new forest are the new root and the old nodes
  have hnodes : ∀ p, p ∈ forestNodes (Tree.node 0 (weight x + weight y) x y :: rest) →
      p = Tree.node 0 (weight x + weight y) x y ∨ p ∈ forestNodes (x :: y :: rest) := by
    intro p hp
    simp only [forestNodes_cons, subtrees, List.mem_cons, List.mem_append] at hp ⊢
    tauto
  -- an old node with a child: its weight is the sum of two weights below `weight x`
  have hold : ∀ p ∈ forestNodes (x :: y :: rest), ∀ u ∈ kids p,
      ∃ u1, weight p = weight u + weight u1 ∧ weight u1 ≤ weight x ∧ weight u ≤ weight x := by
    intro p hp u hu
    obtain ⟨t, ht, hpt⟩ := mem_forestNodes _ p hp
    have hps := subtrees_shaped t (h1 t ht).1 p hpt
    have hpw := subtrees_weighted t (h1 t ht).2 p hpt
    obtain ⟨c, l, r, hpe, hsl, hsr, _, _, hlr⟩ := kids_internal p u hps hpw hu
    have hkp : kids p = [l, r] := by
      rw [hpe]; exact kids_node _ _ _ _ (shaped_ne_null l hsl) (shaped_ne_null r hsr)
    have hl := h2 p hp l (by rw [hkp]; simp) x (by simp)
    have hr := h2 p hp r (by rw [hkp]; simp) x (by simp)
    have hwp : weight p = weight l + weight r := by rw [hpe]; rfl
    rcases hlr with h | h
    · exact ⟨r, by rw [h]; exact hwp, hr, by rw [h]; exact hl⟩
    · exact ⟨l, by rw [h, hwp]; ring, hl, by rw [h]; exact hr⟩
  refine ⟨?_, ?_, ?_⟩
  · intro t ht
    rcases List.mem_cons.mp ht with h | h
    · rw [h]
      exact ⟨Or.inr ⟨rfl, hsx, hsy⟩, by omega, Or.inr ⟨rfl, hwx, hwy⟩⟩
    · exact h1 t (by simp [h])
  · intro p hp u hu t ht
    have htw : weight x ≤ weight t := by
      rcases List.mem_cons.mp ht with h | h
      · rw [h, hwz]; omega
      · exact le_trans hxy (hs2.1 t h)
    rcases hnodes p hp with h | h
    · rw [h, hkz] at hu
      simp only [List.mem_cons, List.mem_singleton, List.not_mem_nil, or_false] at hu
      rcases List.mem_cons.mp ht with h' | h'
      · rw [h', hwz]; rcases hu with hu | hu <;> rw [hu] <;> omega
      · have := hs2.1 t h'
        rcases hu with hu | hu <;> rw [hu] <;> omega
    · obtain ⟨_, _, _, hux⟩ := hold p h u hu
      exact le_trans hux htw
  · intro p hp q hq hlt
    obtain ⟨u, hu, v, hv, huv⟩ := hlt
    rcases hnodes p hp with hpz | hpo
    · rcases hnodes q hq with hqz | hqo
      · exact Or.inr (hpz.trans hqz.symm)
      · exfalso
        obtain ⟨_, _, _, hvx⟩ := hold q hqo v hv
        rw [hpz, hkz] at hu
        simp only [List.mem_cons, List.mem_singleton, List.not_mem_nil, or_false] at hu
        rcases hu with hu | hu <;> rw [hu] at huv <;> omega
    · rcases hnodes q hq with hqz | hqo
      · left
        obtain ⟨u1, hwp, hu1, hux⟩ := hold p hpo u hu
        rw [hqz, hkz] at hv
        simp only [List.mem_cons, List.mem_singleton, List.not_mem_nil, or_false] at hv
        rw [hqz, hwz, hwp]
        rcases hv with hv | hv <;> rw [hv] at huv <;> omega
      · exact h3 p hpo q hqo ⟨u, hu, v, hv, huv⟩

theorem ForestInv_leaves (F : List Tree)
    (h : ∀ t ∈ F, ∃ i o, t = mkLeaf i o ∧ 0 < o) : ForestInv F := by
  have hkids : ∀ p ∈ forestNodes F, kids p = [] := by
    intro p hp
    obtain ⟨t, ht, hpt⟩ := mem_forestNodes F p hp
    obtain ⟨i, o, hte, _⟩ := h t ht
    rw [hte] at hpt
    simp only [mkLeaf, subtrees, List.append_nil, List.mem_singleton] at hpt
    rw [hpt]; simp [kids]
  refine ⟨?_, ?_, ?_⟩
  · intro t ht
    obtain ⟨i, o, hte, ho⟩ := h t ht
    rw [hte]
    exact ⟨shaped_mkLeaf i o, ho, Or.inl ⟨rfl, rfl⟩⟩
  · intro p hp u hu
    rw [hkids p hp] at hu; simp at hu
  · intro p hp q _ hlt
    obtain ⟨u, hu, _⟩ := hlt
    rw [hkids p hp] at hu; simp at hu

theorem seedList_mkLeaf (hashTable : Nat → Int) (is : List Nat) :
    ∀ l : List Tree, (∀ t ∈ l, ∃ i o, t = mkLeaf i o ∧ 0 < o) →
      ∀ t ∈ seedList hashTable is l, ∃ i o, t = mkLeaf i o ∧ 0 < o := by
  induction is with
  | nil => intro l hl; simpa [seedList] using hl
  | cons i is ih =>
    intro l hl
    by_cases hpos : hashTable i > 0
    · rw [seedList, if_pos hpos]
      apply ih
      intro t ht
      rcases List.mem_cons.mp ((queueInsert_perm _ l).subset ht) with h | h
      · exact ⟨i, hashTable i, h, hpos⟩
      · exact hl t h
    · rw [seedList, if_neg hpos]; exact ih l hl

theorem weightSum_perm (l1 l2 : List Tree) (h : l1.Perm l2) : weightSum l1 = weightSum l2 :=
  (h.map weight).sum_eq

theorem weightSum_seedList (hashTable : Nat → Int) (is : List Nat) :
    ∀ l : List Tree, weightSum (seedList hashTable is l) =
      weightSum l + ((is.filter (fun i => decide (hashTable i > 0))).map hashTable).sum := by
  induction is with
  | nil => intro l; simp [seedList]
  | cons i is ih =>
    intro l
    by_cases hpos : hashTable i > 0
    · rw [seedList, if_pos hpos, ih, weightSum_perm _ _ (queueInsert_perm _ l)]
      simp [weightSum, List.filter_cons, hpos, mkLeaf, weight]; ring
    · rw [seedList, if_neg hpos, ih]
      simp [List.filter_cons, hpos]

theorem weightSum_nonneg (l : List Tree) (h : ∀ t ∈ l, 0 < weight t) : 0 ≤ weightSum l := by
  induction l with
  | nil => simp [weightSum]
  | cons t l ih =>
    have h1 := h t (by simp)
    have h2 := ih (fun s hs => h s (by simp [hs]))
    simp only [weightSum, List.map_cons, List.sum_cons] at h2 ⊢
    omega

theorem ForestInv_pos (F : List Tree) (hF : ForestInv F) : ∀ t ∈ F, 0 < weight t :=
  fun t ht => weight_pos t (hF.1 t ht).1 (hF.1 t ht).2

/-- Where the weights are positive and their sum is in the range of `int`, the
`int` sum `combineTrees` stores is the sum of the two weights. -/
theorem mergeStep_exact (x y : Tree) (rest : List Tree)
    (hpos : ∀ t ∈ x :: y :: rest, 0 < weight t) (hb : weightSum (x :: y :: rest) ≤ INT_MAX) :
    mergeStep (x :: y :: rest) = queueInsert (Tree.node 0 (weight x + weight y) x y) rest := by
  have hx := hpos x (by simp)
  have hy := hpos y (by simp)
  have hr := weightSum_nonneg rest (fun t ht => hpos t (by simp [ht]))
  simp only [weightSum, List.map_cons, List.sum_cons] at hb hr
  rw [mergeStep, wrapInt_eq _ (by omega) (by omega)]

theorem weightSum_mergeStep (l : List Tree) (hpos : ∀ t ∈ l, 0 < weight t)
    (hb : weightSum l ≤ INT_MAX) : weightSum (mergeStep l) = weightSum l := by
  match l, hpos, hb with
  | x :: y :: rest, hpos, hb =>
    rw [mergeStep_exact x y rest hpos hb, weightSum_perm _ _ (queueInsert_perm _ rest)]
    simp [weightSum, weight]; ring
  | [_], _, _ => rfl
  | [], _, _ => rfl

theorem mergeStep_inv (l : List Tree)
    (hs : l.Pairwise (fun a b => weight a ≤ weight b)) (hF : ForestInv l)
    (hb : weightSum l ≤ INT_MAX) :
    (mergeStep l).Pairwise (fun a b => weight a ≤ weight b) ∧ ForestInv (mergeStep l) ∧
      weightSum (mergeStep l) = weightSum l := by
  refine ⟨?_, ?_, weightSum_mergeStep l (ForestInv_pos l hF) hb⟩
  · match l, hs with
    | x :: y :: rest, hs =>
      exact queueInsert_sorted _ rest (List.pairwise_cons.mp (List.pairwise_cons.mp hs).2).2
    | [_], hs => exact hs
    | [], hs => exact hs
  · match l, hs, hF, hb with
    | x :: y :: rest, hs, hF, hb =>
      rw [mergeStep_exact x y rest (ForestInv_pos _ hF) hb]
      exact ForestInv_perm _ _ (queueInsert_perm _ rest).symm (ForestInv_merge x y rest hs hF)
    | [_], _, hF, _ => exact hF
    | [], _, hF, _ => exact hF

theorem mergeSteps_inv (k : Nat) :
    ∀ l : List Tree, l.Pairwise (fun a b => weight a ≤ weight b) → ForestInv l →
      weightSum l ≤ INT_MAX →
      (mergeSteps k l).Pairwise (fun a b => weight a ≤ weight b) ∧
        ForestInv (mergeSteps k l) ∧ weightSum (mergeSteps k l) = weightSum l := by
  induction k with
  | zero => intro l hs hF _; exact ⟨hs, hF, rfl⟩
  | succ k ih =>
    intro l hs hF hb
    obtain ⟨h1, h2, h3⟩ := mergeStep_inv l hs hF hb
    obtain ⟨h4, h5, h6⟩ := ih _ h1 h2 (by rw [h3]; exact hb)
    rw [mergeSteps]
    exact ⟨h4, h5, by rw [h6, h3]⟩

theorem seed_weightSum (hashTable : Nat → Int) :
    weightSum (seedList hashTable (List.range NUMCHARS) []) = positiveSum hashTable := by
  rw [weightSum_seedList]
  simp [weightSum, positiveSum, positiveIndices]

/-- The invariants of the forest after `k` merges, for a table whose positive
counts add up to at most `INT_MAX`. -/
theorem seed_ForestInv (hashTable : Nat → Int) (hb : positiveSum hashTable ≤ INT_MAX)
    (k : Nat) :
    (mergeSteps k (seedList hashTable (List.range NUMCHARS) [])).Pairwise
        (fun a b => weight a ≤ weight b) ∧
      ForestInv (mergeSteps k (seedList hashTable (List.range NUMCHARS) [])) ∧
      weightSum (mergeSteps k (seedList hashTable (List.range NUMCHARS) [])) =
        positiveSum hashTable := by
  have h := mergeSteps_inv k (seedList hashTable (List.range NUMCHARS) [])
    (seedList_sorted hashTable _ [] List.Pairwise.nil)
    (ForestInv_leaves _ (seedList_mkLeaf hashTable _ [] (by simp)))
    (by rw [seed_weightSum]; exact hb)
  rw [seed_weightSum] at h
  exact h

theorem buildTree_inv (hashTable : Nat → Int) (hpos : 1 ≤ positiveCount hashTable)
    (hb : positiveSum hashTable ≤ INT_MAX) :
    ∃ t, buildTree hashTable = some (.ok t) ∧ shaped t ∧
      (leaves t).Perm ((positiveIndices hashTable).map (fun i => (i, hashTable i))) ∧
      ForestInv [t] := by
  obtain ⟨t, hb1, hsh, hm, hlv⟩ := buildTree_facts hashTable hpos
  refine ⟨t, hb1, hsh, hlv, ?_⟩
  rw [← hm]
  exact (seed_ForestInv hashTable hb _).2.1

theorem subtreeAt_null (ds : List Nat) : subtreeAt Tree.null ds = Tree.null := by
  induction ds with
  | nil => rfl
  | cons d ds ih => simpa [subtreeAt, branch] using ih

theorem subtreeAt_append (ds es : List Nat) :
    ∀ t : Tree, subtreeAt t (ds ++ es) = subtreeAt (subtreeAt t ds) es := by
  induction ds with
  | nil => intro t; rfl
  | cons d ds ih => intro t; simp [subtreeAt, ih]

theorem branch_cases (d : Nat) (c : Nat) (o : Int) (l r : Tree)
    (h : branch d (Tree.node c o l r) ≠ Tree.null) :
    (d = 48 ∧ branch d (Tree.node c o l r) = l) ∨ (d = 49 ∧ branch d (Tree.node c o l r) = r) := by
  by_cases h48 : d = 48
  · left; simp [branch, h48]
  · by_cases h49 : d = 49
    · right; simp [branch, h49]
    · simp [branch, h48, h49] at h

theorem branch_mem_kids (d : Nat) (p : Tree) (h : branch d p ≠ Tree.null) :
    branch d p ∈ kids p := by
  cases p with
  | null => simp [branch] at h
  | node c o l r =>
    rcases branch_cases d c o l r h with ⟨_, hb⟩ | ⟨_, hb⟩
    · rw [hb] at h ⊢; simp [kids, List.filter_cons, h]
    · rw [hb] at h ⊢
      simp only [kids, List.mem_filter, List.mem_cons, List.mem_singleton, or_true, true_and]
      simpa using h

theorem kids_subset_subtrees (p u : Tree) (hu : u ∈ kids p) : u ∈ subtrees p := by
  cases p with
  | null => simp [kids] at hu
  | node c o l r =>
    simp only [kids, List.mem_filter, List.mem_cons, List.mem_singleton, List.not_mem_nil,
      or_false, decide_eq_true_eq] at hu
    obtain ⟨hlr, hne⟩ := hu
    have hself : ∀ t : Tree, t ≠ Tree.null → t ∈ subtrees t := by
      intro t ht
      cases t with
      | null => exact absurd rfl ht
      | node _ _ _ _ => simp [subtrees]
    simp only [subtrees, List.mem_cons, List.mem_append]
    rcases hlr with h | h
    · right; left; rw [h] at hne ⊢; exact hself l hne
    · right; right; rw [h] at hne ⊢; exact hself r hne

theorem subtrees_trans (t s u : Tree) (hs : s ∈ subtrees t) (hu : u ∈ subtrees s) :
    u ∈ subtrees t := by
  induction t with
  | null => simp [subtrees] at hs
  | node c o l r ihl ihr =>
    simp only [subtrees, List.mem_cons, List.mem_append] at hs
    rcases hs with h | h | h
    · rw [h] at hu; exact hu
    · have := ihl h
      simp only [subtrees, List.mem_cons, List.mem_append]; tauto
    · have := ihr h
      simp only [subtrees, List.mem_cons, List.mem_append]; tauto

theorem subtreeAt_mem (ds : List Nat) :
    ∀ t : Tree, subtreeAt t ds ≠ Tree.null → subtreeAt t ds ∈ subtrees t := by
  induction ds with
  | nil =>
    intro t ht
    cases t with
    | null => exact absurd rfl ht
    | node _ _ _ _ => simp [subtreeAt, subtrees]
  | cons d ds ih =>
    intro t ht
    simp only [subtreeAt] at ht ⊢
    have hb : branch d t ≠ Tree.null := by
      intro h0; rw [h0, subtreeAt_null] at ht; exact ht rfl
    exact subtrees_trans t _ _ (kids_subset_subtrees t _ (branch_mem_kids d t hb)) (ih _ ht)

theorem weight_le_root (t : Tree) (hs : shaped t) (hw : weighted t) :
    ∀ s ∈ subtrees t, weight s ≤ weight t := by
  induction t with
  | null => intro s h; simp [subtrees] at h
  | node c o l r ihl ihr =>
    intro s h
    simp only [subtrees, List.mem_cons, List.mem_append] at h
    rcases hs with ⟨hl0, hr0⟩ | ⟨_, hsl, hsr⟩
    · subst hl0; subst hr0
      simp only [subtrees, List.not_mem_nil, or_false] at h
      rw [h]
    · rcases hw.2 with ⟨hl0, _⟩ | ⟨ho, hwl, hwr⟩
      · subst hl0; exact absurd hsl (by simp [shaped])
      · have hl0 := weight_pos l hsl hwl
        have hr0 := weight_pos r hsr hwr
        rcases h with h | h | h
        · rw [h]
        · have := ihl hsl hwl s h
          simp only [weight] at *; omega
        · have := ihr hsr hwr s h
          simp only [weight] at *; omega

theorem leaves_subtreeAt (ds : List Nat) :
    ∀ t : Tree, subtreeAt t ds ≠ Tree.null → (leaves (subtreeAt t ds)).Sublist (leaves t) := by
  induction ds with
  | nil => intro t _; exact List.Sublist.refl _
  | cons d ds ih =>
    intro t ht
    simp only [subtreeAt] at ht ⊢
    have hb : branch d t ≠ Tree.null := by
      intro h0; rw [h0, subtreeAt_null] at ht; exact ht rfl
    cases t with
    | null => simp [branch] at hb
    | node c o l r =>
      rcases branch_cases d c o l r hb with ⟨_, hbe⟩ | ⟨_, hbe⟩
      · rw [hbe] at hb ht ⊢
        rw [leaves_node _ _ _ _ (fun h => hb h.1)]
        exact (ih l ht).trans (List.sublist_append_left _ _)
      · rw [hbe] at hb ht ⊢
        rw [leaves_node _ _ _ _ (fun h => hb h.2)]
        exact (ih r ht).trans (List.sublist_append_right _ _)

theorem subtreeAt_unique (t : Tree) (hs : shaped t)
    (hnd : ((leaves t).map Prod.fst).Nodup) :
    ∀ ds es : List Nat, subtreeAt t ds ≠ Tree.null → subtreeAt t ds = subtreeAt t es →
      ds = es := by
  induction t with
  | null => intro ds es h; rw [subtreeAt_null] at h; exact absurd rfl h
  | node c o l r ihl ihr =>
    -- a subtree strictly below the root has fewer leaves than the whole tree
    have hsmall : ∀ d ds, subtreeAt (Tree.node c o l r) (d :: ds) ≠ Tree.null →
        subtreeAt (Tree.node c o l r) (d :: ds) ≠ Tree.node c o l r := by
      intro d ds hne heq
      simp only [subtreeAt] at hne heq
      have hb : branch d (Tree.node c o l r) ≠ Tree.null := by
        intro h0; rw [h0, subtreeAt_null] at hne; exact hne rfl
      have hsub := (leaves_subtreeAt ds _ hne).length_le
      rw [heq] at hsub
      rcases hs with ⟨hl0, hr0⟩ | ⟨_, hsl, hsr⟩
      · subst hl0; subst hr0
        rcases branch_cases d c o _ _ hb with ⟨_, hbe⟩ | ⟨_, hbe⟩ <;> exact hb hbe
      · have hl := leaves_length_pos l hsl
        have hr := leaves_length_pos r hsr
        rw [leaves_node _ _ _ _ (fun h => shaped_ne_null l hsl h.1), List.length_append] at hsub
        rcases branch_cases d c o l r hb with ⟨_, hbe⟩ | ⟨_, hbe⟩ <;> rw [hbe] at hsub <;> omega
    intro ds es hne heq
    cases ds with
    | nil =>
      cases es with
      | nil => rfl
      | cons e es =>
        exfalso
        have hne2 : subtreeAt (Tree.node c o l r) (e :: es) ≠ Tree.null := by
          rw [← heq]; exact hne
        exact hsmall e es hne2 heq.symm
    | cons d ds =>
      cases es with
      | nil => exact absurd heq (hsmall d ds hne)
      | cons e es =>
        have hne2 : subtreeAt (Tree.node c o l r) (e :: es) ≠ Tree.null := by
          rw [← heq]; exact hne
        simp only [subtreeAt] at hne hne2 heq
        have hb1 : branch d (Tree.node c o l r) ≠ Tree.null := by
          intro h0; rw [h0, subtreeAt_null] at hne; exact hne rfl
        have hb2 : branch e (Tree.node c o l r) ≠ Tree.null := by
          intro h0; rw [h0, subtreeAt_null] at hne2; exact hne2 rfl
        rcases hs with ⟨hl0, hr0⟩ | ⟨_, hsl, hsr⟩
        · subst hl0; subst hr0
          rcases branch_cases d c o _ _ hb1 with ⟨_, hbe⟩ | ⟨_, hbe⟩ <;> exact absurd hbe hb1
        · have hlv : leaves (Tree.node c o l r) = leaves l ++ leaves r :=
            leaves_node _ _ _ _ (fun h => shaped_ne_null l hsl h.1)
          rw [hlv, List.map_append] at hnd
          have hndl := (List.nodup_append.mp hnd).1
          have hndr := (List.nodup_append.mp hnd).2.1
          have hdis := (List.nodup_append.mp hnd).2.2
          -- a subtree cannot sit both in the left and in the right child
          have hcross : ∀ ds es : List Nat, subtreeAt l ds ≠ Tree.null →
              subtreeAt l ds = subtreeAt r es → False := by
            intro ds es hn he
            have hsh := subtrees_shaped l hsl _ (subtreeAt_mem ds l hn)
            have hpos := leaves_length_pos _ hsh
            obtain ⟨x, hx⟩ := List.exists_mem_of_length_pos hpos
            have hxl := (leaves_subtreeAt ds l hn).subset hx
            have hxr : x ∈ leaves r := by
              rw [he] at hx hn
              exact (leaves_subtreeAt es r hn).subset hx
            exact hdis (List.mem_map_of_mem Prod.fst hxl) (List.mem_map_of_mem Prod.fst hxr)
          rcases branch_cases d c o l r hb1 with ⟨hd, hbd⟩ | ⟨hd, hbd⟩ <;>
            rcases branch_cases e c o l r hb2 with ⟨he, hbe⟩ | ⟨he, hbe⟩
          · rw [hbd] at hne heq; rw [hbe] at heq
            rw [hd, he, ihl hsl hndl ds es hne heq]
          · rw [hbd] at hne heq; rw [hbe] at heq
            exact absurd heq (fun h => hcross ds es hne h)
          · rw [hbd] at heq; rw [hbe] at hne2 heq
            exact absurd heq.symm (fun h => hcross es ds hne2 h)
          · rw [hbd] at hne heq; rw [hbe] at heq
            rw [hd, he, ihr hsr hndr ds es hne heq]

theorem subtreeAt_concat (t : Tree) (ds : List Nat) (d : Nat) :
    subtreeAt t (ds ++ [d]) = branch d (subtreeAt t ds) := by
  rw [subtreeAt_append]; rfl

theorem depth_mono (T : Tree) (hs : shaped T) (hw : weighted T)
    (hnd : ((leaves T).map Prod.fst).Nodup)
    (hc : ∀ p ∈ subtrees T, ∀ q ∈ subtrees T, childLt p q → weight p < weight q ∨ p = q) :
    ∀ (n : Nat) (du dv : List Nat), dv.length = n →
      subtreeAt T du ≠ Tree.null → subtreeAt T dv ≠ Tree.null →
      weight (subtreeAt T du) < weight (subtreeAt T dv) → dv.length ≤ du.length := by
  intro n
  induction n with
  | zero => intro du dv hn _ _ _; omega
  | succ n ih =>
    intro du dv hn hu hv hlt
    rcases List.eq_nil_or_concat dv with h | ⟨dv0, d, h⟩
    · rw [h] at hn; simp at hn
    · rw [List.concat_eq_append] at h
      subst h
      rw [subtreeAt_concat] at hv hlt
      have hpv : subtreeAt T dv0 ≠ Tree.null := by
        intro h0; rw [h0] at hv; simp [branch] at hv
      rcases List.eq_nil_or_concat du with h | ⟨du0, e, h⟩
      · subst h
        exfalso
        have h1 := weight_le_root T hs hw _
          (subtrees_trans T _ _ (subtreeAt_mem dv0 T hpv)
            (kids_subset_subtrees _ _ (branch_mem_kids d _ hv)))
        simp only [subtreeAt] at hlt
        omega
      · rw [List.concat_eq_append] at h
        subst h
        rw [subtreeAt_concat] at hu hlt
        have hpu : subtreeAt T du0 ≠ Tree.null := by
          intro h0; rw [h0] at hu; simp [branch] at hu
        have hlen : dv0.length = n := by simpa using hn
        have hcl : childLt (subtreeAt T du0) (subtreeAt T dv0) :=
          ⟨_, branch_mem_kids e _ hu, _, branch_mem_kids d _ hv, hlt⟩
        rcases hc _ (subtreeAt_mem du0 T hpu) _ (subtreeAt_mem dv0 T hpv) hcl with h | h
        · have := ih du0 dv0 hlen hpu hpv h
          simp; omega
        · have := subtreeAt_unique T hs hnd du0 dv0 hpu h
          simp [this]

theorem findCode_subtreeAt (c : Nat) (hc : c ≠ 0) (t : Tree) (hs : shaped t) :
    ∀ p, findCode c t = some p →
      ∃ o, subtreeAt t p = Tree.node c o Tree.null Tree.null ∧ (c, o) ∈ leaves t := by
  induction t with
  | null => intro p hp; simp [findCode] at hp
  | node tc o l r ihl ihr =>
    intro p hp
    rcases hs with ⟨hl0, hr0⟩ | ⟨h0, hsl, hsr⟩
    · subst hl0; subst hr0
      by_cases htc : tc = c
      · simp only [findCode, if_pos htc, Option.some.injEq] at hp
        subst hp; subst htc
        exact ⟨o, rfl, by simp [leaves]⟩
      · simp [findCode, htc] at hp
    · have hne : ¬ tc = c := by rw [h0]; exact fun h => hc h.symm
      have hlv : leaves (Tree.node tc o l r) = leaves l ++ leaves r :=
        leaves_node _ _ _ _ (fun h => shaped_ne_null l hsl h.1)
      simp only [findCode, if_neg hne] at hp
      cases hl : findCode c l with
      | some pl =>
        simp only [hl, Option.some.injEq] at hp
        subst hp
        obtain ⟨o1, h1, h2⟩ := ihl hsl pl hl
        exact ⟨o1, by simpa [subtreeAt, branch] using h1, by rw [hlv]; simp [h2]⟩
      | none =>
        cases hr : findCode c r with
        | some pr =>
          simp only [hl, hr, Option.some.injEq] at hp
          subst hp
          obtain ⟨o1, h1, h2⟩ := ihr hsr pr hr
          exact ⟨o1, by simpa [subtreeAt, branch] using h1, by rw [hlv]; simp [h2]⟩
        | none => simp [hl, hr] at hp

theorem positiveIndices_nodup (hashTable : Nat → Int) : (positiveIndices hashTable).Nodup :=
  (List.nodup_range NUMCHARS).filter _

theorem leaves_weight (hashTable : Nat → Int) (t : Tree)
    (hlv : (leaves t).Perm ((positiveIndices hashTable).map (fun i => (i, hashTable i))))
    (c : Nat) (o : Int) (h : (c, o) ∈ leaves t) : o = hashTable c := by
  have := hlv.subset h
  simp only [List.mem_map, Prod.mk.injEq] at this
  obtain ⟨i, _, hi, ho⟩ := this
  rw [← ho, hi]

theorem leaves_nodup (hashTable : Nat → Int) (t : Tree)
    (hlv : (leaves t).Perm ((positiveIndices hashTable).map (fun i => (i, hashTable i)))) :
    ((leaves t).map Prod.fst).Nodup := by
  have h := hlv.map Prod.fst
  rw [h.nodup_iff]
  simpa [Function.comp_def] using positiveIndices_nodup hashTable

theorem buildTree_props (hashTable : Nat → Int) (h : ∃ i, i < NUMCHARS ∧ hashTable i > 0)
    (t : Tree) (hb : buildTree hashTable = some (.ok t)) :
    shaped t ∧ (leaves t).Perm ((positiveIndices hashTable).map (fun i => (i, hashTable i))) ∧
      (∀ c p, findCode c t = some p → huffmanCode c t = .ok p) := by
  obtain ⟨t1, hb1, hsh, _, hlv⟩ := buildTree_facts hashTable (positiveCount_pos hashTable h)
  obtain ⟨t2, hb2, _, _, hcode, _⟩ := buildTree_code hashTable h
  have e1 : t1 = t := by
    rw [hb] at hb1; injection hb1 with hb1; injection hb1 with hb1; exact hb1.symm
  have e2 : t2 = t := by
    rw [hb] at hb2; injection hb2 with hb2; injection hb2 with hb2; exact hb2.symm
  subst e1; subst e2
  exact ⟨hsh, hlv, hcode⟩

set_option maxRecDepth 8000 in
/-- C10 (as stated, refuted), twice.  With the table `0:1, a:2` both 0 and 97
are leaves and 97 has the higher count, but its code has length 1 while the
code derived for 0 is empty (length 0).  With the table `tableWrap`, whose
counts add up to more than `INT_MAX`, 97 has a higher count than 100, but the
code of 97 has length 3 and the code of 100 length 2. -/
theorem code_length_monotone_counterexample :
    ((∃ i, i < NUMCHARS ∧ tableOf [(0, 1), (97, 2)] i > 0) ∧
      buildTree (tableOf [(0, 1), (97, 2)]) = some (.ok treeZeroA2) ∧
      leaves treeZeroA2 = [(0, 1), (97, 2)] ∧
      tableOf [(0, 1), (97, 2)] 97 > tableOf [(0, 1), (97, 2)] 0 ∧
      huffmanCode 97 treeZeroA2 = .ok [49] ∧
      huffmanCode 0 treeZeroA2 = .ok [] ∧
      ¬ ([49] : List Nat).length ≤ ([] : List Nat).length) ∧
    ((∃ i, i < NUMCHARS ∧ tableWrap i > 0) ∧
      (∀ i, i < NUMCHARS → 0 ≤ tableWrap i ∧ tableWrap i ≤ INT_MAX) ∧
      positiveSum tableWrap = 4294967299 ∧
      buildTree tableWrap = some (.ok treeWrap) ∧
      leaves treeWrap = [(97, 1073741824), (98, 1073741824), (99, 1073741825),
        (100, 536870913), (101, 536870913)] ∧
      tableWrap 97 > tableWrap 100 ∧
      huffmanCode 97 treeWrap = .ok [48, 48, 48] ∧
      huffmanCode 100 treeWrap = .ok [49, 48] ∧
      ¬ ([48, 48, 48] : List Nat).length ≤ ([49, 48] : List Nat).length) :=
  ⟨⟨⟨97, by decide, by decide⟩, by decide, by decide, by decide,
      huffmanCode_some 97 treeZeroA2 [49] (by decide) (by decide),
      huffmanCode_some 0 treeZeroA2 [] (by decide) (by decide), by decide⟩,
    ⟨⟨97, by decide, by decide⟩, by decide, by decide, by decide, by decide, by decide,
      huffmanCode_some 97 treeWrap [48, 48, 48] (by decide) (by decide),
      huffmanCode_some 100 treeWrap [49, 48] (by decide) (by decide), by decide⟩⟩

/-- C10 (amended): for every table whose positive counts add up to at most
`INT_MAX` and every two non-zero byte values `a`, `b` that are leaves of the
built tree, if `a` has the strictly higher count then the code derived for `a`
is at most as long as the code derived for `b`. -/
theorem code_length_monotone (hashTable : Nat → Int)
    (h : ∃ i, i < NUMCHARS ∧ hashTable i > 0) (hsum : positiveSum hashTable ≤ INT_MAX) :
    ∃ t, buildTree hashTable = some (.ok t) ∧
      ∀ a b, a ≠ 0 → b ≠ 0 →
        a ∈ (leaves t).map Prod.fst → b ∈ (leaves t).map Prod.fst →
        hashTable a > hashTable b →
        ∃ ca cb, huffmanCode a t = .ok ca ∧ huffmanCode b t = .ok cb ∧
          ca.length ≤ cb.length := by
  obtain ⟨t, hb, _, _, hF⟩ := buildTree_inv hashTable (positiveCount_pos hashTable h) hsum
  obtain ⟨hsh, hlv, hcode⟩ := buildTree_props hashTable h t hb
  refine ⟨t, hb, ?_⟩
  intro a b ha hb0 hla hlb hgt
  have hia : (findCode a t).isSome = true := by
    rw [findCode_isSome, charInTree_iff a ha t hsh]; exact hla
  have hib : (findCode b t).isSome = true := by
    rw [findCode_isSome, charInTree_iff b hb0 t hsh]; exact hlb
  obtain ⟨pa, hpa⟩ := Option.isSome_iff_exists.mp hia
  obtain ⟨pb, hpb⟩ := Option.isSome_iff_exists.mp hib
  obtain ⟨oa, hsa, hma⟩ := findCode_subtreeAt a ha t hsh pa hpa
  obtain ⟨ob, hsb, hmb⟩ := findCode_subtreeAt b hb0 t hsh pb hpb
  have hoa := leaves_weight hashTable t hlv a oa hma
  have hob := leaves_weight hashTable t hlv b ob hmb
  refine ⟨pa, pb, hcode a pa hpa, hcode b pb hpb, ?_⟩
  have hw : weighted t := (hF.1 t (by simp)).2
  have hc : ∀ p ∈ subtrees t, ∀ q ∈ subtrees t, childLt p q → weight p < weight q ∨ p = q := by
    intro p hp q hq
    exact hF.2.2 p (by simpa [forestNodes] using hp) q (by simpa [forestNodes] using hq)
  apply depth_mono t hsh hw (leaves_nodup hashTable t hlv) hc pa.length pb pa rfl
  · rw [hsb]; simp
  · rw [hsa]; simp
  · rw [hsa, hsb]
    simp only [weight]
    rw [hoa, hob]; exact hgt

/-- Witness for `code_length_monotone`: the table `a:3, b:1, c:2` and the byte
values 97 and 98. -/
theorem code_length_monotone_witness :
    ((∃ i, i < NUMCHARS ∧ tableABC i > 0) ∧ positiveSum tableABC ≤ INT_MAX) ∧
    ∃ ca cb, huffmanCode 97 treeABC = .ok ca ∧ huffmanCode 98 treeABC = .ok cb ∧
      ca.length ≤ cb.length := by
  refine ⟨⟨⟨97, by decide, by decide⟩, by decide⟩, ?_⟩
  obtain ⟨t, hb, hall⟩ := code_length_monotone tableABC ⟨97, by decide, by decide⟩ (by decide)
  have ht : t = treeABC := by
    rw [buildTree_tableABC] at hb
    injection hb with hb
    injection hb with hb
    exact hb.symm
  subst ht
  exact hall 97 98 (by decide) (by decide) (by decide) (by decide) (by decide)

/-! ## The priority queue keyed by (weight, insertion sequence number) -/

set_option maxRecDepth 8000 in
/-- C2 (as stated, refuted): for the table `a:1, b:1, c:1` the linked-list build
merges `a` with `c` first and ends with `b` as the left child of the root,
while the build over the priority queue keyed by (weight, sequence number)
merges `a` with `b` first and ends with `c` as the left child of the root. -/
theorem refinement_tie_counterexample :
    (∃ i, i < NUMCHARS ∧ tableTie i > 0) ∧
    buildTree tableTie =
      some (.ok (Tree.node 0 3 (mkLeaf 98 1) (Tree.node 0 2 (mkLeaf 97 1) (mkLeaf 99 1)))) ∧
    pqBuildTree tableTie =
      some (Tree.node 0 3 (mkLeaf 99 1) (Tree.node 0 2 (mkLeaf 97 1) (mkLeaf 98 1))) ∧
    Tree.node 0 3 (mkLeaf 98 1) (Tree.node 0 2 (mkLeaf 97 1) (mkLeaf 99 1)) ≠
      Tree.node 0 3 (mkLeaf 99 1) (Tree.node 0 2 (mkLeaf 97 1) (mkLeaf 98 1)) :=
  ⟨⟨97, by decide, by decide⟩, by decide, by decide, by decide⟩

theorem keyLe_refl (a : PQEntry) : keyLe a a := by
  unfold keyLe; omega

theorem keyLe_trans (a b c : PQEntry) (h1 : keyLe a b) (h2 : keyLe b c) : keyLe a c := by
  unfold keyLe at *; omega

theorem keyLe_total (a b : PQEntry) (h : ¬ keyLe a b) : keyLe b a := by
  unfold keyLe at *; omega

theorem keyLt_not_le (a b : PQEntry) (h : keyLt a b) : ¬ keyLe b a := by
  unfold keyLe keyLt at *; omega

theorem pqExtractMin_isSome (e : PQEntry) (es : List PQEntry) :
    ∃ m rest, pqExtractMin (e :: es) = some (m, rest) := by
  cases h : pqExtractMin es with
  | none => exact ⟨e, [], by simp [pqExtractMin, h]⟩
  | some mr =>
    obtain ⟨m, rest⟩ := mr
    by_cases hle : keyLe e m
    · exact ⟨e, es, by simp [pqExtractMin, h, hle]⟩
    · exact ⟨m, e :: rest, by simp [pqExtractMin, h, hle]⟩

theorem pqExtractMin_min (entries : List PQEntry) :
    ∀ m rest, pqExtractMin entries = some (m, rest) →
      (m :: rest).Perm entries ∧ ∀ x ∈ entries, keyLe m x := by
  induction entries with
  | nil => intro m rest h; simp [pqExtractMin] at h
  | cons e es ih =>
    intro m rest h
    cases hes : pqExtractMin es with
    | none =>
      have hnil : es = [] := by
        cases es with
        | nil => rfl
        | cons a as =>
          obtain ⟨m1, r1, h1⟩ := pqExtractMin_isSome a as
          rw [h1] at hes; exact absurd hes (by simp)
      subst hnil
      simp only [pqExtractMin, Option.some.injEq, Prod.mk.injEq] at h
      obtain ⟨h1, h2⟩ := h
      subst h1; subst h2
      exact ⟨List.Perm.refl _, by simp [keyLe_refl]⟩
    | some mr =>
      obtain ⟨m0, rest0⟩ := mr
      obtain ⟨hperm, hmin⟩ := ih m0 rest0 hes
      by_cases hle : keyLe e m0
      · simp only [pqExtractMin, hes, if_pos hle, Option.some.injEq, Prod.mk.injEq] at h
        obtain ⟨h1, h2⟩ := h
        subst h1; subst h2
        refine ⟨List.Perm.refl _, ?_⟩
        intro x hx
        rcases List.mem_cons.mp hx with h | h
        · rw [h]; exact keyLe_refl _
        · exact keyLe_trans _ _ _ hle (hmin x h)
      · simp only [pqExtractMin, hes, if_neg hle, Option.some.injEq, Prod.mk.injEq] at h
        obtain ⟨h1, h2⟩ := h
        subst h1; subst h2
        refine ⟨(List.Perm.swap e m0 rest0).trans (List.Perm.cons e hperm), ?_⟩
        intro x hx
        rcases List.mem_cons.mp hx with h | h
        · rw [h]; exact keyLe_total _ _ hle
        · exact hmin x h

theorem Simulates_sorted (l : List Tree) (pq : PQ) (h : Simulates l pq) :
    l.Pairwise (fun a b => weight a ≤ weight b) := by
  obtain ⟨es, _, hs, hmap, _⟩ := h
  rw [← hmap, List.pairwise_map]
  refine hs.imp ?_
  intro a b hab
  unfold keyLt at hab; omega

theorem Simulates_extract (x : Tree) (l : List Tree) (pq : PQ) (h : Simulates (x :: l) pq) :
    ∃ e rest, pqExtractMin pq.entries = some (e, rest) ∧ e.tree = x ∧
      Simulates l (PQ.mk rest pq.next) := by
  obtain ⟨es, hperm, hs, hmap, hseq⟩ := h
  cases es with
  | nil => simp at hmap
  | cons e tl =>
    simp only [List.map_cons, List.cons.injEq] at hmap
    obtain ⟨hex, htl⟩ := hmap
    have hne : pq.entries ≠ [] := by
      intro h0; rw [h0] at hperm; simp at hperm
    obtain ⟨a, as, hent⟩ := List.exists_cons_of_ne_nil hne
    obtain ⟨m, rest, hmr⟩ := pqExtractMin_isSome a as
    rw [← hent] at hmr
    obtain ⟨hp, hmin⟩ := pqExtractMin_min pq.entries m rest hmr
    have hm : m ∈ e :: tl := hperm.mem_iff.mpr (hp.subset (by simp))
    have hme : m = e := by
      rcases List.mem_cons.mp hm with h | h
      · exact h
      · exfalso
        have h1 := (List.pairwise_cons.mp hs).1 m h
        exact keyLt_not_le e m h1 (hmin e (hperm.subset (by simp)))
    subst hme
    refine ⟨m, rest, hmr, hex, tl, ?_, (List.pairwise_cons.mp hs).2, htl, ?_⟩
    · exact (List.Perm.cons_inv (hperm.trans hp.symm))
    · exact fun e he => hseq e (by simp [he])

theorem takeWhile_agree {α : Type} (p q : α → Bool) (l : List α)
    (h : ∀ x ∈ l, p x = q x) : l.takeWhile p = l.takeWhile q := by
  induction l with
  | nil => rfl
  | cons a as ih =>
    have ha := h a (by simp)
    have := ih (fun x hx => h x (by simp [hx]))
    simp [List.takeWhile_cons, ha, this]

theorem dropWhile_agree {α : Type} (p q : α → Bool) (l : List α)
    (h : ∀ x ∈ l, p x = q x) : l.dropWhile p = l.dropWhile q := by
  induction l with
  | nil => rfl
  | cons a as ih =>
    have ha := h a (by simp)
    have := ih (fun x hx => h x (by simp [hx]))
    simp [List.dropWhile_cons, ha, this]

/-- Without a tie behind the first entry `queueAdd` inserts where the
specification says. -/
theorem queueInsert_eq_insertAfterLe (node : Tree) (l : List Tree)
    (hs : l.Pairwise (fun a b => weight a ≤ weight b)) (ht : tieFreeInsert node l = true) :
    queueInsert node l = insertAfterLe node l := by
  cases l with
  | nil => rfl
  | cons f rest =>
    have htie : ∀ t ∈ rest, weight t ≠ weight node := by
      simpa [tieFreeInsert] using ht
    by_cases hgt : weight f > weight node
    · have hnle : ¬ weight f ≤ weight node := not_le.mpr hgt
      simp [queueInsert, insertAfterLe, hgt, hnle, List.takeWhile_cons, List.dropWhile_cons]
    · have hle : weight f ≤ weight node := not_lt.mp hgt
      have hagree : ∀ t ∈ rest, decide (weight t < weight node) = decide (weight t ≤ weight node) := by
        intro t ht1
        have := htie t ht1
        simp only [decide_eq_decide]
        omega
      simp only [queueInsert, if_neg hgt, insertAfterLe, List.takeWhile_cons, List.dropWhile_cons,
        hle, decide_True, if_true, List.cons_append]
      rw [takeWhile_agree _ _ rest hagree, dropWhile_agree _ _ rest hagree]

theorem entries_dropWhile_gt (w : Int) (es : List PQEntry) (hs : es.Pairwise keyLt) :
    ∀ x ∈ es.dropWhile (fun e => decide (weight e.tree ≤ w)), w < weight x.tree := by
  induction es with
  | nil => simp
  | cons a as ih =>
    have hs1 := List.pairwise_cons.mp hs
    by_cases ha : weight a.tree ≤ w
    · simpa [List.dropWhile_cons, ha] using ih hs1.2
    · intro x hx
      simp only [List.dropWhile_cons, ha, decide_False] at hx
      rcases List.mem_cons.mp hx with h | h
      · rw [h]; omega
      · have := hs1.1 x h
        unfold keyLt at this; omega

theorem Simulates_insert (node : Tree) (l : List Tree) (pq : PQ) (h : Simulates l pq)
    (ht : tieFreeInsert node l = true) :
    Simulates (queueInsert node l) (pqInsert pq node) := by
  have hsorted := Simulates_sorted l pq h
  obtain ⟨es, hperm, hs, hmap, hseq⟩ := h
  rw [queueInsert_eq_insertAfterLe node l hsorted ht]
  refine ⟨es.takeWhile (fun e => decide (weight e.tree ≤ weight node)) ++
    PQEntry.mk pq.next node :: es.dropWhile (fun e => decide (weight e.tree ≤ weight node)),
    ?_, ?_, ?_, ?_⟩
  · refine List.perm_middle.trans (List.Perm.cons _ ?_)
    rw [List.takeWhile_append_dropWhile]; exact hperm
  · refine List.pairwise_append.mpr ⟨hs.sublist (List.takeWhile_sublist _), ?_, ?_⟩
    · refine List.pairwise_cons.mpr ⟨?_, hs.sublist (List.dropWhile_sublist _)⟩
      intro x hx
      have := entries_dropWhile_gt (weight node) es hs x hx
      exact Or.inl this
    · intro a ha b hb
      have ha1 : weight a.tree ≤ weight node := by simpa using List.mem_takeWhile_imp ha
      have ha2 := hseq a ((List.takeWhile_sublist _).subset ha)
      rcases List.mem_cons.mp hb with h | h
      · rw [h]; unfold keyLt; simp only; omega
      · have := entries_dropWhile_gt (weight node) es hs b h
        unfold keyLt; omega
  · rw [← hmap]
    simp only [insertAfterLe, List.map_append, List.map_cons, List.takeWhile_map,
      List.dropWhile_map]
    rfl
  · intro e he
    simp only [pqInsert]
    rcases List.mem_append.mp he with h | h
    · have := hseq e ((List.takeWhile_sublist _).subset h); omega
    · rcases List.mem_cons.mp h with h | h
      · rw [h]; simp
      · have := hseq e ((List.dropWhile_sublist _).subset h); omega

theorem Simulates_combine (x y : Tree) (rest : List Tree) (pq : PQ)
    (h : Simulates (x :: y :: rest) pq)
    (ht : tieFreeInsert (Tree.node 0 (wrapInt (weight x + weight y)) x y) rest = true) :
    ∃ pq1, pqCombine pq = some pq1 ∧ Simulates (mergeStep (x :: y :: rest)) pq1 := by
  obtain ⟨e1, es1, h1, hx, hsim1⟩ := Simulates_extract x (y :: rest) pq h
  obtain ⟨e2, es2, h2, hy, hsim2⟩ := Simulates_extract y rest _ hsim1
  simp only at h2 hsim2
  have hc : pqCombine pq = some (pqInsert (PQ.mk es2 pq.next)
      (Tree.node 0 (wrapInt (weight e1.tree + weight e2.tree)) e1.tree e2.tree)) := by
    simp only [pqCombine, h1, h2]
  refine ⟨_, hc, ?_⟩
  rw [hx, hy]
  exact Simulates_insert _ rest _ hsim2 ht

theorem Simulates_length (l : List Tree) (pq : PQ) (h : Simulates l pq) :
    pq.entries.length = l.length := by
  obtain ⟨es, hperm, _, hmap, _⟩ := h
  rw [← hperm.length_eq, ← hmap, List.length_map]

theorem Simulates_seed (hashTable : Nat → Int) (is : List Nat) :
    ∀ (l : List Tree) (pq : PQ), Simulates l pq → tieFreeSeed hashTable is l = true →
      Simulates (seedList hashTable is l) (pqSeed hashTable is pq) := by
  induction is with
  | nil => intro l pq h _; exact h
  | cons i is ih =>
    intro l pq h ht
    by_cases hpos : hashTable i > 0
    · simp only [tieFreeSeed, if_pos hpos, Bool.and_eq_true] at ht
      rw [seedList, if_pos hpos, pqSeed, if_pos hpos]
      exact ih _ _ (Simulates_insert _ l pq h ht.1) ht.2
    · simp only [tieFreeSeed, if_neg hpos] at ht
      rw [seedList, if_neg hpos, pqSeed, if_neg hpos]
      exact ih l pq h ht

theorem Simulates_loop (k : Nat) :
    ∀ (fuel : Nat) (l : List Tree) (pq : PQ), l.length = k + 1 → k ≤ fuel →
      Simulates l pq → tieFreeMerge k l = true →
      ∃ pq1, pqMergeLoop fuel pq = some pq1 ∧ Simulates (mergeSteps k l) pq1 := by
  induction k with
  | zero =>
    intro fuel l pq hl _ h _
    have hlen := Simulates_length l pq h
    refine ⟨pq, ?_, h⟩
    rw [pqMergeLoop.eq_def]
    simp [hlen, hl]
  | succ k ih =>
    intro fuel l pq hl hfuel h ht
    have hlen := Simulates_length l pq h
    match fuel, hfuel, l, hl, h, ht, hlen with
    | fuel1 + 1, hfuel, x :: y :: rest, hl, h, ht, hlen =>
      simp only [tieFreeMerge, Bool.and_eq_true] at ht
      obtain ⟨pq1, hc, hsim⟩ := Simulates_combine x y rest pq h ht.1
      have hstep := mergeStep_length (x :: y :: rest) (by simp)
      obtain ⟨pq2, hloop, hsim2⟩ := ih fuel1 (mergeStep (x :: y :: rest)) pq1 (by omega) (by omega)
        hsim ht.2
      refine ⟨pq2, ?_, by rw [mergeSteps]; exact hsim2⟩
      rw [pqMergeLoop]
      have hge : pq.entries.length ≥ 2 := by rw [hlen]; simp
      simp only [if_pos hge, hc, hloop]

theorem tieFreeMerge_succ (k : Nat) :
    ∀ l : List Tree, tieFreeMerge (k + 1) l = true → tieFreeMerge k l = true := by
  induction k with
  | zero => intro l _; rfl
  | succ k ih =>
    intro l h
    match l, h with
    | x :: y :: rest, h =>
      simp only [tieFreeMerge, Bool.and_eq_true] at h ⊢
      exact ⟨h.1, ih _ h.2⟩
    | [_], _ => rfl
    | [], _ => rfl

theorem tieFreeMerge_le (k j : Nat) (hkj : k ≤ j) (l : List Tree)
    (h : tieFreeMerge j l = true) : tieFreeMerge k l = true := by
  induction j with
  | zero =>
    have : k = 0 := by omega
    subst this; exact h
  | succ j ih =>
    rcases Nat.lt_or_ge k (j + 1) with hlt | hge
    · exact ih (by omega) (tieFreeMerge_succ j l h)
    · have : k = j + 1 := by omega
      subst this; exact h

theorem Simulates_steps (k : Nat) :
    ∀ (l : List Tree) (pq : PQ), k + 1 ≤ l.length → Simulates l pq →
      tieFreeMerge k l = true →
      ∃ pq1, pqCombineSteps k pq = some pq1 ∧ Simulates (mergeSteps k l) pq1 := by
  induction k with
  | zero => intro l pq _ h _; exact ⟨pq, rfl, h⟩
  | succ k ih =>
    intro l pq hl h ht
    match l, hl, h, ht with
    | x :: y :: rest, hl, h, ht =>
      simp only [tieFreeMerge, Bool.and_eq_true] at ht
      obtain ⟨pq1, hc, hsim⟩ := Simulates_combine x y rest pq h ht.1
      have hstep := mergeStep_length (x :: y :: rest) (by simp)
      obtain ⟨pq2, hsteps, hsim2⟩ := ih (mergeStep (x :: y :: rest)) pq1 (by omega) hsim ht.2
      exact ⟨pq2, by simp only [pqCombineSteps, hc, hsteps], by rw [mergeSteps]; exact hsim2⟩

/-- C2 (amended): when no `queueAdd` of the build meets, behind the first queue
entry, an entry of the same weight as the new one, the tree built over the
linked-list queue is the tree built over the priority queue keyed by (weight,
insertion sequence number); and after every number `k` of merges the queue
lists, in key order, exactly the trees the priority queue holds, so each
merge takes the same pair with the same left and right child. -/
theorem build_refines_priority_queue (hashTable : Nat → Int)
    (h : ∃ i, i < NUMCHARS ∧ hashTable i > 0) (ht : tieFree hashTable = true) :
    ∃ t, buildTree hashTable = some (.ok t) ∧ pqBuildTree hashTable = some t ∧
      ∀ k, k < positiveCount hashTable →
        ∃ pq, pqCombineSteps k (pqSeed hashTable (List.range NUMCHARS) (PQ.mk [] 0)) = some pq ∧
          Simulates (mergeSteps k (seedList hashTable (List.range NUMCHARS) [])) pq := by
  have hpos := positiveCount_pos hashTable h
  obtain ⟨t, hb, _, hm, _⟩ := buildTree_facts hashTable hpos
  simp only [tieFree, Bool.and_eq_true] at ht
  have hlen := seed_length hashTable
  have h0 : Simulates [] (PQ.mk [] 0) := ⟨[], List.Perm.refl _, List.Pairwise.nil, rfl, by simp⟩
  have hseed := Simulates_seed hashTable (List.range NUMCHARS) [] _ h0 ht.1
  obtain ⟨pq1, hloop, hsim⟩ := Simulates_loop (positiveCount hashTable - 1) NUMCHARS _ _
    (by omega) (by have := positiveCount_le hashTable; omega) hseed ht.2
  refine ⟨t, hb, ?_, ?_⟩
  · rw [hm] at hsim
    obtain ⟨es, hperm, _, hmap, _⟩ := hsim
    cases es with
    | nil => simp at hmap
    | cons e tl =>
      cases tl with
      | cons _ _ => simp at hmap
      | nil =>
        simp only [List.map_cons, List.map_nil, List.cons.injEq, and_true] at hmap
        have hent : pq1.entries = [e] := List.perm_singleton.mp hperm.symm
        cases pq1 with
        | mk entries next =>
          simp only at hent
          subst hent
          simp only [pqBuildTree, hloop, hmap]
  · intro k hk
    exact Simulates_steps k _ _ (by omega) hseed
      (tieFreeMerge_le k _ (by omega) _ ht.2)

set_option maxRecDepth 8000 in
/-- Witness for `build_refines_priority_queue`: the table `a:3, b:1, c:2`. -/
theorem build_refines_priority_queue_witness :
    ((∃ i, i < NUMCHARS ∧ tableABC i > 0) ∧ tieFree tableABC = true) ∧
    ∃ t, buildTree tableABC = some (.ok t) ∧ pqBuildTree tableABC = some t ∧
      ∀ k, k < positiveCount tableABC →
        ∃ pq, pqCombineSteps k (pqSeed tableABC (List.range NUMCHARS) (PQ.mk [] 0)) = some pq ∧
          Simulates (mergeSteps k (seedList tableABC (List.range NUMCHARS) [])) pq :=
  ⟨⟨⟨97, by decide, by decide⟩, by decide⟩,
    build_refines_priority_queue tableABC ⟨97, by decide, by decide⟩ (by decide)⟩

/-! ## The buffer of `makeHuffmanString` -/

theorem writeString_zero (buf p : List Nat) :
    writeString buf 0 (p ++ [0]) = p ++ 0 :: buf.drop (p.length + 1) := by
  simp [writeString]

theorem drop_written (buf p : List Nat) (k : Nat) (hk : p.length + 1 ≤ k) :
    (p ++ 0 :: buf.drop (p.length + 1)).drop k = buf.drop k := by
  obtain ⟨j, rfl⟩ : ∃ j, k = (p ++ [0]).length + j := ⟨k - (p.length + 1), by simp; omega⟩
  have h1 : p ++ 0 :: List.drop (p.length + 1) buf = (p ++ [0]) ++ List.drop (p.length + 1) buf := by
    simp
  rw [h1, List.drop_append, List.drop_drop]
  congr 1
  simp

theorem leaves_length_eq (hashTable : Nat → Int) (t : Tree)
    (hlv : (leaves t).Perm ((positiveIndices hashTable).map (fun i => (i, hashTable i)))) :
    (leaves t).length = positiveCount hashTable := by
  rw [hlv.length_eq]; simp [positiveCount]

/-- C11: for every built tree and every non-zero byte value `c` that is a leaf of
it there is exactly one path `p` from the root to the leaf of `c` (`'0'` = 48
for left, `'1'` = 49 for right); `makeHuffmanString(0, c, root, buf)` returns
true and leaves in `buf` the digits of `p` followed by the terminating NUL,
the rest of the buffer untouched; the derived code is `p`, so its length is
the depth of the leaf. -/
theorem makeHuffmanString_path (hashTable : Nat → Int)
    (h : ∃ i, i < NUMCHARS ∧ hashTable i > 0) :
    ∃ t, buildTree hashTable = some (.ok t) ∧
      ∀ c, c ≠ 0 → c ∈ (leaves t).map Prod.fst →
        ∃ p : List Nat, subtreeAt t p = mkLeaf c (hashTable c) ∧
          (∀ q, subtreeAt t q = mkLeaf c (hashTable c) → q = p) ∧
          (∀ d ∈ p, d = 48 ∨ d = 49) ∧
          (∀ buf : List Nat, buf.length = MAXSTR →
            makeHuffmanString 0 c t buf = .ok (true, p ++ 0 :: buf.drop (p.length + 1))) ∧
          huffmanCode c t = .ok p := by
  obtain ⟨t, hb, _⟩ := buildTree_facts hashTable (positiveCount_pos hashTable h)
  obtain ⟨hsh, hlv, hcode⟩ := buildTree_props hashTable h t hb
  refine ⟨t, hb, ?_⟩
  intro c hc hmem
  have hsome : (findCode c t).isSome = true := by
    rw [findCode_isSome, charInTree_iff c hc t hsh]; exact hmem
  obtain ⟨p, hp⟩ := Option.isSome_iff_exists.mp hsome
  obtain ⟨o, hsub, hleaf⟩ := findCode_subtreeAt c hc t hsh p hp
  have ho := leaves_weight hashTable t hlv c o hleaf
  subst ho
  have hlen : p.length < MAXSTR := by
    have h1 := findCode_length_lt c t hsh p hp
    have h2 := leaves_length_eq hashTable t hlv
    have h3 := positiveCount_le hashTable
    simp only [MAXSTR, NUMCHARS] at *
    omega
  refine ⟨p, hsub, ?_, findCode_digits c t p hp, ?_, hcode c p hp⟩
  · intro q hq
    have hne : subtreeAt t q ≠ Tree.null := by rw [hq]; simp [mkLeaf]
    exact subtreeAt_unique t hsh (leaves_nodup hashTable t hlv) q p hne (hq.trans hsub.symm)
  · intro buf hbuf
    rw [(makeHuffmanString_eq c t 0 buf).2 p hp (by omega), writeString_zero]

/-- Witness for `makeHuffmanString_path`: the table `a:3, b:1, c:2` and the byte
value 98. -/
theorem makeHuffmanString_path_witness :
    (∃ i, i < NUMCHARS ∧ tableABC i > 0) ∧
    ∃ p : List Nat, subtreeAt treeABC p = mkLeaf 98 (tableABC 98) ∧
      (∀ q, subtreeAt treeABC q = mkLeaf 98 (tableABC 98) → q = p) ∧
      (∀ d ∈ p, d = 48 ∨ d = 49) ∧
      (∀ buf : List Nat, buf.length = MAXSTR →
        makeHuffmanString 0 98 treeABC buf =
          .ok (true, p ++ 0 :: buf.drop (p.length + 1))) ∧
      huffmanCode 98 treeABC = .ok p := by
  refine ⟨⟨97, by decide, by decide⟩, ?_⟩
  obtain ⟨t, hb, hall⟩ := makeHuffmanString_path tableABC ⟨97, by decide, by decide⟩
  have ht : t = treeABC := by
    rw [buildTree_tableABC] at hb
    injection hb with hb
    injection hb with hb
    exact hb.symm
  subst ht
  exact hall 98 (by decide) (by decide)

/-- C20: with `n >= 1` positive counts every code derived from the built tree has
length at most `n - 1 <= 255`; `makeHuffmanString` on a buffer of `MAXSTR`
bytes ends without a write outside the buffer and changes no byte from
position `n` on. -/
theorem code_length_bound (hashTable : Nat → Int) (hpos : 1 ≤ positiveCount hashTable) :
    positiveCount hashTable - 1 ≤ 255 ∧ positiveCount hashTable ≤ MAXSTR ∧
    ∃ t, buildTree hashTable = some (.ok t) ∧
      ∀ c : Nat,
        (∃ code, huffmanCode c t = .ok code ∧ code.length ≤ positiveCount hashTable - 1) ∧
        ∀ buf : List Nat, buf.length = MAXSTR →
          ∃ found s, makeHuffmanString 0 c t buf = .ok (found, s) ∧
            s.length = buf.length ∧
            s.drop (positiveCount hashTable) = buf.drop (positiveCount hashTable) := by
  have hle := positiveCount_le hashTable
  refine ⟨by simp only [NUMCHARS] at hle; omega, by simp only [NUMCHARS, MAXSTR] at *; omega, ?_⟩
  obtain ⟨t, hb, hsh, _, hlv⟩ := buildTree_facts hashTable hpos
  have hn := leaves_length_eq hashTable t hlv
  refine ⟨t, hb, ?_⟩
  intro c
  cases hp : findCode c t with
  | none =>
    refine ⟨⟨[], huffmanCode_none c t hp, by simp⟩, ?_⟩
    intro buf _
    exact ⟨false, buf, (makeHuffmanString_eq c t 0 buf).1 hp, rfl, rfl⟩
  | some p =>
    have h1 := findCode_length_lt c t hsh p hp
    have hlen : p.length < MAXSTR := by simp only [MAXSTR, NUMCHARS] at *; omega
    refine ⟨⟨p, huffmanCode_some c t p hp hlen, by omega⟩, ?_⟩
    intro buf hbuf
    refine ⟨true, _, (makeHuffmanString_eq c t 0 buf).2 p hp (by omega), ?_, ?_⟩
    · rw [writeString_length]; simp; omega
    · rw [writeString_zero]
      exact drop_written buf p _ (by omega)

set_option maxRecDepth 8000 in
/-- Witness for `code_length_bound`: the table `a:3, b:1, c:2`. -/
theorem code_length_bound_witness :
    1 ≤ positiveCount tableABC ∧
    (positiveCount tableABC - 1 ≤ 255 ∧ positiveCount tableABC ≤ MAXSTR ∧
    ∃ t, buildTree tableABC = some (.ok t) ∧
      ∀ c : Nat,
        (∃ code, huffmanCode c t = .ok code ∧ code.length ≤ positiveCount tableABC - 1) ∧
        ∀ buf : List Nat, buf.length = MAXSTR →
          ∃ found s, makeHuffmanString 0 c t buf = .ok (found, s) ∧
            s.length = buf.length ∧
            s.drop (positiveCount tableABC) = buf.drop (positiveCount tableABC)) :=
  ⟨by decide, code_length_bound tableABC (by decide)⟩

/-! ## Weights of the forest -/

theorem combineSteps_list (k : Nat) :
    ∀ l : List Tree, k ≤ l.length - 1 → (∀ t ∈ l, t ≠ Tree.null) →
      combineSteps k (Queue.mk l.length l) =
        .ok (Queue.mk (mergeSteps k l).length (mergeSteps k l)) := by
  induction k with
  | zero => intro l _ _; rfl
  | succ k ih =>
    intro l hl hnn
    match l, hl, hnn with
    | x :: y :: rest, hl, hnn =>
      have hstep := mergeStep_length (x :: y :: rest) (by simp)
      rw [combineSteps, combineTrees_list x y rest hnn]
      simp only [mergeSteps]
      refine ih _ ?_ (mergeStep_nonnull _ hnn)
      simp only [List.length_cons] at hl hstep ⊢
      omega
    | [_], hl, _ => simp at hl
    | [], hl, _ => simp at hl

theorem mergeSteps_length_sub (k : Nat) :
    ∀ l : List Tree, k ≤ l.length - 1 → (mergeSteps k l).length = l.length - k := by
  induction k with
  | zero => intro l _; rfl
  | succ k ih =>
    intro l hl
    have hstep := mergeStep_length l (by omega)
    rw [mergeSteps, ih _ (by omega)]
    omega

theorem sum_filter_pos (hashTable : Nat → Int) (is : List Nat)
    (h : ∀ i ∈ is, 0 ≤ hashTable i) :
    ((is.filter (fun i => decide (hashTable i > 0))).map hashTable).sum =
      (is.map hashTable).sum := by
  induction is with
  | nil => rfl
  | cons i is ih =>
    have hi := h i (by simp)
    have := ih (fun j hj => h j (by simp [hj]))
    by_cases hpos : hashTable i > 0
    · simp [List.filter_cons, hpos, this]
    · have h0 : hashTable i = 0 := by omega
      simp [List.filter_cons, hpos, this, h0]

theorem weighted_leafSum (t : Tree) (hw : weighted t) : weight t = leafSum t := by
  induction t with
  | null => rfl
  | node c o l r ihl ihr =>
    obtain ⟨hpos, hcase⟩ := hw
    by_cases hleaf : l = Tree.null ∧ r = Tree.null
    · simp [leafSum, leaves, hleaf, weight]
    · rcases hcase with h | ⟨ho, hwl, hwr⟩
      · exact absurd h hleaf
      · have h1 := ihl hwl
        have h2 := ihr hwr
        simp only [leafSum] at h1 h2 ⊢
        rw [leaves_node _ _ _ _ hleaf, List.map_append, List.sum_append, ← h1, ← h2]
        exact ho

theorem weighted_node (c : Nat) (o : Int) (l r : Tree) (hw : weighted (Tree.node c o l r))
    (hleaf : ¬ (l = Tree.null ∧ r = Tree.null)) : o = weight l + weight r := by
  rcases hw.2 with h | ⟨ho, _, _⟩
  · exact absurd h hleaf
  · exact ho

set_option maxRecDepth 8000 in
/-- C15 as stated fails where a sum leaves the range of `int`: for the table
`a:2^30, b:2^30` the root that the one merge builds has the weight
`-2147483648`, while its children weigh `2^31` together and so do the leaves
below it. -/
theorem node_weights_overflow_counterexample :
    (1 ≤ positiveCount tableTwoBig - 1 ∧
      ∀ i, i < NUMCHARS → 0 ≤ tableTwoBig i ∧ tableTwoBig i ≤ INT_MAX) ∧
    makeQueue emptyQueue tableTwoBig =
      .ok (Queue.mk 2 [mkLeaf 97 1073741824, mkLeaf 98 1073741824]) ∧
    combineSteps 1 (Queue.mk 2 [mkLeaf 97 1073741824, mkLeaf 98 1073741824]) =
      .ok (Queue.mk 1
        [Tree.node 0 (-2147483648) (mkLeaf 97 1073741824) (mkLeaf 98 1073741824)]) ∧
    weight (mkLeaf 97 1073741824) + weight (mkLeaf 98 1073741824) = 2147483648 ∧
    leafSum (Tree.node 0 (-2147483648) (mkLeaf 97 1073741824) (mkLeaf 98 1073741824)) =
      2147483648 := by
  decide

/-- C15, for tables whose positive counts add up to at most `INT_MAX`: in every
tree held by a queue entry after seeding and after any number of
`combineTrees` steps, every node with a child has the weight of its left child
plus the weight of its right child, and every node's weight is the sum of the
occurrence counts of the leaves below it. -/
theorem node_weights_are_sums (hashTable : Nat → Int) (k : Nat)
    (hsum : positiveSum hashTable ≤ INT_MAX) (hk : k ≤ positiveCount hashTable - 1) :
    ∃ q0 q, makeQueue emptyQueue hashTable = .ok q0 ∧ combineSteps k q0 = .ok q ∧
      ∀ t ∈ q.first, ∀ s ∈ subtrees t,
        (∀ c o l r, s = Tree.node c o l r → ¬ (l = Tree.null ∧ r = Tree.null) →
          o = weight l + weight r) ∧
        weight s = leafSum s := by
  have hlen := seed_length hashTable
  have hnn := seedList_nonnull hashTable (List.range NUMCHARS) [] (by simp)
  refine ⟨_, _, makeQueue_list hashTable, combineSteps_list k _ (by omega) hnn, ?_⟩
  intro t ht s hs
  have hF := (seed_ForestInv hashTable hsum k).2.1
  have hw := subtrees_weighted t (hF.1 t ht).2 s hs
  refine ⟨?_, weighted_leafSum s hw⟩
  intro c o l r he hleaf
  rw [he] at hw
  exact weighted_node c o l r hw hleaf

set_option maxRecDepth 8000 in
/-- Witness for `node_weights_are_sums`: the table `a:3, b:1, c:2` after one
merge. -/
theorem node_weights_are_sums_witness :
    (positiveSum tableABC ≤ INT_MAX ∧ 1 ≤ positiveCount tableABC - 1) ∧
    ∃ q0 q, makeQueue emptyQueue tableABC = .ok q0 ∧ combineSteps 1 q0 = .ok q ∧
      ∀ t ∈ q.first, ∀ s ∈ subtrees t,
        (∀ c o l r, s = Tree.node c o l r → ¬ (l = Tree.null ∧ r = Tree.null) →
          o = weight l + weight r) ∧
        weight s = leafSum s :=
  ⟨by decide, node_weights_are_sums tableABC 1 (by decide) (by decide)⟩

set_option maxRecDepth 8000 in
/-- C14 as stated fails where a sum leaves the range of `int`: the table
`a:1, b:INT_MAX, c:INT_MAX` seeds the queue `a, c, b`, whose weights add up to
`4294967295`, the sum of the counts; after `combineTrees` they add up to
`-1`. -/
theorem forest_weight_overflow_counterexample :
    (1 ≤ positiveCount tableMax - 1 ∧
      ∀ i, i < NUMCHARS → 0 ≤ tableMax i ∧ tableMax i ≤ INT_MAX) ∧
    makeQueue emptyQueue tableMax =
      .ok (Queue.mk 3 [mkLeaf 97 1, mkLeaf 99 2147483647, mkLeaf 98 2147483647]) ∧
    tableSum tableMax = 4294967295 ∧
    weightSum [mkLeaf 97 1, mkLeaf 99 2147483647, mkLeaf 98 2147483647] = 4294967295 ∧
    combineTrees (Queue.mk 3 [mkLeaf 97 1, mkLeaf 99 2147483647, mkLeaf 98 2147483647]) =
      .ok (Queue.mk 2 [Tree.node 0 (-2147483648) (mkLeaf 97 1) (mkLeaf 99 2147483647),
        mkLeaf 98 2147483647]) ∧
    combineSteps 1 (Queue.mk 3 [mkLeaf 97 1, mkLeaf 99 2147483647, mkLeaf 98 2147483647]) =
      .ok (Queue.mk 2 [Tree.node 0 (-2147483648) (mkLeaf 97 1) (mkLeaf 99 2147483647),
        mkLeaf 98 2147483647]) ∧
    weightSum [Tree.node 0 (-2147483648) (mkLeaf 97 1) (mkLeaf 99 2147483647),
      mkLeaf 98 2147483647] = -1 := by
  decide

/-- C14, for sums in the range of `int`.  For a table whose positive counts add
up to at most `INT_MAX`: after seeding and after each of the merges the queue
holds one tree per root of the forest (`n - k` entries after `k` merges, whose
leaves together are the seeded leaves), and the sum of the weights of its
entries is the sum of the positive counts of the table, which is the sum of
all counts of a table without negative entries.  `combineTrees` leaves the sum
unchanged on every queue whose first two weights have a sum in the range of
`int`. -/
theorem forest_weight_invariant (hashTable : Nat → Int)
    (hsum : positiveSum hashTable ≤ INT_MAX) :
    (∀ k, k ≤ positiveCount hashTable - 1 →
      ∃ q0 q, makeQueue emptyQueue hashTable = .ok q0 ∧ combineSteps k q0 = .ok q ∧
        q.size = positiveCount hashTable - k ∧ q.first.length = positiveCount hashTable - k ∧
        (forestLeaves q.first).Perm
          ((positiveIndices hashTable).map (fun i => (i, hashTable i))) ∧
        weightSum q.first = positiveSum hashTable ∧
        ((∀ i, i < NUMCHARS → 0 ≤ hashTable i) → weightSum q.first = tableSum hashTable)) ∧
    (∀ q : Queue, q.wf → 2 ≤ q.size →
      (∀ e1 e2 rest, q.first = e1 :: e2 :: rest →
        -2147483648 ≤ weight e1 + weight e2 ∧ weight e1 + weight e2 ≤ INT_MAX) →
      ∃ q1, combineTrees q = .ok q1 ∧ weightSum q1.first = weightSum q.first) := by
  refine ⟨?_, ?_⟩
  · intro k hk
    have hlen := seed_length hashTable
    have hnn := seedList_nonnull hashTable (List.range NUMCHARS) [] (by simp)
    have hl := mergeSteps_length_sub k (seedList hashTable (List.range NUMCHARS) [])
      (by omega)
    have hws := (seed_ForestInv hashTable hsum k).2.2
    refine ⟨_, _, makeQueue_list hashTable, combineSteps_list k _ (by omega) hnn,
      by rw [hl, hlen], by rw [hl, hlen], ?_, hws, ?_⟩
    · have h1 := (mergeSteps_leaves k _ hnn).trans
        (seedList_leaves hashTable (List.range NUMCHARS) [])
      simpa [forestLeaves, positiveIndices] using h1
    · intro hge
      show weightSum (mergeSteps k (seedList hashTable (List.range NUMCHARS) [])) = _
      rw [hws]
      exact sum_filter_pos hashTable (List.range NUMCHARS)
        (fun i hi => hge i (List.mem_range.mp hi))
  · intro q hwf h2 hrange
    have hq := Queue.wf_eq q hwf
    have hsz := hwf.1
    have hnn := hwf.2
    match hf : q.first, hsz, hnn with
    | x :: y :: rest, _, hnn =>
      rw [hf] at hq
      refine ⟨_, by rw [hq]; exact combineTrees_list x y rest hnn, ?_⟩
      obtain ⟨hlo, hhi⟩ := hrange x y rest hf
      show weightSum (mergeStep (x :: y :: rest)) = _
      rw [mergeStep, wrapInt_eq _ hlo hhi, weightSum_perm _ _ (queueInsert_perm _ rest)]
      simp [weightSum, weight]; ring
    | [_], hsz, _ => simp at hsz; omega
    | [], hsz, _ => simp at hsz; omega

set_option maxRecDepth 8000 in
/-- Witness for `forest_weight_invariant`: the table `a:3, b:1, c:2` after one
merge, and the queue `a:1, b:1`. -/
theorem forest_weight_invariant_witness :
    (positiveSum tableABC ≤ INT_MAX ∧ 1 ≤ positiveCount tableABC - 1 ∧
      (∀ i, i < NUMCHARS → 0 ≤ tableABC i) ∧ queueAB.wf ∧ 2 ≤ queueAB.size ∧
      (∀ e1 e2 rest, queueAB.first = e1 :: e2 :: rest →
        -2147483648 ≤ weight e1 + weight e2 ∧ weight e1 + weight e2 ≤ INT_MAX)) ∧
    (∃ q0 q, makeQueue emptyQueue tableABC = .ok q0 ∧ combineSteps 1 q0 = .ok q ∧
        q.size = positiveCount tableABC - 1 ∧ q.first.length = positiveCount tableABC - 1 ∧
        (forestLeaves q.first).Perm
          ((positiveIndices tableABC).map (fun i => (i, tableABC i))) ∧
        weightSum q.first = positiveSum tableABC ∧
        ((∀ i, i < NUMCHARS → 0 ≤ tableABC i) → weightSum q.first = tableSum tableABC)) ∧
    (∃ q1, combineTrees queueAB = .ok q1 ∧ weightSum q1.first = weightSum queueAB.first) := by
  have hr : ∀ e1 e2 rest, queueAB.first = e1 :: e2 :: rest →
      -2147483648 ≤ weight e1 + weight e2 ∧ weight e1 + weight e2 ≤ INT_MAX := by
    intro e1 e2 rest h
    simp only [queueAB, List.cons.injEq] at h
    obtain ⟨rfl, rfl, _⟩ := h
    decide
  exact ⟨⟨by decide, by decide, by decide, by decide, by decide, hr⟩,
    (forest_weight_invariant tableABC (by decide)).1 1 (by decide),
    (forest_weight_invariant tableABC (by decide)).2 queueAB (by decide) (by decide) hr⟩

theorem wrapInt_add_left (a b : Int) : wrapInt (wrapInt a + b) = wrapInt (a + b) := by
  unfold wrapInt; omega

theorem wrapInt_add_right (a b : Int) : wrapInt (a + wrapInt b) = wrapInt (a + b) := by
  unfold wrapInt; omega

theorem findCode_length_lt_height (c : Nat) (t : Tree) :
    ∀ p, findCode c t = some p → p.length < height t := by
  induction t with
  | null => intro p hp; simp [findCode] at hp
  | node tc o l r ihl ihr =>
    intro p hp
    by_cases htc : tc = c
    · simp only [findCode, if_pos htc, Option.some.injEq] at hp
      subst hp; simp [height]
    · cases hl : findCode c l with
      | some pl =>
        simp only [findCode, if_neg htc, hl, Option.some.injEq] at hp
        subst hp
        have := ihl pl hl
        simp only [height, List.length_cons]; omega
      | none =>
        cases hr : findCode c r with
        | some pr =>
          simp only [findCode, if_neg htc, hl, hr, Option.some.injEq] at hp
          subst hp
          have := ihr pr hr
          simp only [height, List.length_cons]; omega
        | none => simp [findCode, htc, hl, hr] at hp

theorem findCode_node (c : Nat) (t : Tree) :
    ∀ p, findCode c t = some p → ∃ o l r, subtreeAt t p = Tree.node c o l r := by
  induction t with
  | null => intro p hp; simp [findCode] at hp
  | node tc o l r ihl ihr =>
    intro p hp
    by_cases htc : tc = c
    · simp only [findCode, if_pos htc, Option.some.injEq] at hp
      subst hp; subst htc
      exact ⟨o, l, r, rfl⟩
    · cases hl : findCode c l with
      | some pl =>
        simp only [findCode, if_neg htc, hl, Option.some.injEq] at hp
        subst hp
        simpa [subtreeAt, branch] using ihl pl hl
      | none =>
        cases hr : findCode c r with
        | some pr =>
          simp only [findCode, if_neg htc, hl, hr, Option.some.injEq] at hp
          subst hp
          simpa [subtreeAt, branch] using ihr pr hr
        | none => simp [findCode, htc, hl, hr] at hp

theorem getOccurances_none (c : Nat) (t : Tree) (h : findCode c t = none) :
    getOccurances c t = -1 := by
  induction t with
  | null => rfl
  | node tc o l r ihl ihr =>
    by_cases htc : tc = c
    · simp [findCode, htc] at h
    · cases hl : findCode c l with
      | some pl => simp [findCode, htc, hl] at h
      | none =>
        cases hr : findCode c r with
        | some pr => simp [findCode, htc, hl, hr] at h
        | none => simp [getOccurances, htc, ihl hl, ihr hr]

theorem getOccurances_some (c : Nat) (t : Tree) (hm : ∀ s ∈ subtrees t, weight s ≠ -1) :
    ∀ p, findCode c t = some p → getOccurances c t = weight (subtreeAt t p) := by
  induction t with
  | null => intro p hp; simp [findCode] at hp
  | node tc o l r ihl ihr =>
    intro p hp
    have hml : ∀ s ∈ subtrees l, weight s ≠ -1 := fun s hs =>
      hm s (by simp only [subtrees, List.mem_cons, List.mem_append]; tauto)
    have hmr : ∀ s ∈ subtrees r, weight s ≠ -1 := fun s hs =>
      hm s (by simp only [subtrees, List.mem_cons, List.mem_append]; tauto)
    by_cases htc : tc = c
    · simp only [findCode, if_pos htc, Option.some.injEq] at hp
      subst hp
      simp [getOccurances, htc, subtreeAt, weight]
    · cases hl : findCode c l with
      | some pl =>
        simp only [findCode, if_neg htc, hl, Option.some.injEq] at hp
        subst hp
        have h1 := ihl hml pl hl
        obtain ⟨o1, l1, r1, hsub⟩ := findCode_node c l pl hl
        have hne : getOccurances c l ≠ -1 := by
          rw [h1]
          exact hml _ (subtreeAt_mem pl l (by rw [hsub]; simp))
        have hg : getOccurances c (Tree.node tc o l r) = getOccurances c l := by
          simp only [getOccurances, if_neg htc, if_pos hne]
        rw [hg, h1]
        simp [subtreeAt, branch]
      | none =>
        cases hr : findCode c r with
        | some pr =>
          simp only [findCode, if_neg htc, hl, hr, Option.some.injEq] at hp
          subst hp
          have h1 := ihr hmr pr hr
          obtain ⟨o1, l1, r1, hsub⟩ := findCode_node c r pr hr
          have hne : getOccurances c r ≠ -1 := by
            rw [h1]
            exact hmr _ (subtreeAt_mem pr r (by rw [hsub]; simp))
          have hl1 : ¬ getOccurances c l ≠ -1 := by
            rw [getOccurances_none c l hl]; simp
          have hg : getOccurances c (Tree.node tc o l r) = getOccurances c r := by
            simp only [getOccurances, if_neg htc, if_neg hl1, if_pos hne]
          rw [hg, h1]
          simp [subtreeAt, branch]
        | none => simp [findCode, htc, hl, hr] at hp

theorem huffmanCode_eq (c : Nat) (t : Tree) (hh : height t ≤ MAXSTR) :
    huffmanCode c t = .ok ((findCode c t).getD []) := by
  cases hp : findCode c t with
  | none => simpa using huffmanCode_none c t hp
  | some p =>
    have := findCode_length_lt_height c t p hp
    simpa using huffmanCode_some c t p hp (by omega)

theorem codeLength_eq (c : Nat) (t : Tree) (hh : height t ≤ MAXSTR) :
    codeLength c t = pathLength c t := by
  simp [codeLength, pathLength, huffmanCode_eq c t hh]

/-- Whenever `printChar` returns, it returns the `int` product of the count
`getOccurances` finds and the length of the derived code, or 0. -/
theorem printChar_ok (c : Nat) (t : Tree) (v : Int) (h : printChar c t = .ok v) :
    v = wrapInt (if c ≠ 0 ∧ charInTree c t = true then
      getOccurances c t * (codeLength c t : Int) else 0) := by
  have h0 : wrapInt 0 = 0 := by decide
  by_cases hc : c = 0
  · simp [printChar, hc] at h
    subst h
    simp [hc, h0]
  · by_cases hin : charInTree c t = true
    · simp only [printChar, if_neg hc, hin, if_true] at h
      cases hcode : huffmanCode c t with
      | error e => simp [hcode] at h
      | ok s =>
        simp only [hcode, Except.ok.injEq] at h
        simp [hc, hin, codeLength, hcode, h]
    · simp [printChar, hc, hin] at h
      subst h
      simp [hin, h0]

theorem printChar_eq (c : Nat) (t : Tree) (hh : height t ≤ MAXSTR) :
    ∃ v, printChar c t = .ok v := by
  have hcode := huffmanCode_eq c t hh
  by_cases hc : c = 0
  · exact ⟨0, by simp [printChar, hc]⟩
  · by_cases hin : charInTree c t = true
    · exact ⟨wrapInt (getOccurances c t * (((findCode c t).getD []).length : Int)), by
        simp only [printChar, if_neg hc, hin, if_true, hcode]⟩
    · exact ⟨0, by simp [printChar, hc, hin]⟩

theorem printHuffmanLoop_wrap (t : Tree) (f : Nat → Int) :
    ∀ (cs : List Nat) (tot : Int), (∀ c ∈ cs, printChar c t = .ok (wrapInt (f c))) →
      printHuffmanLoop t cs (wrapInt tot) = .ok (wrapInt (tot + (cs.map f).sum)) := by
  intro cs
  induction cs with
  | nil => intro tot _; simp [printHuffmanLoop]
  | cons c cs ih =>
    intro tot h
    rw [printHuffmanLoop, h c (by simp)]
    simp only
    rw [wrapInt_add_left, wrapInt_add_right, ih _ (fun x hx => h x (by simp [hx]))]
    simp [add_assoc]

theorem printHuffmanLoop_ok (t : Tree) :
    ∀ (cs : List Nat) (tot total : Int), printHuffmanLoop t cs tot = .ok total →
      ∀ c ∈ cs, ∃ v, printChar c t = .ok v := by
  intro cs
  induction cs with
  | nil => intro _ _ _ c hc; simp at hc
  | cons c0 cs ih =>
    intro tot total h c hc
    cases hp : printChar c0 t with
    | error e => simp [printHuffmanLoop, hp] at h
    | ok v =>
      simp only [printHuffmanLoop, hp] at h
      rcases List.mem_cons.mp hc with h1 | h1
      · exact ⟨v, by rw [h1]; exact hp⟩
      · exact ih _ _ h c h1

theorem sum_map_filter_zero (f : Nat → Int) (p : Nat → Bool) (cs : List Nat) :
    (cs.map (fun c => if p c = true then f c else 0)).sum = ((cs.filter p).map f).sum := by
  induction cs with
  | nil => rfl
  | cons c cs ih =>
    by_cases hp : p c = true
    · simp [List.filter_cons, hp, ih]
    · simp [List.filter_cons, hp, ih]

/-- Where every call of `printChar` returns, `printHuffman` returns the `int`
the sum of the products is stored as. -/
theorem printHuffman_wrap (t : Tree) (hall : ∀ c ∈ List.range NUMCHARS, ∃ v, printChar c t = .ok v) :
    printHuffman t =
      .ok (wrapInt ((((List.range NUMCHARS).filter
        (fun c => decide (c ≠ 0) && charInTree c t)).map
          (fun c => getOccurances c t * (codeLength c t : Int))).sum)) := by
  unfold printHuffman
  have h0 : (0 : Int) = wrapInt 0 := by decide
  rw [h0, printHuffmanLoop_wrap t
    (fun c => if (decide (c ≠ 0) && charInTree c t) = true then
      getOccurances c t * (codeLength c t : Int) else 0)]
  · rw [sum_map_filter_zero]; simp
  · intro c hc
    obtain ⟨v, hv⟩ := hall c hc
    rw [hv, printChar_ok c t v hv]
    congr 2
    simp

theorem lookup_leaves_none (c : Nat) (t : Tree) (h : charInTree c t = false) :
    (leaves t).lookup c = none := by
  induction t with
  | null => rfl
  | node tc o l r ihl ihr =>
    have htc : ¬ tc = c := by
      intro he; simp [charInTree, he] at h
    simp only [charInTree, if_neg htc, Bool.or_eq_false_iff] at h
    by_cases hlf : l = Tree.null ∧ r = Tree.null
    · have hb : (c == tc) = false := by simpa using fun he : c = tc => htc he.symm
      simp [leaves, hlf, List.lookup_cons, hb]
    · simp [leaves, if_neg hlf, List.lookup_append, ihl h.1, ihr h.2]

theorem getOccurances_not_found (c : Nat) (t : Tree) (h : charInTree c t = false) :
    getOccurances c t = -1 := by
  apply getOccurances_none
  cases hf : findCode c t with
  | none => rfl
  | some p =>
    have := findCode_isSome c t
    rw [hf, h] at this
    simp at this

/-- In a tree whose non-zero byte values are carried by leaves only and whose
leaves do not have the count -1, `getOccurances` finds the count of the first
leaf that carries the value. -/
theorem getOccurances_leaf (c : Nat) (hc : c ≠ 0) (t : Tree) :
    (∀ s ∈ subtrees t, symbol s ≠ 0 → isLeaf s = true) → (∀ p ∈ leaves t, p.2 ≠ -1) →
    charInTree c t = true →
    ∃ o, (leaves t).lookup c = some o ∧ getOccurances c t = o ∧ o ≠ -1 := by
  induction t with
  | null => intro _ _ h; simp [charInTree] at h
  | node tc o l r ihl ihr =>
    intro hleaf hm1 hin
    have hsl : ∀ s ∈ subtrees l, symbol s ≠ 0 → isLeaf s = true := fun s hs =>
      hleaf s (by simp only [subtrees, List.mem_cons, List.mem_append]; tauto)
    have hsr : ∀ s ∈ subtrees r, symbol s ≠ 0 → isLeaf s = true := fun s hs =>
      hleaf s (by simp only [subtrees, List.mem_cons, List.mem_append]; tauto)
    by_cases htc : tc = c
    · have hl := hleaf (Tree.node tc o l r) (by rw [subtrees]; exact List.mem_cons_self _ _)
        (by simp only [symbol]; rw [htc]; exact hc)
      have hlr : l = Tree.null ∧ r = Tree.null := by
        cases l with
        | null =>
          cases r with
          | null => exact ⟨rfl, rfl⟩
          | node _ _ _ _ => simp [isLeaf] at hl
        | node _ _ _ _ => simp [isLeaf] at hl
      have ho := hm1 (tc, o) (by simp [leaves, hlr])
      refine ⟨o, ?_, by simp [getOccurances, htc], ho⟩
      simp [leaves, hlr, List.lookup_cons, htc]
    · have hlf : ¬ (l = Tree.null ∧ r = Tree.null) := by
        intro hlr
        simp [charInTree, htc, hlr] at hin
      have hml : ∀ p ∈ leaves l, p.2 ≠ -1 := fun p hp =>
        hm1 p (by rw [leaves_node _ _ _ _ hlf]; exact List.mem_append_left _ hp)
      have hmr : ∀ p ∈ leaves r, p.2 ≠ -1 := fun p hp =>
        hm1 p (by rw [leaves_node _ _ _ _ hlf]; exact List.mem_append_right _ hp)
      rw [leaves_node _ _ _ _ hlf, List.lookup_append]
      cases hcl : charInTree c l with
      | true =>
        obtain ⟨ol, h1, h2, h3⟩ := ihl hsl hml hcl
        refine ⟨ol, by simp [h1], ?_, h3⟩
        have hne : getOccurances c l ≠ -1 := by rw [h2]; exact h3
        simp only [getOccurances, if_neg htc, if_pos hne]
        exact h2
      | false =>
        have hcr : charInTree c r = true := by
          simpa [charInTree, htc, hcl] using hin
        obtain ⟨orr, h1, h2, h3⟩ := ihr hsr hmr hcr
        refine ⟨orr, by simp [lookup_leaves_none c l hcl, h1], ?_, h3⟩
        have hl1 : ¬ getOccurances c l ≠ -1 := by
          rw [getOccurances_not_found c l hcl]; simp
        have hne : getOccurances c r ≠ -1 := by rw [h2]; exact h3
        simp only [getOccurances, if_neg htc, if_neg hl1, if_pos hne]
        exact h2

theorem map_congr_filter (f g : Nat → Int) (p : Nat → Bool) (cs : List Nat)
    (h : ∀ c, p c = true → f c = g c) :
    ((cs.filter p).map f).sum = ((cs.filter p).map g).sum := by
  congr 1
  apply List.map_congr_left
  intro c hc
  exact h c (List.mem_filter.mp hc).2

theorem occurances_eq_report (t : Tree)
    (hleaf : ∀ s ∈ subtrees t, symbol s ≠ 0 → isLeaf s = true)
    (hm1 : ∀ p ∈ leaves t, p.2 ≠ -1) :
    (((List.range NUMCHARS).filter (fun c => decide (c ≠ 0) && charInTree c t)).map
      (fun c => getOccurances c t * (codeLength c t : Int))).sum = reportTotal t := by
  unfold reportTotal
  apply map_congr_filter
  intro c hc
  simp only [Bool.and_eq_true, decide_eq_true_eq] at hc
  obtain ⟨o, h1, h2, _⟩ := getOccurances_leaf c hc.1 t hleaf hm1 hc.2
  simp [leafCount, h1, h2]

theorem reportTotal_eq (t : Tree) (hh : height t ≤ MAXSTR) : reportTotal t = pathTotal t := by
  unfold reportTotal pathTotal
  apply map_congr_filter
  intro c _
  rw [codeLength_eq c t hh]

theorem printHuffman_eq (t : Tree) (hh : height t ≤ MAXSTR) :
    printHuffman t = .ok (wrapInt (occurancesTotal t)) := by
  rw [printHuffman_wrap t (fun c _ => printChar_eq c t hh)]
  congr 2
  unfold occurancesTotal
  apply map_congr_filter
  intro c _
  rw [codeLength_eq c t hh]

set_option maxRecDepth 8000 in
/-- C12 as stated fails in three ways.  In `treeTwoBig` the products add up to
`2^31` and the total is the `int` `-2147483648`.  In `treeInner` the value `a`
is found at a node with children, whose count 3 is used instead of the
count 2 of the leaf of `a`.  In `treeTwin` the first leaf of `a` has the count
-1, which `getOccurances` takes for "not found", and the count 7 of the second
leaf is used with the code of the first. -/
theorem printHuffman_total_counterexample :
    (leaves treeTwoBig = [(97, 1073741824), (98, 1073741824)] ∧
      huffmanCode 97 treeTwoBig = .ok [48] ∧ huffmanCode 98 treeTwoBig = .ok [49] ∧
      reportTotal treeTwoBig = 2147483648 ∧
      printHuffman treeTwoBig = .ok (-2147483648)) ∧
    (leaves treeInner = [(97, 2), (98, 1), (99, 1)] ∧ getOccurances 97 treeInner = 3 ∧
      huffmanCode 97 treeInner = .ok [48] ∧
      reportTotal treeInner = 5 ∧ printHuffman treeInner = .ok 6) ∧
    (leaves treeTwin = [(97, -1), (97, 7)] ∧ getOccurances 97 treeTwin = 7 ∧
      huffmanCode 97 treeTwin = .ok [48] ∧
      reportTotal treeTwin = -1 ∧ printHuffman treeTwin = .ok 7) := by
  refine ⟨⟨by decide, huffmanCode_some 97 _ [48] (by decide) (by decide),
      huffmanCode_some 98 _ [49] (by decide) (by decide), ?_, ?_⟩,
    ⟨by decide, by decide, huffmanCode_some 97 _ [48] (by decide) (by decide), ?_, ?_⟩,
    ⟨by decide, by decide, huffmanCode_some 97 _ [48] (by decide) (by decide), ?_, ?_⟩⟩
  · rw [reportTotal_eq _ (by decide)]; decide
  · rw [printHuffman_eq _ (by decide)]; decide
  · rw [reportTotal_eq _ (by decide)]; decide
  · rw [printHuffman_eq _ (by decide)]; decide
  · rw [reportTotal_eq _ (by decide)]; decide
  · rw [printHuffman_eq _ (by decide)]; decide

/-- C12 (amended): for every tree in which the byte values 1..255 are carried by
leaves only and no leaf has the count -1, and for which the sum, over the byte
values 1..255 found in the tree, of the count of the value's leaf times the
length of its derived code is in the range of `int`: every total
`printHuffman` computes is that sum, and it does compute a total when the
tree has at most `MAXSTR` levels, so that every code fits the buffer of
`printChar`; byte value 0 adds 0 even when it is in the tree, a byte value not
found adds 0, and a value that is found adds the `int` product of the count of
its leaf and the length of its code. -/
theorem printHuffman_total (t : Tree)
    (hleaf : ∀ s ∈ subtrees t, symbol s ≠ 0 → isLeaf s = true)
    (hm1 : ∀ p ∈ leaves t, p.2 ≠ -1)
    (hlo : -2147483648 ≤ reportTotal t) (hhi : reportTotal t ≤ INT_MAX) :
    (∀ total, printHuffman t = .ok total → total = reportTotal t) ∧
    (height t ≤ MAXSTR → printHuffman t = .ok (reportTotal t)) ∧
    printChar 0 t = .ok 0 ∧
    (∀ c, charInTree c t = false → printChar c t = .ok 0) ∧
    (∀ c v, c ≠ 0 → charInTree c t = true → printChar c t = .ok v →
      v = wrapInt (leafCount c t * (codeLength c t : Int))) := by
  have hw : ∀ (hall : ∀ c ∈ List.range NUMCHARS, ∃ v, printChar c t = .ok v),
      printHuffman t = .ok (reportTotal t) := by
    intro hall
    rw [printHuffman_wrap t hall, occurances_eq_report t hleaf hm1, wrapInt_eq _ hlo hhi]
  refine ⟨?_, ?_, by simp [printChar], ?_, ?_⟩
  · intro total h
    have hall := printHuffmanLoop_ok t (List.range NUMCHARS) 0 total h
    rw [hw hall] at h
    simpa using h.symm
  · intro hh
    exact hw (fun c _ => printChar_eq c t hh)
  · intro c hc
    by_cases hc0 : c = 0
    · simp [printChar, hc0]
    · simp [printChar, hc0, hc]
  · intro c v hc0 hc hv
    rw [printChar_ok c t v hv]
    obtain ⟨o, h1, h2, _⟩ := getOccurances_leaf c hc0 t hleaf hm1 hc
    simp [hc0, hc, leafCount, h1, h2]

set_option maxRecDepth 8000 in
/-- Witness for `printHuffman_total`: the tree built from `a:3, b:1, c:2`, whose
total is `3 * 1 + 1 * 2 + 2 * 2 = 9`. -/
theorem printHuffman_total_witness :
    ((∀ s ∈ subtrees treeABC, symbol s ≠ 0 → isLeaf s = true) ∧
      (∀ p ∈ leaves treeABC, p.2 ≠ -1) ∧ reportTotal treeABC = 9 ∧
      height treeABC ≤ MAXSTR) ∧
    printHuffman treeABC = .ok (reportTotal treeABC) ∧
    printChar 0 treeABC = .ok 0 ∧
    (∀ c, charInTree c treeABC = false → printChar c treeABC = .ok 0) := by
  have h9 : reportTotal treeABC = 9 := by
    rw [reportTotal_eq _ (by decide)]; decide
  have h := printHuffman_total treeABC (by decide) (by decide) (by rw [h9]; decide)
    (by rw [h9]; decide)
  exact ⟨⟨by decide, by decide, h9, by decide⟩, h.2.1 (by decide), h.2.2.1, h.2.2.2.1⟩

theorem positiveIndices_eq (hashTable : Nat → Int) (L : List Nat)
    (hs : L.Sorted (· < ·))
    (hmem : ∀ i, i ∈ L ↔ (i < NUMCHARS ∧ hashTable i > 0)) :
    positiveIndices hashTable = L := by
  have hs1 : (positiveIndices hashTable).Sorted (· < ·) :=
    (List.sorted_lt_range NUMCHARS).filter _
  refine List.eq_of_perm_of_sorted ?_ hs1 hs
  rw [List.perm_ext_iff_of_nodup hs1.nodup hs.nodup]
  intro i
  rw [hmem i]
  simp [positiveIndices, List.mem_filter]

theorem seedList_filter (hashTable : Nat → Int) (is : List Nat) :
    ∀ l : List Tree, seedList hashTable is l =
      seedList hashTable (is.filter (fun i => decide (hashTable i > 0))) l := by
  induction is with
  | nil => intro l; rfl
  | cons i is ih =>
    intro l
    by_cases hpos : hashTable i > 0
    · simp only [List.filter_cons, hpos, decide_True, if_true, seedList]
      exact ih _
    · simp only [List.filter_cons, hpos, decide_False, seedList]
      simpa using ih l

theorem seed_eq (hashTable : Nat → Int) (L : List Nat)
    (hL : positiveIndices hashTable = L) :
    seedList hashTable (List.range NUMCHARS) [] = seedList hashTable L [] := by
  rw [seedList_filter, ← hL]; rfl

theorem buildTree_of_seed (hashTable : Nat → Int) (hpos : 1 ≤ positiveCount hashTable)
    (t : Tree)
    (h : mergeSteps (positiveCount hashTable - 1)
      (seedList hashTable (List.range NUMCHARS) []) = [t]) :
    buildTree hashTable = some (.ok t) := by
  obtain ⟨t1, hb, _, hm, _⟩ := buildTree_facts hashTable hpos
  rw [h] at hm
  simp only [List.cons.injEq, and_true] at hm
  rw [hm]; exact hb

theorem two_leaf_report (a b : Nat) (ca cb w : Int) (ha0 : a ≠ 0) (hb0 : b ≠ 0) (hab : a ≠ b)
    (ha : a < NUMCHARS) (hb : b < NUMCHARS) (hca : ca ≠ -1) (hcb : cb ≠ -1) :
    huffmanCode a (Tree.node 0 w (mkLeaf a ca) (mkLeaf b cb)) = .ok [48] ∧
    huffmanCode b (Tree.node 0 w (mkLeaf a ca) (mkLeaf b cb)) = .ok [49] ∧
    printHuffman (Tree.node 0 w (mkLeaf a ca) (mkLeaf b cb)) = .ok (wrapInt (ca + cb)) := by
  have h0a : ¬ 0 = a := fun h => ha0 h.symm
  have h0b : ¬ 0 = b := fun h => hb0 h.symm
  have hba : ¬ b = a := fun h => hab h.symm
  have hfa : findCode a (Tree.node 0 w (mkLeaf a ca) (mkLeaf b cb)) = some [48] := by
    simp [findCode, mkLeaf, h0a]
  have hfb : findCode b (Tree.node 0 w (mkLeaf a ca) (mkLeaf b cb)) = some [49] := by
    simp [findCode, mkLeaf, h0b, hab]
  have hcodea := huffmanCode_some a _ [48] hfa (by simp [MAXSTR])
  have hcodeb := huffmanCode_some b _ [49] hfb (by simp [MAXSTR])
  refine ⟨hcodea, hcodeb, ?_⟩
  have hh : height (Tree.node 0 w (mkLeaf a ca) (mkLeaf b cb)) ≤ MAXSTR := by
    simp [mkLeaf, height, MAXSTR]
  have hperm : ((List.range NUMCHARS).filter (fun c => decide (c ≠ 0) &&
      charInTree c (Tree.node 0 w (mkLeaf a ca) (mkLeaf b cb)))).Perm [a, b] := by
    rw [List.perm_ext_iff_of_nodup ((List.nodup_range NUMCHARS).filter _) (by simp [hab])]
    intro i
    simp only [List.mem_filter, List.mem_range, mkLeaf, charInTree, Bool.and_eq_true,
      decide_eq_true_eq, List.mem_cons, List.mem_singleton, List.not_mem_nil, or_false]
    constructor
    · rintro ⟨_, hi0, h⟩
      have h0i : ¬ 0 = i := fun h => hi0 h.symm
      by_cases hai : a = i
      · exact Or.inl hai.symm
      · by_cases hbi : b = i
        · exact Or.inr hbi.symm
        · simp [h0i, hai, hbi] at h
    · rintro (h | h)
      · subst h; simp [ha, ha0, h0a]
      · subst h; simp [hb, hb0, h0b]
  have hga : getOccurances a (Tree.node 0 w (mkLeaf a ca) (mkLeaf b cb)) = ca := by
    simp [getOccurances, mkLeaf, h0a, hca]
  have hgb : getOccurances b (Tree.node 0 w (mkLeaf a ca) (mkLeaf b cb)) = cb := by
    simp [getOccurances, mkLeaf, h0b, hab, hcb]
  rw [printHuffman_eq _ hh]
  unfold occurancesTotal
  rw [(hperm.map _).sum_eq]
  simp [pathLength, hfa, hfb, hga, hgb]

/-- The table with exactly two positive counts `cx`, `cy`, of non-zero byte
values `x < y`: one merge, children in queue order, and the report is the
`int` sum of the counts. -/
theorem two_symbols_table (hashTable : Nat → Int) (x y : Nat) (cx cy : Int)
    (hx0 : x ≠ 0) (hxy : x < y) (hy : y < NUMCHARS) (hcx : 0 < cx) (hcy : 0 < cy)
    (htx : hashTable x = cx) (hty : hashTable y = cy)
    (hz : ∀ i, i < NUMCHARS → i ≠ x → i ≠ y → hashTable i ≤ 0) :
    ∃ q0 t, makeQueue emptyQueue hashTable = .ok q0 ∧
      (∀ fuel, 1 ≤ fuel → mergeLoop fuel q0 = some (.ok (1, Queue.mk 1 [t]))) ∧
      buildTree hashTable = some (.ok t) ∧
      (cx ≤ cy → t = Tree.node 0 (wrapInt (cx + cy)) (mkLeaf x cx) (mkLeaf y cy) ∧
        huffmanCode x t = .ok [48] ∧ huffmanCode y t = .ok [49]) ∧
      (cx > cy → t = Tree.node 0 (wrapInt (cy + cx)) (mkLeaf y cy) (mkLeaf x cx) ∧
        huffmanCode y t = .ok [48] ∧ huffmanCode x t = .ok [49]) ∧
      printHuffman t = .ok (wrapInt (cx + cy)) := by
  have hy0 : y ≠ 0 := by omega
  have hx : x < NUMCHARS := by omega
  have hne : x ≠ y := by omega
  have hL : positiveIndices hashTable = [x, y] := by
    apply positiveIndices_eq
    · simp [hxy]
    · intro i
      constructor
      · intro hi
        simp only [List.mem_cons, List.mem_singleton, List.not_mem_nil, or_false] at hi
        rcases hi with h | h
        · subst h; exact ⟨hx, by omega⟩
        · subst h; exact ⟨hy, by omega⟩
      · rintro ⟨hi, hpos⟩
        by_contra hcon
        simp only [List.mem_cons, List.mem_singleton, List.not_mem_nil, or_false,
          not_or] at hcon
        have := hz i hi hcon.1 hcon.2
        omega
  have hcount : positiveCount hashTable = 2 := by simp [positiveCount, hL]
  have hnn := seedList_nonnull hashTable (List.range NUMCHARS) [] (by simp)
  have hloop : ∀ fuel, 1 ≤ fuel → mergeLoop fuel
      (Queue.mk (seedList hashTable (List.range NUMCHARS) []).length
        (seedList hashTable (List.range NUMCHARS) [])) =
      some (.ok (1, Queue.mk (mergeSteps 1 (seedList hashTable (List.range NUMCHARS) [])).length
        (mergeSteps 1 (seedList hashTable (List.range NUMCHARS) [])))) := by
    intro fuel hf
    exact mergeLoop_list 1 fuel _ (by rw [seed_length, hcount]) hf hnn
  by_cases hle : cx ≤ cy
  · have hseed : seedList hashTable (List.range NUMCHARS) [] = [mkLeaf x cx, mkLeaf y cy] := by
      rw [seed_eq hashTable [x, y] hL]
      have hng : ¬ cy < cx := by omega
      simp [seedList, queueInsert, htx, hty, hcx, hcy, mkLeaf, weight, hng]
    have hm : mergeSteps 1 (seedList hashTable (List.range NUMCHARS) []) =
        [Tree.node 0 (wrapInt (cx + cy)) (mkLeaf x cx) (mkLeaf y cy)] := by
      rw [hseed]; simp [mergeSteps, mergeStep, queueInsert, mkLeaf, weight]
    obtain ⟨h1, h2, h3⟩ := two_leaf_report x y cx cy (wrapInt (cx + cy)) hx0 hy0 hne hx hy
      (by omega) (by omega)
    refine ⟨_, _, makeQueue_list hashTable, ?_, ?_, fun _ => ⟨rfl, h1, h2⟩,
      fun hgt => absurd hgt (by omega), h3⟩
    · intro fuel hf
      rw [hloop fuel hf, hm]; rfl
    · apply buildTree_of_seed hashTable (by omega)
      rw [hcount]; exact hm
  · have hgt : cy < cx := by omega
    have hseed : seedList hashTable (List.range NUMCHARS) [] = [mkLeaf y cy, mkLeaf x cx] := by
      rw [seed_eq hashTable [x, y] hL]
      simp [seedList, queueInsert, htx, hty, hcx, hcy, mkLeaf, weight, hgt]
    have hm : mergeSteps 1 (seedList hashTable (List.range NUMCHARS) []) =
        [Tree.node 0 (wrapInt (cy + cx)) (mkLeaf y cy) (mkLeaf x cx)] := by
      rw [hseed]; simp [mergeSteps, mergeStep, queueInsert, mkLeaf, weight]
    obtain ⟨h1, h2, h3⟩ := two_leaf_report y x cy cx (wrapInt (cy + cx)) hy0 hx0 (Ne.symm hne)
      hy hx (by omega) (by omega)
    refine ⟨_, _, makeQueue_list hashTable, ?_, ?_, fun h => absurd h hle,
      fun _ => ⟨rfl, h1, h2⟩, by rw [h3, add_comm]⟩
    · intro fuel hf
      rw [hloop fuel hf, hm]; rfl
    · apply buildTree_of_seed hashTable (by omega)
      rw [hcount]; exact hm


/-- A file of `n` bytes `a` followed by `n` bytes `b`: what `main` builds and
reports. -/
theorem two_runs (charSigned : Bool) (n : Nat) (hn : 0 < n) :
    (List.replicate n 97 ++ List.replicate n 98).count 97 = n ∧
    (List.replicate n 97 ++ List.replicate n 98).count 98 = n ∧
    mainTree charSigned (List.replicate n 97 ++ List.replicate n 98) =
      some (.ok (Tree.node 0 (wrapInt ((n : Int) + (n : Int))) (mkLeaf 97 n) (mkLeaf 98 n))) ∧
    printHuffman (Tree.node 0 (wrapInt ((n : Int) + (n : Int))) (mkLeaf 97 n) (mkLeaf 98 n)) =
      .ok (wrapInt ((n : Int) + (n : Int))) := by
  have hmem : ∀ b ∈ List.replicate n 97 ++ List.replicate n 98, b = 97 ∨ b = 98 := by
    intro b hb
    rcases List.mem_append.mp hb with h | h
    · exact Or.inl (List.mem_replicate.mp h).2
    · exact Or.inr (List.mem_replicate.mp h).2
  have hv : countable charSigned (List.replicate n 97 ++ List.replicate n 98) := by
    intro b hb
    rcases hmem b hb with rfl | rfl
    · exact ⟨by decide, by decide, fun _ => by decide⟩
    · exact ⟨by decide, by decide, fun _ => by decide⟩
  have h97 : (List.replicate n 97 ++ List.replicate n 98).count 97 = n := by
    rw [List.count_append, List.count_replicate, List.count_replicate]; simp
  have h98 : (List.replicate n 97 ++ List.replicate n 98).count 98 = n := by
    rw [List.count_append, List.count_replicate, List.count_replicate]; simp
  have hz : ∀ i, i < NUMCHARS → i ≠ 97 → i ≠ 98 →
      countTable (List.replicate n 97 ++ List.replicate n 98) i ≤ 0 := by
    intro i _ h1 h2
    have : (List.replicate n 97 ++ List.replicate n 98).count i = 0 :=
      List.count_eq_zero.mpr (fun hm => by rcases hmem i hm with h | h <;> contradiction)
    simp [countTable, this]
  have hn1 : (0 : Int) < (n : Int) := by exact_mod_cast hn
  obtain ⟨q0, t, _, _, hb, hle, _, hp⟩ := two_symbols_table
    (countTable (List.replicate n 97 ++ List.replicate n 98)) 97 98 n n (by decide) (by decide)
    (by decide) hn1 hn1 (by simp only [countTable]; rw [h97]) (by simp only [countTable]; rw [h98])
    hz
  obtain ⟨ht, _, _⟩ := hle (le_refl _)
  subst ht
  refine ⟨h97, h98, ?_, hp⟩
  simp only [mainTree, populateHashTable_eq charSigned _ hv, hb]

set_option maxRecDepth 8000 in
/-- C16 as stated fails twice.  Where plain `char` is signed, the input `a`, byte
200 makes `populateHashTable` index the table at `-56`.  For the input of
`2^30` bytes `a` followed by `2^30` bytes `b` the root gets the weight
`-2147483648` and so is the reported total, not `2^30 + 2^30`. -/
theorem two_symbols_counterexample :
    ((97 : Nat) ≠ 0 ∧ 97 < 200 ∧ 200 < NUMCHARS ∧
      mainTree true [97, 200] = some (.error Err.outOfBounds)) ∧
    (fileTwoBig.count 97 = 1073741824 ∧ fileTwoBig.count 98 = 1073741824 ∧
      mainTree false fileTwoBig = some (.ok treeTwoBig) ∧
      printHuffman treeTwoBig = .ok (-2147483648) ∧
      (1073741824 : Int) + 1073741824 = 2147483648) := by
  have h := two_runs false 1073741824 (by decide)
  have hw : wrapInt (((1073741824 : Nat) : Int) + ((1073741824 : Nat) : Int)) = -2147483648 := by
    decide
  rw [hw] at h
  exact ⟨by decide, h.1, h.2.1, h.2.2.1, h.2.2.2, by decide⟩

/-- C16 (amended): for every input with exactly two distinct non-zero byte values
`x < y` (below 128 where plain `char` is signed) whose counts `cx`, `cy` add up
to at most `INT_MAX`, exactly one merge occurs and the children are in queue
order: with `cx <= cy` the left child is `x` (code `"0"`) and `y` has code
`"1"`; with `cx > cy` the left child is `y` (code `"0"`) and `x` has code
`"1"`; the reported total is `cx + cy`. -/
theorem two_symbols (charSigned : Bool) (file : List Nat) (x y : Nat)
    (hx0 : x ≠ 0) (hxy : x < y) (hy : y < NUMCHARS) (hsig : charSigned = true → y < 128)
    (hxin : x ∈ file) (hyin : y ∈ file) (hall : ∀ b ∈ file, b = x ∨ b = y)
    (hsum : (file.count x : Int) + (file.count y : Int) ≤ INT_MAX) :
    ∃ q0 t, populateHashTable charSigned zeroTable file = some (.ok (countTable file)) ∧
      makeQueue emptyQueue (countTable file) = .ok q0 ∧
      (∀ fuel, 1 ≤ fuel → mergeLoop fuel q0 = some (.ok (1, Queue.mk 1 [t]))) ∧
      mainTree charSigned file = some (.ok t) ∧
      ((file.count x : Int) ≤ (file.count y : Int) →
        t = Tree.node 0 ((file.count x : Int) + (file.count y : Int))
          (mkLeaf x (file.count x)) (mkLeaf y (file.count y)) ∧
        huffmanCode x t = .ok [48] ∧ huffmanCode y t = .ok [49]) ∧
      ((file.count x : Int) > (file.count y : Int) →
        t = Tree.node 0 ((file.count y : Int) + (file.count x : Int))
          (mkLeaf y (file.count y)) (mkLeaf x (file.count x)) ∧
        huffmanCode y t = .ok [48] ∧ huffmanCode x t = .ok [49]) ∧
      printHuffman t = .ok ((file.count x : Int) + (file.count y : Int)) := by
  have hv : countable charSigned file := by
    intro b hb
    rcases hall b hb with rfl | rfl
    · exact ⟨by omega, by omega, fun h => by have := hsig h; omega⟩
    · exact ⟨by omega, hy, hsig⟩
  have hpop := populateHashTable_eq charSigned file hv
  have hcx : (0 : Int) < (file.count x : Int) := by
    exact_mod_cast List.count_pos_iff.mpr hxin
  have hcy : (0 : Int) < (file.count y : Int) := by
    exact_mod_cast List.count_pos_iff.mpr hyin
  have hz : ∀ i, i < NUMCHARS → i ≠ x → i ≠ y → countTable file i ≤ 0 := by
    intro i _ h1 h2
    have : file.count i = 0 :=
      List.count_eq_zero.mpr (fun hm => by rcases hall i hm with h | h <;> contradiction)
    simp [countTable, this]
  obtain ⟨q0, t, hq, hloop, hb, hle, hgt, hp⟩ := two_symbols_table (countTable file) x y
    (file.count x) (file.count y) hx0 hxy hy hcx hcy rfl rfl hz
  have hw1 : wrapInt ((file.count x : Int) + (file.count y : Int)) =
      (file.count x : Int) + (file.count y : Int) := wrapInt_eq _ (by omega) hsum
  have hw2 : wrapInt ((file.count y : Int) + (file.count x : Int)) =
      (file.count y : Int) + (file.count x : Int) := by
    rw [add_comm, hw1, add_comm]
  rw [hw1] at hle hp
  rw [hw2] at hgt
  exact ⟨q0, t, hpop, hq, hloop, by simp only [mainTree, hpop, hb], hle, hgt, hp⟩

set_option maxRecDepth 8000 in
/-- Witness for `two_symbols`: the inputs `aaab` (plain `char` signed) and `ab`
(plain `char` unsigned). -/
theorem two_symbols_witness :
    ((97 : Nat) ≠ 0 ∧ 97 < 98 ∧ 98 < NUMCHARS ∧ (98 : Nat) < 128 ∧
      (∀ b ∈ ([97, 97, 97, 98] : List Nat), b = 97 ∨ b = 98) ∧
      (([97, 97, 97, 98] : List Nat).count 97 : Int) +
        (([97, 97, 97, 98] : List Nat).count 98 : Int) ≤ INT_MAX) ∧
    (∃ t, mainTree true [97, 97, 97, 98] = some (.ok t) ∧
      t = Tree.node 0 4 (mkLeaf 98 1) (mkLeaf 97 3) ∧
      huffmanCode 98 t = .ok [48] ∧ huffmanCode 97 t = .ok [49] ∧
      printHuffman t = .ok 4) ∧
    (∃ t, mainTree false [97, 98] = some (.ok t) ∧
      t = Tree.node 0 2 (mkLeaf 97 1) (mkLeaf 98 1) ∧
      huffmanCode 97 t = .ok [48] ∧ huffmanCode 98 t = .ok [49] ∧
      printHuffman t = .ok 2) := by
  obtain ⟨_, t1, _, _, _, hm1, _, hgt1, hp1⟩ := two_symbols true [97, 97, 97, 98] 97 98
    (by decide) (by decide) (by decide) (by decide) (by decide) (by decide) (by decide)
    (by decide)
  obtain ⟨_, t2, _, _, _, hm2, hle2, _, hp2⟩ := two_symbols false [97, 98] 97 98
    (by decide) (by decide) (by decide) (by decide) (by decide) (by decide) (by decide)
    (by decide)
  obtain ⟨ht1, ha1, hb1⟩ := hgt1 (by decide)
  obtain ⟨ht2, ha2, hb2⟩ := hle2 (by decide)
  exact ⟨by decide, ⟨t1, hm1, by rw [ht1]; decide, ha1, hb1, by rw [hp1]; decide⟩,
    ⟨t2, hm2, by rw [ht2]; decide, ha2, hb2, by rw [hp2]; decide⟩⟩

set_option maxRecDepth 8000 in
/-- C18 (the code at the empty input): for the table whose counts are all 0, which
is the table of the empty file, `makeQueue` leaves the queue empty, the merge
loop is not entered, and `main` goes on to read `q->first->tree` with
`q->first == NULL`: neither an explicit error nor a total of 0.  A file of one
NUL byte, of which `strlen` counts nothing, ends the same way. -/
theorem empty_input_null_deref :
    makeQueue emptyQueue zeroTable = .ok emptyQueue ∧
    mergeLoop emptyQueue.size emptyQueue = some (.ok (0, emptyQueue)) ∧
    emptyQueue.first = [] ∧
    buildTree zeroTable = some (.error Err.nullDeref) ∧
    mainTree false [] = some (.error Err.nullDeref) ∧
    mainTree true [] = some (.error Err.nullDeref) ∧
    mainTree false [0] = some (.error Err.nullDeref) ∧
    mainTree true [0] = some (.error Err.nullDeref) := by
  decide

/-! ## Optimality -/

theorem dot_cons (x : Int) (w : List Int) (d : Nat) (ds : List Nat) :
    dot (x :: w) (d :: ds) = x * (d : Int) + dot w ds := by simp [dot]

theorem dot_append (w1 w2 : List Int) (d1 d2 : List Nat) (h : w1.length = d1.length) :
    dot (w1 ++ w2) (d1 ++ d2) = dot w1 d1 + dot w2 d2 := by
  unfold dot
  rw [List.zipWith_append _ _ _ _ _ h, List.sum_append]

theorem FullDepths_ge (d : Nat) (ds : List Nat) (h : FullDepths d ds) :
    ds ≠ [] ∧ ∀ x ∈ ds, d ≤ x := by
  induction h with
  | leaf d => simp
  | node d l r _ _ ihl ihr =>
    refine ⟨by simp [ihl.1], ?_⟩
    intro x hx
    rcases List.mem_append.1 hx with h1 | h1
    · have := ihl.2 x h1; omega
    · have := ihr.2 x h1; omega

/-- A list of leaf depths is a single leaf, or it has two neighbouring deepest
leaves which can be replaced by their parent. -/
theorem FullDepths_siblings (d : Nat) (ds : List Nat) (h : FullDepths d ds) :
    ds = [d] ∨ ∃ pre post hh, ds = pre ++ hh :: hh :: post ∧ (∀ x ∈ ds, x ≤ hh) ∧ d < hh ∧
      FullDepths d (pre ++ (hh - 1) :: post) := by
  induction h with
  | leaf d => exact Or.inl rfl
  | node d l r hl hr ihl ihr =>
    right
    rcases ihl with rfl | ⟨pl, ql, h1, el, ml, dl, fl⟩
    · rcases ihr with rfl | ⟨pr, qr, h2, er, mr, dr, fr⟩
      · refine ⟨[], [], d + 1, by simp, by simp, by omega, ?_⟩
        simpa using FullDepths.leaf d
      · refine ⟨(d + 1) :: pr, qr, h2, by simp [er], ?_, by omega, ?_⟩
        · intro x hx
          rcases List.mem_append.1 hx with h3 | h3
          · simp at h3; omega
          · exact mr x h3
        · exact FullDepths.node d [d + 1] (pr ++ (h2 - 1) :: qr) (FullDepths.leaf _) fr
    · rcases ihr with rfl | ⟨pr, qr, h2, er, mr, dr, fr⟩
      · refine ⟨pl, ql ++ [d + 1], h1, by simp [el], ?_, by omega, ?_⟩
        · intro x hx
          rcases List.mem_append.1 hx with h3 | h3
          · exact ml x h3
          · simp at h3; omega
        · have := FullDepths.node d (pl ++ (h1 - 1) :: ql) [d + 1] fl (FullDepths.leaf _)
          simpa using this
      · by_cases hc : h2 ≤ h1
        · refine ⟨pl, ql ++ r, h1, by simp [el], ?_, by omega, ?_⟩
          · intro x hx
            rcases List.mem_append.1 hx with h3 | h3
            · exact ml x h3
            · have := mr x h3; omega
          · have := FullDepths.node d (pl ++ (h1 - 1) :: ql) r fl hr
            simpa using this
        · refine ⟨l ++ pr, qr, h2, by simp [er], ?_, by omega, ?_⟩
          · intro x hx
            rcases List.mem_append.1 hx with h3 | h3
            · have := ml x h3; omega
            · exact mr x h3
          · have := FullDepths.node d l (pr ++ (h2 - 1) :: qr) hl fr
            simpa using this

/-- Moving a weight `x` that is at most `p` to a deepest position, in exchange
for `p`, does not raise the cost. -/
theorem place_min (x p : Int) (hh : Nat) (hx : x ≤ p) :
    ∀ (u : List Int) (e : List Nat), u.length = e.length → (∀ d ∈ e, d ≤ hh) →
      x ∈ p :: u →
      ∃ u1 : List Int, u1.length = u.length ∧ (x :: u1).Perm (p :: u) ∧
        dot u1 e + x * (hh : Int) ≤ dot u e + p * (hh : Int) := by
  intro u
  induction u with
  | nil =>
    intro e _ _ hm
    have : x = p := by simpa using hm
    subst this
    exact ⟨[], rfl, List.Perm.refl _, le_refl _⟩
  | cons y us ih =>
    intro e hlen he hm
    by_cases hxp : x = p
    · subst hxp
      exact ⟨y :: us, rfl, List.Perm.refl _, le_refl _⟩
    cases e with
    | nil => simp at hlen
    | cons d es =>
      have hd : d ≤ hh := he d (by simp)
      by_cases hxy : x = y
      · subst hxy
        refine ⟨p :: us, by simp, List.Perm.swap _ _ _, ?_⟩
        rw [dot_cons, dot_cons]
        have h1 : (0 : Int) ≤ (p - x) * ((hh : Int) - (d : Int)) :=
          mul_nonneg (by linarith) (by have : (d : Int) ≤ (hh : Int) := by exact_mod_cast hd
                                       linarith)
        nlinarith
      · have hm1 : x ∈ p :: us := by
          simp only [List.mem_cons] at hm ⊢
          rcases hm with h1 | h1 | h1
          · exact Or.inl h1
          · exact absurd h1 hxy
          · exact Or.inr h1
        obtain ⟨u1, hl1, hp1, hc1⟩ := ih es (by simpa using hlen)
          (fun d1 hd1 => he d1 (by simp [hd1])) hm1
        refine ⟨y :: u1, by simp [hl1], ?_, ?_⟩
        · exact (List.Perm.swap y x u1).trans
            (((List.Perm.cons y hp1)).trans (List.Perm.swap p y us))
        · rw [dot_cons, dot_cons]; linarith

theorem split_two (n : Nat) : ∀ w : List Int, n + 2 ≤ w.length →
    ∃ wpre p q wpost, w = wpre ++ p :: q :: wpost ∧ wpre.length = n := by
  induction n with
  | zero =>
    intro w hw
    match w, hw with
    | p :: q :: wpost, _ => exact ⟨[], p, q, wpost, rfl, rfl⟩
  | succ n ih =>
    intro w hw
    match w, hw with
    | x :: w1, hw1 =>
      obtain ⟨wpre, p, q, wpost, h1, h2⟩ := ih w1 (by simpa using hw1)
      exact ⟨x :: wpre, p, q, wpost, by simp [h1], by simp [h2]⟩

/-- The exchange step: an assignment of weights to the leaf depths of a tree
with at least two leaves can be turned into one for a tree with one leaf less
in which the two lightest weights are replaced by their sum, at a cost lower
by at least that sum. -/
theorem merge_two_lightest (a b : Int) (R w : List Int) (d : Nat) (ds : List Nat)
    (hab : a ≤ b) (hbR : ∀ r ∈ R, b ≤ r) (hw : w.Perm (a :: b :: R))
    (hlen : w.length = ds.length) (hf : FullDepths d ds) :
    ∃ (w2 : List Int) (ds2 : List Nat), FullDepths d ds2 ∧ w2.length = ds2.length ∧
      w2.Perm ((a + b) :: R) ∧ dot w2 ds2 + a + b ≤ dot w ds := by
  have hwl : w.length = R.length + 2 := by simpa using hw.length_eq
  rcases FullDepths_siblings d ds hf with rfl | ⟨pre, post, hh, hds, hmax, hdh, hf2⟩
  · simp at hlen; omega
  subst hds
  have hge : pre.length + 2 ≤ w.length := by rw [hlen]; simp
  obtain ⟨wpre, p, q, wpost, rfl, hpre⟩ := split_two pre.length w hge
  have hpost : wpost.length = post.length := by
    simp at hlen; omega
  have hmin : ∀ z ∈ a :: b :: R, a ≤ z := by
    intro z hz
    simp only [List.mem_cons] at hz
    rcases hz with rfl | rfl | hz
    · exact le_refl _
    · exact hab
    · exact le_trans hab (hbR z hz)
  have hM : (p :: q :: (wpre ++ wpost)).Perm (a :: b :: R) := by
    refine List.Perm.trans ?_ hw
    refine (List.Perm.trans ?_ (List.perm_middle).symm)
    exact List.Perm.cons p (List.perm_middle).symm
  have he : ∀ x ∈ hh :: (pre ++ post), x ≤ hh := by
    intro x hx
    apply hmax
    simp only [List.mem_cons, List.mem_append] at hx ⊢
    rcases hx with h1 | h1 | h1
    · exact Or.inr (Or.inl h1)
    · exact Or.inl h1
    · exact Or.inr (Or.inr (Or.inr h1))
  have hap : a ≤ p := hmin p (hM.subset (by simp))
  have hamem : a ∈ p :: q :: (wpre ++ wpost) := hM.symm.subset (by simp)
  obtain ⟨u1, hl1, hp1, hc1⟩ := place_min a p hh hap (q :: (wpre ++ wpost))
    (hh :: (pre ++ post)) (by simp [hpre, hpost]) he hamem
  match u1, hl1, hp1, hc1 with
  | [], hl1, _, _ => simp at hl1
  | q1 :: u1, hl1, hp1, hc1 =>
    have hq1 : (q1 :: u1).Perm (b :: R) := (hp1.trans hM).cons_inv
    have hbq : b ≤ q1 := by
      have := hq1.subset (List.mem_cons_self q1 u1)
      simp only [List.mem_cons] at this
      rcases this with h1 | h1
      · exact le_of_eq h1.symm
      · exact hbR q1 h1
    have hbmem : b ∈ q1 :: u1 := hq1.symm.subset (by simp)
    obtain ⟨u2, hl2, hp2, hc2⟩ := place_min b q1 hh hbq u1 (pre ++ post)
      (by simp at hl1; simp [hl1, hpre, hpost]) (fun x hx => he x (by simp [hx])) hbmem
    have hu2 : u2.Perm R := (hp2.trans hq1).cons_inv
    have hu2l : u2.length = pre.length + post.length := by
      simp at hl1; rw [hl2, hl1]; simp [hpre, hpost]
    have htk : (u2.take pre.length).length = pre.length := by
      rw [List.length_take]; omega
    have hdr : (u2.drop pre.length).length = post.length := by
      rw [List.length_drop]; omega
    refine ⟨u2.take pre.length ++ (a + b) :: u2.drop pre.length, pre ++ (hh - 1) :: post,
      hf2, by simp [htk, hdr], ?_, ?_⟩
    · refine List.perm_middle.trans (List.Perm.cons _ ?_)
      rw [List.take_append_drop]; exact hu2
    · have e1 : dot (u2.take pre.length ++ (a + b) :: u2.drop pre.length)
          (pre ++ (hh - 1) :: post) =
          dot (u2.take pre.length) pre + ((a + b) * ((hh - 1 : Nat) : Int) +
            dot (u2.drop pre.length) post) := by
        rw [dot_append _ _ _ _ htk, dot_cons]
      have e2 : dot u2 (pre ++ post) =
          dot (u2.take pre.length) pre + dot (u2.drop pre.length) post := by
        conv_lhs => rw [← List.take_append_drop pre.length u2]
        rw [dot_append _ _ _ _ htk]
      have e3 : dot (wpre ++ p :: q :: wpost) (pre ++ hh :: hh :: post) =
          dot wpre pre + (p * (hh : Int) + (q * (hh : Int) + dot wpost post)) := by
        rw [dot_append _ _ _ _ hpre, dot_cons, dot_cons]
      have e4 : dot (wpre ++ wpost) (pre ++ post) = dot wpre pre + dot wpost post :=
        dot_append _ _ _ _ hpre
      have e5 : ((hh - 1 : Nat) : Int) = (hh : Int) - 1 := by
        have : 1 ≤ hh := by omega
        push_cast [Nat.cast_sub this]; ring
      rw [dot_cons, dot_cons] at hc1
      rw [e1, e3, e5]
      rw [e2] at hc2
      rw [e4] at hc1
      nlinarith

theorem wplFrom_succ (t : Tree) : ∀ d : Nat, wplFrom (d + 1) t = wplFrom d t + leafSum t := by
  induction t with
  | null => intro d; simp [wplFrom, leafSum, leaves]
  | node c o l r ihl ihr =>
    intro d
    by_cases h : l = Tree.null ∧ r = Tree.null
    · simp only [wplFrom, leafSum, leaves, if_pos h]
      push_cast
      simp
      ring
    · have hl : leafSum (Tree.node c o l r) = leafSum l + leafSum r := by
        simp only [leafSum, leaves, if_neg h, List.map_append, List.sum_append]
      simp only [wplFrom, if_neg h]
      rw [ihl (d + 1), ihr (d + 1), hl]
      ring

theorem shaped_full (t : Tree) : shaped t → full t := by
  induction t with
  | null => intro h; exact h
  | node c o l r ihl ihr =>
    intro h
    rcases h with h | ⟨_, h1, h2⟩
    · exact Or.inl h
    · exact Or.inr ⟨ihl h1, ihr h2⟩

theorem full_ne_null (t : Tree) (h : full t) : t ≠ Tree.null := by
  intro h1; subst h1; exact h

/-- The cost of a tree with two children per internal node is that of its leaf
weights over its leaf depths. -/
theorem full_depths (U : Tree) : full U → ∀ d : Nat,
    ∃ ds, FullDepths d ds ∧ ds.length = (leaves U).length ∧
      wplFrom d U = dot ((leaves U).map Prod.snd) ds := by
  induction U with
  | null => intro h; exact absurd h (by simp [full])
  | node c o l r ihl ihr =>
    intro h d
    by_cases hlf : l = Tree.null ∧ r = Tree.null
    · refine ⟨[d], FullDepths.leaf d, by simp [leaves, hlf], ?_⟩
      simp [wplFrom, leaves, hlf, dot]
    · rcases h with h | ⟨h1, h2⟩
      · exact absurd h hlf
      obtain ⟨d1, f1, l1, c1⟩ := ihl h1 (d + 1)
      obtain ⟨d2, f2, l2, c2⟩ := ihr h2 (d + 1)
      refine ⟨d1 ++ d2, FullDepths.node d d1 d2 f1 f2, ?_, ?_⟩
      · simp [leaves, if_neg hlf, l1, l2]
      · simp only [wplFrom, leaves, if_neg hlf, List.map_append]
        rw [dot_append _ _ _ _ (by simp [l1]), c1, c2]

theorem totalCost_perm (F G : List Tree) (h : F.Perm G) : totalCost F = totalCost G :=
  (h.map wpl).sum_eq

theorem wpl_merge (x y : Tree) (hx : shaped x ∧ weighted x) (hy : shaped y ∧ weighted y) :
    wpl (Tree.node 0 (weight x + weight y) x y) = wpl x + wpl y + weight x + weight y := by
  have hn : ¬ (x = Tree.null ∧ y = Tree.null) := fun h => shaped_ne_null x hx.1 h.1
  simp only [wpl, wplFrom, if_neg hn]
  rw [wplFrom_succ, wplFrom_succ, weighted_leafSum x hx.2, weighted_leafSum y hy.2]
  ring

/-- The merge loop, on a queue whose weights add up to at most `INT_MAX`,
against every assignment of the queue's weights to the leaf depths of a tree
with two children per internal node: the tree it ends with costs no more. -/
theorem mergeSteps_cost (k : Nat) :
    ∀ F : List Tree, F.length = k + 1 → F.Pairwise (fun a b => weight a ≤ weight b) →
      ForestInv F → weightSum F ≤ INT_MAX →
      ∀ (w : List Int) (ds : List Nat), w.length = ds.length →
      FullDepths 0 ds → w.Perm (F.map weight) →
      ∃ t, mergeSteps k F = [t] ∧ wpl t ≤ totalCost F + dot w ds := by
  induction k with
  | zero =>
    intro F hF _ _ _ w ds hlen hf hw
    match F, hF with
    | [t], _ =>
      refine ⟨t, rfl, ?_⟩
      have hwl : w.length = 1 := by simpa using hw.length_eq
      rcases FullDepths_siblings 0 ds hf with rfl | ⟨pre, post, hh, hds, _, _, _⟩
      · have hw1 : w = [weight t] := by simpa using hw
        subst hw1
        simp [totalCost, dot]
      · subst hds; simp at hlen; omega
  | succ k ih =>
    intro F hF hs hinv hb w ds hlen hf hw
    match F, hF, hs, hinv, hb, hw with
    | x :: y :: rest, hF, hs, hinv, hb, hw =>
      have hx := hinv.1 x (by simp)
      have hy := hinv.1 y (by simp)
      have hab : weight x ≤ weight y := (List.pairwise_cons.1 hs).1 y (by simp)
      have hbR : ∀ r ∈ rest.map weight, weight y ≤ r := by
        intro r hr
        obtain ⟨t, ht, rfl⟩ := List.mem_map.1 hr
        exact (List.pairwise_cons.1 (List.pairwise_cons.1 hs).2).1 t ht
      obtain ⟨w2, ds2, hf2, hlen2, hw2, hc2⟩ :=
        merge_two_lightest (weight x) (weight y) (rest.map weight) w 0 ds hab hbR
          (by simpa using hw) hlen hf
      have hstep := mergeStep_inv (x :: y :: rest) hs hinv hb
      have hlen3 : (mergeStep (x :: y :: rest)).length = k + 1 := by
        have := mergeStep_length (x :: y :: rest) (by simp)
        simp at this hF; omega
      have hperm : (mergeStep (x :: y :: rest)).Perm
          (Tree.node 0 (weight x + weight y) x y :: rest) := by
        rw [mergeStep_exact x y rest (ForestInv_pos _ hinv) hb]
        exact queueInsert_perm (Tree.node 0 (weight x + weight y) x y) rest
      have hw3 : w2.Perm ((mergeStep (x :: y :: rest)).map weight) := by
        refine hw2.trans ?_
        have := (hperm.map weight).symm
        simpa [weight] using this
      obtain ⟨t, ht, hc⟩ := ih (mergeStep (x :: y :: rest)) hlen3 hstep.1 hstep.2.1
        (by rw [hstep.2.2]; exact hb) w2 ds2 hlen2 hf2 hw3
      refine ⟨t, by simpa [mergeSteps] using ht, ?_⟩
      have hcost : totalCost (mergeStep (x :: y :: rest)) =
          totalCost (x :: y :: rest) + weight x + weight y := by
        rw [totalCost_perm _ _ hperm]
        simp only [totalCost, List.map_cons, List.sum_cons]
        rw [wpl_merge x y hx hy]
        ring
      rw [hcost] at hc
      linarith

theorem leaf_forest (F : List Tree) (h : ∀ t ∈ F, ∃ i o, t = mkLeaf i o ∧ 0 < o) :
    F.map weight = (forestLeaves F).map Prod.snd ∧ totalCost F = 0 := by
  induction F with
  | nil => simp [forestLeaves, totalCost]
  | cons t F ih =>
    obtain ⟨i, o, rfl, _⟩ := h t (by simp)
    obtain ⟨h1, h2⟩ := ih (fun s hs => h s (by simp [hs]))
    constructor
    · simp only [forestLeaves, List.flatMap_cons, List.map_cons, List.map_append] at h1 ⊢
      rw [h1]
      simp [mkLeaf, weight, leaves]
    · simp only [totalCost, List.map_cons, List.sum_cons] at h2 ⊢
      rw [h2]
      simp [mkLeaf, wpl, wplFrom]

set_option maxRecDepth 8000 in
/-- C19 as stated fails where a sum leaves the range of `int`: for the table of
four counts of `2^30` the first merge stores the weight `-2147483648`, that
node is merged again twice, and the built tree costs `9 * 2^30`, while the tree
with the four leaves at depth 2 costs `8 * 2^30`. -/
theorem built_tree_overflow_counterexample :
    (1 ≤ positiveCount tableFourBig ∧
      ∀ i, i < NUMCHARS → 0 ≤ tableFourBig i ∧ tableFourBig i ≤ INT_MAX) ∧
    positiveSum tableFourBig = 4294967296 ∧
    buildTree tableFourBig = some (.ok treeFourBig) ∧
    full treeFourFlat ∧ (leaves treeFourFlat).Perm (leaves treeFourBig) ∧
    wpl treeFourBig = 9663676416 ∧ wpl treeFourFlat = 8589934592 ∧
    ¬ wpl treeFourBig ≤ wpl treeFourFlat := by
  refine ⟨by decide, by decide, by decide, ?_, by decide, by decide, by decide, by decide⟩
  simp [full, treeFourFlat, mkLeaf]

/-- C19 (optimality), for tables whose positive counts add up to at most
`INT_MAX`: the build returns a tree with two children per internal node whose
leaves carry the symbols of the table with their counts, and its weighted path
length, the sum over its leaves of count * depth, is at most that of every
tree with two children per internal node whose leaves carry the same symbols
with the same counts. -/
theorem built_tree_optimal (hashTable : Nat → Int) (hpos : 1 ≤ positiveCount hashTable)
    (hsum : positiveSum hashTable ≤ INT_MAX) :
    ∃ t, buildTree hashTable = some (.ok t) ∧ full t ∧
      (leaves t).Perm ((positiveIndices hashTable).map (fun i => (i, hashTable i))) ∧
      ∀ U : Tree, full U → (leaves U).Perm (leaves t) → wpl t ≤ wpl U := by
  obtain ⟨t, hb, hsh, hms, hlv⟩ := buildTree_facts hashTable hpos
  refine ⟨t, hb, shaped_full t hsh, hlv, ?_⟩
  intro U hU hperm
  obtain ⟨ds, hf, hl, hc⟩ := full_depths U hU 0
  have hleaf : ∀ s ∈ seedList hashTable (List.range NUMCHARS) [], ∃ i o, s = mkLeaf i o ∧ 0 < o :=
    seedList_mkLeaf hashTable (List.range NUMCHARS) [] (by simp)
  obtain ⟨hw, h0⟩ := leaf_forest _ hleaf
  have hsl := seedList_leaves hashTable (List.range NUMCHARS) []
  have hlen : (seedList hashTable (List.range NUMCHARS) []).length =
      (positiveCount hashTable - 1) + 1 := by
    rw [seed_length]; omega
  have hwp : ((leaves U).map Prod.snd).Perm
      ((seedList hashTable (List.range NUMCHARS) []).map weight) := by
    rw [hw]
    refine (hperm.map Prod.snd).trans ((hlv.map Prod.snd).trans ?_)
    have := (hsl.map Prod.snd).symm
    simpa [forestLeaves, positiveIndices] using this
  obtain ⟨t1, ht1, hcost⟩ := mergeSteps_cost (positiveCount hashTable - 1)
    (seedList hashTable (List.range NUMCHARS) []) hlen
    (seedList_sorted hashTable (List.range NUMCHARS) [] List.Pairwise.nil)
    (ForestInv_leaves _ hleaf) (by rw [seed_weightSum]; exact hsum)
    ((leaves U).map Prod.snd) ds (by simp [hl]) hf hwp
  rw [hms] at ht1
  have : t1 = t := by simpa using ht1.symm
  subst this
  rw [h0, ← hc] at hcost
  simpa [wpl] using hcost

set_option maxRecDepth 8000 in
/-- C19 at the table of "aaabcc": the build returns `treeABC`, of weighted path
length 9, against 9 for the tree with `'b'` and `'c'` on the left and 10 for
the tree that pairs `'a'` with `'b'`. -/
theorem built_tree_optimal_witness :
    (1 ≤ positiveCount tableABC ∧ positiveSum tableABC ≤ INT_MAX) ∧
      buildTree tableABC = some (.ok treeABC) ∧
      wpl treeABC = 9 ∧ wpl treeBCA = 9 ∧ wpl treeABC ≤ wpl treeBCA ∧
      wpl treeABC ≤ wpl (Tree.node 0 6 (Tree.node 0 4 (mkLeaf 97 3) (mkLeaf 98 1)) (mkLeaf 99 2)) ∧
      wpl (Tree.node 0 6 (Tree.node 0 4 (mkLeaf 97 3) (mkLeaf 98 1)) (mkLeaf 99 2)) = 10 := by
  have hp : 1 ≤ positiveCount tableABC := by decide
  have hs : positiveSum tableABC ≤ INT_MAX := by decide
  obtain ⟨t, hb, _, _, hopt⟩ := built_tree_optimal tableABC hp hs
  rw [buildTree_tableABC] at hb
  have ht : treeABC = t := by simpa using hb
  subst ht
  refine ⟨⟨hp, hs⟩, buildTree_tableABC, by decide, by decide, ?_, ?_, by decide⟩
  · exact hopt treeBCA (by simp [full, treeBCA, mkLeaf]) (by decide)
  · exact hopt _ (by simp [full, mkLeaf]) (by decide)

end Huffman
